import Mathlib

/-!
Verification of the hippocampus memory-server core against its source.

The TypeScript source is shallowly embedded: the SQLite tables become lists
of rows inside a `Store` structure, `randomUUID` becomes a per-store counter
(fresh ids are distinct from all live ids), wall-clock timestamps become a
`Nat` parameter, and `Float32Array` vectors become lists of rationals with
cosine similarity computed as the dot product, exactly as both
`remember.ts` and `consolidate.ts` do.  The embedder pipeline and the
JavaScript regular-expression engine are external libraries and enter the
model as function parameters.
-/

namespace Hippocampus

/-- Row identifiers. The source uses `randomUUID()` strings; the model draws
them from the `nextId` counter of the store, which preserves the one
property the code relies on: a fresh id differs from every stored id. -/
abbrev Id := Nat

/-- Embedding vectors (`Float32Array` in the source), modelled with exact
rational components. -/
abbrev Vec := List ℚ

/-- `cosineSimilarity` from `remember.ts` and `consolidate.ts`: a plain dot
product over the common prefix of the two vectors (stored vectors are
normalized, so the dot product is the cosine). -/
def cosineSimilarity (a b : Vec) : ℚ :=
  (a.zip b).foldl (fun acc p => acc + p.1 * p.2) 0

/-- `Math.round(x * 1000) / 1000` from `recall.ts` and `consolidate.ts`.
JavaScript `Math.round x` is `⌊x + 1/2⌋`. -/
def round3 (q : ℚ) : ℚ := ((⌊q * 1000 + 1/2⌋ : ℤ) : ℚ) / 1000

/-- Row of the `entities` table (`db/entities.ts`). -/
structure Entity where
  id : Id
  name : String
  type : Option String
  created_at : Nat
  updated_at : Nat
deriving DecidableEq, Repr

/-- Row of the `observations` table (`db/observations.ts`). -/
structure Observation where
  id : Id
  entity_id : Id
  content : String
  source : Option String
  created_at : Nat
deriving DecidableEq, Repr

/-- Row of the `embeddings` table (`embeddings/embedder.ts`). -/
structure Embedding where
  id : Id
  entity_id : Id
  observation_id : Id
  vector : Vec
  text_content : String
  created_at : Nat
deriving DecidableEq, Repr

/-- Row of the `relationships` table (`db/relationships.ts`). -/
structure Relationship where
  id : Id
  from_entity : Id
  to_entity : Id
  relation_type : String
  created_at : Nat
deriving DecidableEq, Repr

/-- The persistent store: the four data tables of schema v2 plus the id
supply. -/
structure Store where
  entities : List Entity
  observations : List Observation
  embeddings : List Embedding
  relationships : List Relationship
  nextId : Id
deriving DecidableEq, Repr

/-- Stable sort, descending in the key `f` — the model of
SQL ORDER BY f DESC and of the JavaScript comparators
(a, b) => b.f - a.f used in the source. -/
def sortByDescNat (f : α → Nat) (l : List α) : List α :=
  l.mergeSort (fun a b => f b ≤ f a)

/-- Stable descending sort for rational keys. -/
def sortByDescRat (f : α → ℚ) (l : List α) : List α :=
  l.mergeSort (fun a b => f b ≤ f a)

/-! ### db/entities.ts -/

/-- SELECT * FROM entities WHERE id = ? (first row). -/
def findEntityById (s : Store) (id : Id) : Option Entity :=
  s.entities.find? (fun e => e.id == id)

/-- SELECT * FROM entities WHERE name = ? (first row). -/
def findEntityByName (s : Store) (name : String) : Option Entity :=
  s.entities.find? (fun e => e.name == name)

/-- findOrCreateEntity: return the existing row by name, or insert a fresh
one (created_at and updated_at default to the current time). -/
def findOrCreateEntity (s : Store) (now : Nat) (name : String)
    (ty : Option String) : Entity × Store :=
  match findEntityByName s name with
  | some e => (e, s)
  | none =>
    let e : Entity :=
      { id := s.nextId, name := name, type := ty
        created_at := now, updated_at := now }
    (e, { s with entities := s.entities ++ [e], nextId := s.nextId + 1 })

/-- listEntities: optional type filter, ORDER BY updated_at DESC, LIMIT. -/
def listEntities (s : Store) (ty : Option String) (limit : Nat) : List Entity :=
  let rows := match ty with
    | some t => s.entities.filter (fun e => e.type == some t)
    | none => s.entities
  (sortByDescNat (fun e => e.updated_at) rows).take limit

/-- updateEntityTimestamp: UPDATE entities SET updated_at = now WHERE id = ?. -/
def updateEntityTimestamp (s : Store) (now : Nat) (id : Id) : Store :=
  { s with entities :=
      s.entities.map (fun e => if e.id == id then { e with updated_at := now } else e) }

/-- deleteEntity: DELETE FROM entities WHERE id = ?, with the ON DELETE
CASCADE declared in the schema (observations, embeddings and relationships
referencing the entity go with it; embeddings also cascade from the deleted
observations). Returns whether a row was deleted. -/
def deleteEntity (s : Store) (id : Id) : Store × Bool :=
  let hit := s.entities.any (fun e => e.id == id)
  let deadObs := s.observations.filter (fun o => o.entity_id == id)
  ({ s with
      entities := s.entities.filter (fun e => e.id != id)
      observations := s.observations.filter (fun o => o.entity_id != id)
      embeddings := s.embeddings.filter (fun em =>
        em.entity_id != id && !(deadObs.any (fun o => o.id == em.observation_id)))
      relationships := s.relationships.filter (fun r =>
        r.from_entity != id && r.to_entity != id) }, hit)

/-! ### db/observations.ts -/

/-- createObservation: INSERT, then touch the owning entity. -/
def createObservation (s : Store) (now : Nat) (entityId : Id)
    (content : String) (source : Option String) : Observation × Store :=
  let o : Observation :=
    { id := s.nextId, entity_id := entityId, content := content
      source := source, created_at := now }
  let s1 := { s with observations := s.observations ++ [o], nextId := s.nextId + 1 }
  (o, updateEntityTimestamp s1 now entityId)

/-- Joined row returned by searchObservations. -/
structure ObservationWithEntity extends Observation where
  entity_name : String
  entity_type : Option String
deriving DecidableEq, Repr

/-- Case-insensitive substring containment, the model of
SQL LIKE with wildcards on both sides (case-insensitive for ASCII). -/
def likeContains (hay q : String) : Bool :=
  decide (q.toLower.data <:+: hay.toLower.data)

/-- getObservationsByIds: WHERE id IN (...), then reordered to the requested
order (duplicated request ids repeat the row; missing ids are dropped). -/
def getObservationsByIds (s : Store) (ids : List Id) : List Observation :=
  ids.filterMap (fun id => s.observations.find? (fun o => o.id == id))

/-- searchObservations: substring match on observation content OR entity
name, optional type and since filters, ORDER BY created_at DESC, LIMIT
capped at 50. -/
def searchObservations (s : Store) (query : String) (limit : Nat)
    (ty : Option String) (since : Option Nat) : List ObservationWithEntity :=
  let cap := min limit 50
  let joined := s.observations.filterMap (fun o =>
    (findEntityById s o.entity_id).map (fun e =>
      ({ toObservation := o, entity_name := e.name, entity_type := e.type }
        : ObservationWithEntity)))
  let rows := joined.filter (fun r =>
    (likeContains r.content query || likeContains r.entity_name query)
    && (match ty with | some t => r.entity_type == some t | none => true)
    && (match since with | some d => decide (d ≤ r.created_at) | none => true))
  (sortByDescNat (fun r => r.created_at) rows).take cap

/-- deleteObservationsByEntity, with the embedding cascade; returns the
number of observation rows removed. -/
def deleteObservationsByEntity (s : Store) (entityId : Id) : Store × Nat :=
  let dead := s.observations.filter (fun o => o.entity_id == entityId)
  ({ s with
      observations := s.observations.filter (fun o => o.entity_id != entityId)
      embeddings := s.embeddings.filter (fun em =>
        !(dead.any (fun o => o.id == em.observation_id))) }, dead.length)

/-- deleteObservation, with the embedding cascade; returns whether a row
was removed. -/
def deleteObservation (s : Store) (id : Id) : Store × Bool :=
  let hit := s.observations.any (fun o => o.id == id)
  ({ s with
      observations := s.observations.filter (fun o => o.id != id)
      embeddings := s.embeddings.filter (fun em => em.observation_id != id) }, hit)

/-! ### db/relationships.ts -/

/-- createRelationship: INSERT and return the row. -/
def createRelationship (s : Store) (now : Nat) (fromId toId : Id)
    (relationType : String) : Relationship × Store :=
  let r : Relationship :=
    { id := s.nextId, from_entity := fromId, to_entity := toId
      relation_type := relationType, created_at := now }
  (r, { s with relationships := s.relationships ++ [r], nextId := s.nextId + 1 })

/-- relationshipExists: any row with endpoints \x7bA,B\x7d in either
direction. -/
def relationshipExists (s : Store) (a b : Id) : Bool :=
  s.relationships.any (fun r =>
    (r.from_entity == a && r.to_entity == b)
    || (r.from_entity == b && r.to_entity == a))

/-- deleteRelationshipsByEntity: either endpoint; returns the count. -/
def deleteRelationshipsByEntity (s : Store) (entityId : Id) : Store × Nat :=
  let dead := s.relationships.filter (fun r =>
    r.from_entity == entityId || r.to_entity == entityId)
  ({ s with relationships := s.relationships.filter (fun r =>
      !(r.from_entity == entityId || r.to_entity == entityId)) }, dead.length)

/-! ### embeddings/embedder.ts (store side; the model pipeline itself is an
external library and is passed in as a function where needed) -/

/-- Joined row returned by getEmbeddingsByEntity and scored by
semanticSearch. -/
structure StoredVector where
  observation_id : Id
  entity_id : Id
  entity_name : String
  entity_type : Option String
  content : String
  source : Option String
  created_at : Nat
  vector : Vec
deriving DecidableEq, Repr

/-- storeEmbedding: INSERT INTO embeddings. -/
def storeEmbedding (s : Store) (now : Nat) (entityId observationId : Id)
    (vector : Vec) (textContent : String) : Store :=
  let em : Embedding :=
    { id := s.nextId, entity_id := entityId, observation_id := observationId
      vector := vector, text_content := textContent, created_at := now }
  { s with embeddings := s.embeddings ++ [em], nextId := s.nextId + 1 }

/-- getEmbeddingsByEntity: embeddings JOIN observations JOIN entities, with
an optional entity filter (the JOIN drops rows whose observation or entity
is missing). -/
def getEmbeddingsByEntity (s : Store) (entityId : Option Id) : List StoredVector :=
  let rows : List Embedding := match entityId with
    | some eid => s.embeddings.filter (fun em => em.entity_id == eid)
    | none => s.embeddings
  rows.filterMap (fun em =>
    match s.observations.find? (fun o => o.id == em.observation_id),
        findEntityById s em.entity_id with
    | some o, some e =>
      some { observation_id := em.observation_id, entity_id := em.entity_id
             entity_name := e.name, entity_type := e.type
             content := o.content, source := o.source
             created_at := o.created_at, vector := em.vector }
    | _, _ => none)

/-- A semanticSearch row: a joined row scored against the query vector. -/
structure SemanticSearchResult where
  observation_id : Id
  entity_id : Id
  entity_name : String
  entity_type : Option String
  content : String
  source : Option String
  created_at : Nat
  similarity : ℚ
deriving DecidableEq, Repr

/-- semanticSearch given the already-computed query vector: join with
optional type and since filters, score every row by dot product, sort
descending by similarity (stable, as Array.prototype.sort), truncate. -/
def semanticSearchScored (s : Store) (queryVector : Vec) (limit : Nat)
    (ty : Option String) (since : Option Nat) : List SemanticSearchResult :=
  let rows := s.embeddings.filterMap (fun em =>
    match s.observations.find? (fun o => o.id == em.observation_id),
        findEntityById s em.entity_id with
    | some o, some e =>
      some { observation_id := em.observation_id, entity_id := em.entity_id
             entity_name := e.name, entity_type := e.type
             content := o.content, source := o.source
             created_at := o.created_at
             similarity := cosineSimilarity queryVector em.vector
             : SemanticSearchResult }
    | _, _ => none)
  let filtered := rows.filter (fun r =>
    (match ty with | some t => r.entity_type == some t | none => true)
    && (match since with | some d => decide (d ≤ r.created_at) | none => true))
  (sortByDescRat (fun r => r.similarity) filtered).take limit

/-- semanticSearch proper: generateEmbedding may reject (the embedder is an
external pipeline), in which case the rejection propagates to the caller. -/
def semanticSearch (s : Store) (embedRes : Except Unit Vec) (limit : Nat)
    (ty : Option String) (since : Option Nat) :
    Except Unit (List SemanticSearchResult) :=
  match embedRes with
  | .error e => .error e
  | .ok qv => .ok (semanticSearchScored s qv limit ty since)

/-- deleteEmbedding: DELETE FROM embeddings WHERE observation_id = ?;
returns whether anything was removed. -/
def deleteEmbedding (s : Store) (observationId : Id) : Store × Bool :=
  let hit := s.embeddings.any (fun em => em.observation_id == observationId)
  ({ s with embeddings :=
      s.embeddings.filter (fun em => em.observation_id != observationId) }, hit)

/-- deleteEmbeddingsByEntity: returns the number of rows removed. -/
def deleteEmbeddingsByEntity (s : Store) (entityId : Id) : Store × Nat :=
  let dead := s.embeddings.filter (fun em => em.entity_id == entityId)
  ({ s with embeddings :=
      s.embeddings.filter (fun em => em.entity_id != entityId) }, dead.length)

/-! ### db/schema.ts -/

/-- The highest schema version this code understands. -/
def SCHEMA_VERSION : Int := 2

/-- initializeSchema, restricted to its version housekeeping: the v1 DDL
always runs, then the single version row is read.  A missing row means a
fresh database: run the v2 DDL and insert version 2.  A version below 2
runs the v2 DDL and updates the row to 2.  Any other version is left
untouched.  The codomain is Except so that the (absent) refusal path is
expressible: no branch of the source throws, so every branch is .ok; the
returned value is the version stored afterwards. -/
def initializeSchema (versionRow : Option Int) : Except String Int :=
  match versionRow with
  | none => .ok SCHEMA_VERSION
  | some v => if v < 2 then .ok SCHEMA_VERSION else .ok v

/-! ### mcp/tools/forget.ts -/

structure ForgetInput where
  entity : Option String
  observation_id : Option Id
deriving DecidableEq, Repr

structure ForgetDeleted where
  observations : Nat
  embeddings : Nat
  relationships : Nat
  entity : Bool
deriving DecidableEq, Repr

structure ForgetResult where
  success : Bool
  message : String
  deleted : ForgetDeleted
deriving DecidableEq, Repr

/-- JavaScript truthiness of the optional entity-name argument: absent and
the empty string are both falsy. -/
def providedStr (o : Option String) : Bool :=
  match o with
  | none => false
  | some str => !str.isEmpty

/-- Truthiness of the optional observation id.  The source holds a UUID
string, never empty, so presence coincides with truthiness. -/
def providedId (o : Option Id) : Bool := o.isSome

/-- forget from forget.ts.  Note that the source only rejects when NEITHER
argument is truthy; when both are given the observation_id branch runs. -/
def forget (s : Store) (input : ForgetInput) : ForgetResult × Store :=
  if !providedStr input.entity && !providedId input.observation_id then
    ({ success := false
       message := "Either entity name or observation_id is required."
       deleted := { observations := 0, embeddings := 0, relationships := 0
                    entity := false } }, s)
  else
    match input.observation_id with
    | some oid =>
      let (s1, embDeleted) := deleteEmbedding s oid
      let (s2, obsDeleted) := deleteObservation s1 oid
      ({ success := obsDeleted
         message := if obsDeleted then "Deleted observation " ++ toString oid ++ "."
           else "Observation " ++ toString oid ++ " not found."
         deleted := { observations := if obsDeleted then 1 else 0
                      embeddings := if embDeleted then 1 else 0
                      relationships := 0, entity := false } }, s2)
    | none =>
      let name := input.entity.getD ""
      match findEntityByName s name with
      | none =>
        ({ success := false
           message := "Entity " ++ name ++ " not found."
           deleted := { observations := 0, embeddings := 0, relationships := 0
                        entity := false } }, s)
      | some e =>
        let (s1, embCount) := deleteEmbeddingsByEntity s e.id
        let (s2, obsCount) := deleteObservationsByEntity s1 e.id
        let (s3, relCount) := deleteRelationshipsByEntity s2 e.id
        let (s4, entityDeleted) := deleteEntity s3 e.id
        ({ success := true
           message := "Forgot entity " ++ name ++ " and all associated data."
           deleted := { observations := obsCount, embeddings := embCount
                        relationships := relCount, entity := entityDeleted } }, s4)

/-! ### mcp/tools/merge.ts -/

structure MergeInput where
  observation_ids : List Id
  content : String
deriving DecidableEq, Repr

structure MergeResult where
  success : Bool
  new_observation_id : Id
  merged_count : Nat
  entity_name : String
  message : String
deriving DecidableEq, Repr

/-- The exceptions merge can raise. emptyObservations stands for the
TypeError the source hits when it reads observations[0].entity_id on an
empty array. -/
inductive MergeErr where
  | notFound (missing : List Id)
  | multipleEntities
  | emptyObservations
  | entityNotFound (entityId : Id)
deriving DecidableEq, Repr

/-- First non-null source among the fetched originals, in requested order. -/
def firstNonNullSource (obs : List Observation) : Option String :=
  (obs.find? (fun o => o.source.isSome)).bind (fun o => o.source)

/-- merge from merge.ts.  Validation first (missing ids, then the
distinct-entity check), then the embedding of the new content, the insert
of the merged observation and its embedding, and finally the
delete-embedding/delete-observation loop over the originals.  Throws are
modelled by the Except value; the store is returned unchanged beside an
error. -/
def merge (embed : String → Vec) (s : Store) (now : Nat) (input : MergeInput) :
    Except MergeErr MergeResult × Store :=
  let observations := getObservationsByIds s input.observation_ids
  let foundIds := observations.map (fun o => o.id)
  let missingIds := input.observation_ids.filter (fun id => !foundIds.contains id)
  if !missingIds.isEmpty then (.error (.notFound missingIds), s)
  else if 1 < (observations.map (fun o => o.entity_id)).dedup.length then
    (.error .multipleEntities, s)
  else
    match observations with
    | [] => (.error .emptyObservations, s)
    | o0 :: _ =>
      match findEntityById s o0.entity_id with
      | none => (.error (.entityNotFound o0.entity_id), s)
      | some entity =>
        let source := firstNonNullSource observations
        let vector := embed input.content
        let (newObservation, s1) :=
          createObservation s now o0.entity_id input.content source
        let s2 := storeEmbedding s1 now o0.entity_id newObservation.id
          vector input.content
        let s3 := observations.foldl (fun st obs =>
          ((deleteObservation (deleteEmbedding st obs.id).1 obs.id).1)) s2
        (.ok { success := true
               new_observation_id := newObservation.id
               merged_count := observations.length
               entity_name := entity.name
               message := "Merged " ++ toString observations.length
                 ++ " observations into one for " ++ entity.name ++ "." }, s3)

/-! ### mcp/tools/recall.ts -/

structure RecallInput where
  query : String
  limit : Nat
  type : Option String
  since : Option Nat
deriving DecidableEq, Repr

/-- Loose similarity floor applied to semantic results in recall. -/
def SIMILARITY_THRESHOLD : ℚ := 15 / 100

structure MemoryResult where
  observation_id : Id
  entity : String
  type : Option String
  content : String
  source : Option String
  remembered_at : Nat
  similarity : Option ℚ
deriving DecidableEq, Repr

structure RecallResult where
  success : Bool
  count : Nat
  memories : List MemoryResult
deriving DecidableEq, Repr

/-- How recall renders a semantic hit (similarity rounded to 3 decimals). -/
def semMemory (r : SemanticSearchResult) : MemoryResult :=
  { observation_id := r.observation_id, entity := r.entity_name
    type := r.entity_type, content := r.content, source := r.source
    remembered_at := r.created_at, similarity := some (round3 r.similarity) }

/-- formatObservation from recall.ts (keyword hits carry no similarity). -/
def formatObservation (obs : ObservationWithEntity) : MemoryResult :=
  { observation_id := obs.id, entity := obs.entity_name
    type := obs.entity_type, content := obs.content, source := obs.source
    remembered_at := obs.created_at, similarity := none }

/-- The recall tool from recall.ts (recall is a Mathlib command keyword, hence the Tool suffix): semantic and keyword search (a semantic failure
is caught and becomes the empty list), then the merge loop over a seen-set
(semantic hits below the floor are skipped before the seen check, exactly
as in the source), then truncation to the limit. -/
def recallTool (s : Store) (embedRes : Except Unit Vec) (input : RecallInput) :
    RecallResult :=
  let semanticResults : List SemanticSearchResult :=
    match semanticSearch s embedRes input.limit input.type input.since with
    | .error _ => []
    | .ok rs => rs
  let keywordResults :=
    searchObservations s input.query input.limit input.type input.since
  let step1 := semanticResults.foldl
    (fun (acc : List Id × List MemoryResult) r =>
      if r.similarity < SIMILARITY_THRESHOLD then acc
      else if acc.1.contains r.observation_id then acc
      else (acc.1 ++ [r.observation_id], acc.2 ++ [semMemory r])) ([], [])
  let step2 := keywordResults.foldl
    (fun (acc : List Id × List MemoryResult) obs =>
      if acc.1.contains obs.id then acc
      else (acc.1 ++ [obs.id], acc.2 ++ [formatObservation obs])) step1
  let limited := step2.2.take input.limit
  { success := true, count := limited.length, memories := limited }

/-! ### mcp/tools/remember.ts -/

/-- Dedup similarity threshold. -/
def DEDUP_THRESHOLD : ℚ := 85 / 100

structure RememberInput where
  content : String
  entity : Option String
  type : Option String
  source : Option String
deriving DecidableEq, Repr

structure RememberResult where
  success : Bool
  entityId : Id
  entityName : String
  observationId : Id
  relationships_created : List String
  message : String
  deduplicated : Bool
  replaced_observation : Option String
deriving DecidableEq, Repr

/-- The dedup scan of remember.ts: fold over the stored vectors keeping the
best (similarity, row) pair; a candidate replaces the current best only
when its similarity is at least the threshold and strictly greater than the
best so far, so the earliest of equally-similar rows wins.  The source
keeps the index and reads existing[index]; the model keeps the row itself,
which is the same value. -/
def bestStep (v : Vec) (best : Option (ℚ × StoredVector)) (row : StoredVector) :
    Option (ℚ × StoredVector) :=
  let sim := cosineSimilarity v row.vector
  if DEDUP_THRESHOLD ≤ sim
      && (match best with | none => true | some b => decide (b.1 < sim)) then
    some (sim, row)
  else best

def findBestMatch (v : Vec) (existing : List StoredVector) :
    Option (ℚ × StoredVector) :=
  existing.foldl (bestStep v) none

/-- JavaScript \s for the purposes of the separator-collapsing step,
restricted to the ASCII whitespace the repository can store. -/
def isJsSpace (c : Char) : Bool :=
  c == ' ' || c == '\t' || c == '\n' || c == '\r'
    || c == Char.ofNat 11 || c == Char.ofNat 12

/-- The regex metacharacters escaped by detectAndCreateRelationships. -/
def isRegexSpecial (c : Char) : Bool :=
  c == '.' || c == '*' || c == '+' || c == '?' || c == '^' || c == '$'
    || c == Char.ofNat 123 || c == Char.ofNat 125
    || c == '(' || c == ')' || c == '|' || c == '[' || c == ']' || c == '\\'

/-- name.replace of the metacharacter class with a backslash-prefixed
match. -/
def escapeRegexChars (name : String) : String :=
  String.mk (name.data.foldr (fun c acc =>
    if isRegexSpecial c then '\\' :: c :: acc else c :: acc) [])

/-- .replace of runs matching one-or-more hyphens, underscores or
whitespace with the character-class-plus pattern text. -/
def collapseSeparators (l : List Char) : List Char :=
  match l with
  | [] => []
  | c :: rest =>
    if c == '-' || c == '_' || isJsSpace c then
      let rest2 := rest.dropWhile (fun d => d == '-' || d == '_' || isJsSpace d)
      '[' :: '-' :: '_' :: '\\' :: 's' :: ']' :: '+' :: collapseSeparators rest2
    else c :: collapseSeparators rest
termination_by l.length
decreasing_by
  all_goals simp_wf
  have h := (List.dropWhile_sublist
    (l := rest) (fun d => d == '-' || d == '_' || isJsSpace d)).length_le
  omega

/-- The word-boundary pattern string compiled per candidate name. -/
def wordBoundaryPattern (name : String) : String :=
  "\\b" ++ String.mk (collapseSeparators (escapeRegexChars name).data) ++ "\\b"

/-- detectAndCreateRelationships from remember.ts.  The candidate list is
the 500 most recently updated entities; self, the general entity and names
shorter than 3 characters are skipped; the compiled pattern is tested by
the external regex engine matchesRe; a relates_to relationship is inserted
unless one already exists in either direction.  Returns the linked names
and the updated store. -/
def detectAndCreateRelationships (matchesRe : String → String → Bool)
    (s : Store) (now : Nat) (sourceEntity : Entity) (content : String) :
    List String × Store :=
  let entities := listEntities s none 500
  entities.foldl (fun (acc : List String × Store) candidate =>
    if candidate.id == sourceEntity.id then acc
    else if candidate.name == "general" then acc
    else if candidate.name.length < 3 then acc
    else if matchesRe (wordBoundaryPattern candidate.name) content then
      if relationshipExists acc.2 sourceEntity.id candidate.id then acc
      else
        (acc.1 ++ [candidate.name],
          (createRelationship acc.2 now sourceEntity.id candidate.id
            "relates_to").2)
    else acc) ([], s)

/-- remember from remember.ts.  input.entity falls back to the general
entity when absent or empty (JavaScript truthiness); the embedding of the
new content is computed first; the dedup scan runs over the embeddings of
the owning entity; a sufficiently similar match either short-circuits the
call (skip) or is replaced when the new content is strictly longer. -/
def remember (matchesRe : String → String → Bool) (embed : String → Vec)
    (s : Store) (now : Nat) (input : RememberInput) : RememberResult × Store :=
  let entityName := if providedStr input.entity then input.entity.getD "" else "general"
  let (entity, s0) := findOrCreateEntity s now entityName input.type
  let vector := embed input.content
  let existing := getEmbeddingsByEntity s0 (some entity.id)
  match findBestMatch vector existing with
  | some (_sim, m) =>
    if input.content.length ≤ m.content.length then
      ({ success := true, entityId := entity.id, entityName := entity.name
         observationId := m.observation_id, relationships_created := []
         message := "Deduplicated: similar observation already exists for "
           ++ entity.name
         deduplicated := true, replaced_observation := none }, s0)
    else
      let s1 := (deleteEmbedding s0 m.observation_id).1
      let s2 := (deleteObservation s1 m.observation_id).1
      let (observation, s3) :=
        createObservation s2 now entity.id input.content input.source
      let s4 := storeEmbedding s3 now entity.id observation.id vector input.content
      let (created, s5) :=
        detectAndCreateRelationships matchesRe s4 now entity input.content
      ({ success := true, entityId := entity.id, entityName := entity.name
         observationId := observation.id, relationships_created := created
         message := "Replaced shorter duplicate for " ++ entity.name
         deduplicated := false, replaced_observation := some m.content }, s5)
  | none =>
    let (observation, s1) :=
      createObservation s0 now entity.id input.content input.source
    let s2 := storeEmbedding s1 now entity.id observation.id vector input.content
    let (created, s3) :=
      detectAndCreateRelationships matchesRe s2 now entity input.content
    ({ success := true, entityId := entity.id, entityName := entity.name
       observationId := observation.id, relationships_created := created
       message := "Remembered for entity " ++ entity.name
       deduplicated := false, replaced_observation := none }, s3)

/-! ### mcp/tools/consolidate.ts -/

structure ConsolidateInput where
  entity : Option String
  threshold : Option ℚ
deriving DecidableEq, Repr

structure ClusterObservation where
  observation_id : Id
  entity : String
  type : Option String
  content : String
  source : Option String
  remembered_at : Nat
deriving DecidableEq, Repr

structure Cluster where
  observations : List ClusterObservation
  avg_similarity : ℚ
deriving DecidableEq, Repr

structure ConsolidateResult where
  success : Bool
  total_observations : Nat
  clusters : List Cluster
  message : String
deriving DecidableEq, Repr

/-- The union-find of consolidate.ts: parent and rank arrays. -/
structure UnionFind where
  parent : Array Nat
  rank : Array Nat
deriving DecidableEq, Repr

/-- new UnionFind(n): parent i = i, rank i = 0. -/
def UnionFind.init (n : Nat) : UnionFind :=
  { parent := Array.range n, rank := Array.mkArray n 0 }

/-- find with path compression, as in the source; the recursion is indexed
by fuel, which the callers set to the array size (sufficient whenever the
parent chains are acyclic, which the union discipline maintains). -/
def UnionFind.findAux (uf : UnionFind) (x : Nat) : Nat → Nat × UnionFind
  | 0 => (x, uf)
  | fuel + 1 =>
    let p := uf.parent.getD x x
    if p == x then (x, uf)
    else
      let (r, uf1) := uf.findAux p fuel
      (r, { uf1 with parent := uf1.parent.setD x r })

/-- find(x). -/
def UnionFind.find (uf : UnionFind) (x : Nat) : Nat × UnionFind :=
  uf.findAux x uf.parent.size

/-- union(x, y) by rank, exactly as in the source. -/
def UnionFind.union (uf : UnionFind) (x y : Nat) : UnionFind :=
  let (rx, uf1) := uf.find x
  let (ry, uf2) := uf1.find y
  if rx == ry then uf2
  else
    let rkx := uf2.rank.getD rx 0
    let rky := uf2.rank.getD ry 0
    if rkx < rky then { uf2 with parent := uf2.parent.setD rx ry }
    else if rky < rkx then { uf2 with parent := uf2.parent.setD ry rx }
    else { parent := uf2.parent.setD ry rx, rank := uf2.rank.setD rx (rkx + 1) }

/-- A default row for out-of-range list reads (never reached on the index
sets the code iterates over). -/
def svDefault : StoredVector :=
  { observation_id := 0, entity_id := 0, entity_name := "", entity_type := none
    content := "", source := none, created_at := 0, vector := [] }

/-- Similarity of the stored vectors at positions i and j. -/
def simAt (vectors : List StoredVector) (i j : Nat) : ℚ :=
  cosineSimilarity (vectors.getD i svDefault).vector (vectors.getD j svDefault).vector

/-- The index pairs (i, j), i < j, in the order of the nested loops of the
source. -/
def allPairs (n : Nat) : List (Nat × Nat) :=
  (List.range n).flatMap (fun i =>
    ((List.range n).filter (fun j => i < j)).map (fun j => (i, j)))

/-- The pair loop of consolidate.ts: union the indices of every pair at or
above the threshold and memoize that similarity under the ordered key. -/
def buildUF (vectors : List StoredVector) (threshold : ℚ) :
    UnionFind × List ((Nat × Nat) × ℚ) :=
  (allPairs vectors.length).foldl
    (fun (acc : UnionFind × List ((Nat × Nat) × ℚ)) p =>
      let sim := simAt vectors p.1 p.2
      if threshold ≤ sim then (acc.1.union p.1 p.2, acc.2 ++ [(p, sim)])
      else acc)
    (UnionFind.init vectors.length, [])

/-- Memoized similarity lookup under the ordered key, as the
min:max key string of the source. -/
def lookupSim (memo : List ((Nat × Nat) × ℚ)) (a b : Nat) : Option ℚ :=
  (memo.find? (fun e => e.1 == (if a < b then (a, b) else (b, a)))).map (fun e => e.2)

/-- The root-grouping pass: for each index in order, find its root (the
find calls thread the compressed state exactly as the mutation in the
source does) and append the index to the group of that root, creating the
group at first sight — the Map preserves root first-occurrence order. -/
def groupRoots (uf : UnionFind) (n : Nat) : List (Nat × List Nat) :=
  ((List.range n).foldl
    (fun (acc : UnionFind × List (Nat × List Nat)) i =>
      let (r, uf1) := acc.1.find i
      if acc.2.any (fun g => g.1 == r) then
        (uf1, acc.2.map (fun g => if g.1 == r then (g.1, g.2 ++ [i]) else g))
      else (uf1, acc.2 ++ [(r, [i])]))
    (uf, [])).2

/-- The index pairs of the positions inside one cluster member list. -/
def memberPairs (members : List Nat) : List (Nat × Nat) :=
  (allPairs members.length).map (fun p => (members.getD p.1 0, members.getD p.2 0))

/-- Average within-cluster similarity: memoized value when the pair was at
or above the threshold, recomputed on the fly otherwise; rounded to three
decimals. -/
def clusterAvg (vectors : List StoredVector) (memo : List ((Nat × Nat) × ℚ))
    (members : List Nat) : ℚ :=
  let pairs := memberPairs members
  let simSum := pairs.foldl (fun acc p =>
    acc + (match lookupSim memo p.1 p.2 with
      | some v => v
      | none => simAt vectors p.1 p.2)) 0
  if 0 < pairs.length then round3 (simSum / (pairs.length : ℚ)) else 0

def toClusterObservation (v : StoredVector) : ClusterObservation :=
  { observation_id := v.observation_id, entity := v.entity_name
    type := v.entity_type, content := v.content, source := v.source
    remembered_at := v.created_at }

/-- The clustering pipeline of consolidate.ts on a given vector list:
union-find over the threshold pairs, grouping by root, dropping
singletons, averaging, and the final sort by member count descending. -/
def consolidateCore (vectors : List StoredVector) (threshold : ℚ) : List Cluster :=
  let (uf, memo) := buildUF vectors threshold
  let groups := groupRoots uf vectors.length
  let clusters := groups.foldl (fun acc g =>
    if g.2.length < 2 then acc
    else
      let cObs := g.2.map (fun idx => toClusterObservation (vectors.getD idx svDefault))
      acc ++ [{ observations := cObs, avg_similarity := clusterAvg vectors memo g.2 }]) []
  sortByDescNat (fun c => c.observations.length) clusters

/-- consolidate from consolidate.ts: resolve the optional entity scope,
load the joined vectors, return empty with fewer than two of them, run the
clustering pipeline otherwise.  The message strings that interpolate
counts in the source are abbreviated here; no property concerns them. -/
def consolidate (s : Store) (input : ConsolidateInput) : ConsolidateResult :=
  let threshold := input.threshold.getD (8 / 10)
  let entityId : Option (Option Id) :=
    if providedStr input.entity then
      match findEntityByName s (input.entity.getD "") with
      | none => none
      | some e => some (some e.id)
    else some none
  match entityId with
  | none =>
    { success := false, total_observations := 0, clusters := []
      message := "Entity \"" ++ input.entity.getD "" ++ "\" not found." }
  | some scope =>
    let vectors := getEmbeddingsByEntity s scope
    if vectors.length < 2 then
      { success := true, total_observations := vectors.length, clusters := []
        message := if vectors.length == 0 then "No observations found."
          else "Only one observation — nothing to consolidate." }
    else
      let clusters := consolidateCore vectors threshold
      { success := true, total_observations := vectors.length
        clusters := clusters
        message := if clusters.isEmpty then "No clusters found above threshold."
          else "Found clusters; review and merge." }

/-! ### db/relationships.ts: getRelatedEntities (BFS) -/

/-- The value stored per visited node. -/
structure RelatedInfo where
  depth : Nat
  name : String
  type : Option String
deriving DecidableEq, Repr

/-- One neighbor query of the BFS: the CASE row of every relationship
touching the node, joined against entities (rows whose far endpoint has no
entity row are dropped by the JOIN). -/
def neighborsRow (s : Store) (id : Id) : List Id :=
  s.relationships.filterMap (fun r =>
    if r.from_entity == id then
      if (findEntityById s r.to_entity).isSome then some r.to_entity else none
    else if r.to_entity == id then
      if (findEntityById s r.from_entity).isSome then some r.from_entity else none
    else none)

/-- Membership in the visited map. -/
def visitedHas (visited : List (Id × RelatedInfo)) (c : Id) : Bool :=
  visited.any (fun kv => kv.1 == c)

/-- The BFS loop of getRelatedEntities, fuel-indexed (the fuel below is
sufficient for every input, see bfsAux_fuel_free).  Pops the head of the
queue; skips it when already visited or beyond maxDepth; otherwise records
it (the seed with a placeholder, other nodes with their entity row, which
the JOIN of the push step guarantees to exist) and, strictly below
maxDepth, pushes its unvisited neighbors at depth + 1. -/
def bfsAux (s : Store) (seed : Id) (maxDepth : Nat) :
    Nat → List (Id × Nat) → List (Id × RelatedInfo) → List (Id × RelatedInfo)
  | 0, _, visited => visited
  | _fuel + 1, [], visited => visited
  | fuel + 1, (c, d) :: rest, visited =>
    if visitedHas visited c || decide (maxDepth < d) then
      bfsAux s seed maxDepth fuel rest visited
    else
      let visited1 :=
        if c == seed then visited ++ [(c, { depth := 0, name := "", type := none })]
        else
          match findEntityById s c with
          | some e => visited ++ [(c, { depth := d, name := e.name, type := e.type })]
          | none => visited
      let queue1 :=
        if d < maxDepth then
          rest ++ ((neighborsRow s c).filterMap (fun r =>
            if visitedHas visited1 r then none else some (r, d + 1)))
        else rest
      bfsAux s seed maxDepth fuel queue1 visited1

/-- Fuel that always outlasts the loop. -/
def bfsFuel (s : Store) : Nat :=
  2 + (s.entities.length + 2) * (s.relationships.length + 1)

/-- getRelatedEntities: run the BFS from the seed at depth 0, then remove
the seed (its placeholder entry) from the result. -/
def getRelatedEntities (s : Store) (entityId : Id) (maxDepth : Nat) :
    List (Id × RelatedInfo) :=
  (bfsAux s entityId maxDepth (bfsFuel s) [(entityId, 0)] []).filter
    (fun kv => kv.1 != entityId)

/-! ## Shared concrete stores for witnesses and counterexamples -/

/-- A one-entity store with one observation and its embedding. -/
def exEntityA : Entity :=
  { id := 0, name := "alpha", type := none, created_at := 0, updated_at := 0 }

def exObs : Observation :=
  { id := 1, entity_id := 0, content := "hello", source := none, created_at := 0 }

def exEmb : Embedding :=
  { id := 2, entity_id := 0, observation_id := 1, vector := [1, 0]
    text_content := "hello", created_at := 0 }

def exStore : Store :=
  { entities := [exEntityA], observations := [exObs], embeddings := [exEmb]
    relationships := [], nextId := 3 }

/-! ## Claim theorems -/

/-- Claim C2, counterexample: with stored schema version 3 — strictly above
the highest version the code understands — initialization does NOT fail; it
returns without error and leaves the version at 3. -/
theorem initializeSchema_accepts_higher_version :
    initializeSchema (some 3) = Except.ok 3 := by rfl

/-- Claim C2 (amended): initializeSchema never fails on account of the
stored version; a missing row or a version below 2 ends at exactly
version 2, and any version at least 2 — including versions above 2, which
the code silently accepts — is left unchanged. -/
theorem initializeSchema_version_handling (v : Option Int) :
    initializeSchema v =
      Except.ok (match v with
        | none => 2
        | some x => if x < 2 then 2 else x) := by
  match v with
  | none => rfl
  | some x =>
    by_cases h : x < 2 <;> simp [initializeSchema, SCHEMA_VERSION, h]

/-- Claim C10: merge with an empty observation_ids list passes the
missing-id check (nothing is missing) and the entity-count check (the
entity set is empty), then fails reading the first element of the empty
observations array — modelled by the emptyObservations error — before any
mutation: the store comes back unchanged. -/
theorem merge_empty_ids_raises (embed : String → Vec) (s : Store) (now : Nat)
    (content : String) :
    merge embed s now { observation_ids := [], content := content }
      = (Except.error MergeErr.emptyObservations, s) := by
  rfl

/-- Claim C3, counterexample: a forget call with BOTH entity and
observation_id provided does not return success false and does not leave
the store untouched — the observation-id branch runs and deletes the
observation and its embedding. -/
theorem forget_both_args_deletes :
    (forget exStore { entity := some "alpha", observation_id := some 1 }).1.success = true
    ∧ ((forget exStore { entity := some "alpha", observation_id := some 1 }).2).observations = []
    ∧ ((forget exStore { entity := some "alpha", observation_id := some 1 }).2).embeddings = [] := by
  refine ⟨rfl, rfl, rfl⟩

/-- Claim C3 (amended): forget returns success false without touching the
store only when NEITHER a non-empty entity nor an observation_id is given;
whenever an observation_id is given — in particular when both arguments are
given — the observation-id branch runs and the entity argument is ignored. -/
theorem forget_arg_check (s : Store) (input : ForgetInput) :
    (providedStr input.entity = false → providedId input.observation_id = false →
      (forget s input).1.success = false ∧ (forget s input).2 = s)
    ∧ (∀ oid, input.observation_id = some oid →
      forget s input = forget s { entity := none, observation_id := some oid }) := by
  constructor
  · intro he ho
    simp [forget, he, ho]
  · intro oid hoid
    simp [forget, hoid, providedStr, providedId]

/-- Witness for forget_arg_check: at a concrete store, the neither-provided
call reports failure and leaves the store intact, and a both-provided call
equals the observation-id-only call. -/
theorem forget_arg_check_witness :
    ((forget exStore { entity := none, observation_id := none }).1.success = false
      ∧ (forget exStore { entity := none, observation_id := none }).2 = exStore)
    ∧ forget exStore { entity := some "alpha", observation_id := some 1 }
        = forget exStore { entity := none, observation_id := some 1 } := by
  exact ⟨(forget_arg_check exStore _).1 rfl rfl,
    (forget_arg_check exStore _).2 1 rfl⟩

/-! ## Recall fusion lemmas -/

/-- First-occurrence-wins deduplication by key, relative to the keys
already seen — the specification of the seen-set loops in recall.ts. -/
def dedupFirstBy (key : α → Id) : List α → List Id → List α
  | [], _ => []
  | x :: xs, seen =>
    if seen.contains (key x) then dedupFirstBy key xs seen
    else x :: dedupFirstBy key xs (seen ++ [key x])

/-- The keyword pass of recall equals dedupFirstBy followed by the
formatting map. -/
theorem keywordFold_eq (ks : List ObservationWithEntity) :
    ∀ (seen : List Id) (out : List MemoryResult),
    ks.foldl (fun (acc : List Id × List MemoryResult) obs =>
        if acc.1.contains obs.id then acc
        else (acc.1 ++ [obs.id], acc.2 ++ [formatObservation obs])) (seen, out)
      = (seen ++ (dedupFirstBy (fun o => o.id) ks seen).map (fun o => o.id),
         out ++ (dedupFirstBy (fun o => o.id) ks seen).map formatObservation) := by
  induction ks with
  | nil => intro seen out; simp [dedupFirstBy]
  | cons x xs ih =>
    intro seen out
    rw [List.foldl_cons]
    simp only [dedupFirstBy]
    by_cases h : seen.contains x.id = true
    · rw [if_pos h, if_pos h, ih]
    · rw [if_neg h, if_neg h, ih]
      simp [List.append_assoc]

/-- The semantic pass of recall equals the threshold filter, then
dedupFirstBy, then the semantic formatting map. -/
theorem semFold_eq (rs : List SemanticSearchResult) :
    ∀ (seen : List Id) (out : List MemoryResult),
    rs.foldl (fun (acc : List Id × List MemoryResult) r =>
        if r.similarity < SIMILARITY_THRESHOLD then acc
        else if acc.1.contains r.observation_id then acc
        else (acc.1 ++ [r.observation_id], acc.2 ++ [semMemory r])) (seen, out)
      = (seen ++ (dedupFirstBy (fun r => r.observation_id)
            (rs.filter (fun r => decide (SIMILARITY_THRESHOLD ≤ r.similarity))) seen).map
            (fun r => r.observation_id),
         out ++ (dedupFirstBy (fun r => r.observation_id)
            (rs.filter (fun r => decide (SIMILARITY_THRESHOLD ≤ r.similarity))) seen).map
            semMemory) := by
  induction rs with
  | nil => intro seen out; simp [dedupFirstBy]
  | cons x xs ih =>
    intro seen out
    rw [List.foldl_cons, List.filter_cons]
    by_cases hlt : x.similarity < SIMILARITY_THRESHOLD
    · have hnge : decide (SIMILARITY_THRESHOLD ≤ x.similarity) = false := by
        simpa using not_le.mpr hlt
      rw [if_pos hlt, hnge, ih]
      simp
    · have hge : decide (SIMILARITY_THRESHOLD ≤ x.similarity) = true := by
        simpa using not_lt.mp hlt
      rw [if_neg hlt, hge]
      simp only [dedupFirstBy]
      by_cases h : seen.contains x.observation_id = true
      · rw [if_pos h, if_pos h, ih]
      · rw [if_neg h, if_neg h, ih]
        simp [List.append_assoc]

/-- Claim C8: when the embedder raises inside the semantic search, recall
catches the failure, treats it as an empty semantic result set, and still
returns success true with exactly the lexical results — deduplicated by
observation id with the first occurrence winning, and truncated to the
limit. -/
theorem recall_embedder_failure (s : Store) (input : RecallInput) :
    recallTool s (Except.error ()) input =
      { success := true
        count := (((dedupFirstBy (fun o => o.id)
            (searchObservations s input.query input.limit input.type input.since) []).map
            formatObservation).take input.limit).length
        memories := ((dedupFirstBy (fun o => o.id)
            (searchObservations s input.query input.limit input.type input.since) []).map
            formatObservation).take input.limit } := by
  have hk := keywordFold_eq
    (searchObservations s input.query input.limit input.type input.since)
    [] []
  unfold recallTool
  simp only [semanticSearch, List.foldl_nil, hk]
  simp

/-! ## Merge lemmas -/

/-- A list whose elements are pairwise equal dedups to at most one
element. -/
theorem dedup_length_le_one_of_all_eq {l : List Id}
    (h : ∀ x ∈ l, ∀ y ∈ l, x = y) : l.dedup.length ≤ 1 := by
  by_contra hlen
  push_neg at hlen
  match hd : l.dedup with
  | [] => rw [hd] at hlen; simp at hlen
  | [a] => rw [hd] at hlen; simp at hlen
  | a :: b :: t =>
    have hnd := l.nodup_dedup
    rw [hd] at hnd
    have hab : a ≠ b := by
      intro hab
      exact (List.nodup_cons.mp hnd).1 (hab ▸ List.mem_cons_self b t)
    have ha : a ∈ l := l.dedup_subset (hd ▸ List.mem_cons_self a (b :: t))
    have hb : b ∈ l := l.dedup_subset (hd ▸ List.mem_cons_of_mem a (List.mem_cons_self b t))
    exact hab (h a ha b hb)

/-- When every requested id is present, the fetched rows carry exactly the
requested ids, in order. -/
theorem fetchedIds_eq (l : List Observation) :
    ∀ ids : List Id, (∀ id ∈ ids, ∃ o ∈ l, o.id = id) →
    (ids.filterMap (fun id => l.find? (fun o => o.id == id))).map (fun o => o.id) = ids := by
  intro ids
  induction ids with
  | nil => intro _; rfl
  | cons id rest ih =>
    intro hf
    obtain ⟨o, ho, hoid⟩ := hf id (List.mem_cons_self id rest)
    have hsome : (l.find? (fun o => o.id == id)).isSome := by
      rw [List.find?_isSome]
      exact ⟨o, ho, by simp [hoid]⟩
    obtain ⟨o2, ho2⟩ := Option.isSome_iff_exists.mp hsome
    have ho2id : o2.id = id := by
      have := List.find?_some ho2
      simpa using this
    simp only [List.filterMap_cons, ho2, List.map_cons, ho2id, List.cons.injEq, true_and]
    exact ih (fun i hi => hf i (List.mem_cons_of_mem id hi))

/-- Every fetched row is a row of the store. -/
theorem fetched_mem (l : List Observation) (ids : List Id) :
    ∀ o ∈ ids.filterMap (fun id => l.find? (fun o => o.id == id)), o ∈ l := by
  intro o ho
  obtain ⟨id, _, hfind⟩ := List.mem_filterMap.mp ho
  exact List.mem_of_find?_eq_some hfind

/-- contains on id lists is membership. -/
theorem contains_eq_decide_mem (l : List Id) (a : Id) :
    l.contains a = decide (a ∈ l) := by
  simp [List.contains, List.elem_eq_mem]

/-- The delete loop of merge: deleting embedding-then-observation for every
fetched row filters both tables by the fetched id set and leaves the rest
of the store alone. -/
theorem deleteFold_spec (L : List Observation) :
    ∀ st : Store,
    L.foldl (fun st obs => (deleteObservation (deleteEmbedding st obs.id).1 obs.id).1) st
      = { st with
          observations := st.observations.filter
            (fun o => !((L.map (fun x => x.id)).contains o.id))
          embeddings := st.embeddings.filter
            (fun em => !((L.map (fun x => x.id)).contains em.observation_id)) } := by
  induction L with
  | nil =>
    intro st
    simp
  | cons a rest ih =>
    intro st
    rw [List.foldl_cons, ih]
    simp only [deleteEmbedding, deleteObservation, List.filter_filter]
    congr 1
    · simp only [List.map_cons]
      apply List.filter_congr
      intro o _
      by_cases hb : o.id = a.id
        <;> by_cases hc : ∃ x ∈ rest, x.id = o.id
        <;> simp [List.contains_cons, contains_eq_decide_mem, hb, hc, List.mem_map, bne]
    · simp only [List.map_cons]
      apply List.filter_congr
      intro em _
      by_cases hb : em.observation_id = a.id
        <;> by_cases hc : ∃ x ∈ rest, x.id = em.observation_id
        <;> simp [List.contains_cons, contains_eq_decide_mem, hb, hc, List.mem_map, bne]

/-- Claim C6: merge raises (leaving the store untouched) when a requested
id is missing or when the fetched observations span more than one entity;
otherwise — for a non-empty request over a single entity that exists —
it creates exactly one observation carrying the first non-null source of
the originals in requested order, stores its embedding, deletes every
original observation and embedding, touches the entity, and reports the
merged count. -/
theorem merge_validation_and_success (embed : String → Vec) (s : Store)
    (now : Nat) (input : MergeInput) :
    ((∃ id ∈ input.observation_ids, ∀ o ∈ s.observations, o.id ≠ id) →
      ∃ err, merge embed s now input = (Except.error err, s))
    ∧ ((∃ o1 ∈ getObservationsByIds s input.observation_ids,
        ∃ o2 ∈ getObservationsByIds s input.observation_ids,
          o1.entity_id ≠ o2.entity_id) →
      ∃ err, merge embed s now input = (Except.error err, s))
    ∧ (∀ o0 rest, getObservationsByIds s input.observation_ids = o0 :: rest →
      (∀ id ∈ input.observation_ids, ∃ o ∈ s.observations, o.id = id) →
      (∀ o1 ∈ getObservationsByIds s input.observation_ids,
        ∀ o2 ∈ getObservationsByIds s input.observation_ids,
          o1.entity_id = o2.entity_id) →
      (∀ o ∈ s.observations, o.id < s.nextId) →
      ∀ entity, findEntityById s o0.entity_id = some entity →
      merge embed s now input =
        (Except.ok
          { success := true
            new_observation_id := s.nextId
            merged_count := input.observation_ids.length
            entity_name := entity.name
            message := "Merged " ++ toString input.observation_ids.length
              ++ " observations into one for " ++ entity.name ++ "." },
         { entities := s.entities.map (fun e =>
             if e.id == o0.entity_id then { e with updated_at := now } else e)
           observations := s.observations.filter
               (fun o => !(input.observation_ids.contains o.id))
             ++ [{ id := s.nextId, entity_id := o0.entity_id
                   content := input.content
                   source := firstNonNullSource
                     (getObservationsByIds s input.observation_ids)
                   created_at := now }]
           embeddings := s.embeddings.filter
               (fun em => !(input.observation_ids.contains em.observation_id))
             ++ [{ id := s.nextId + 1, entity_id := o0.entity_id
                   observation_id := s.nextId, vector := embed input.content
                   text_content := input.content, created_at := now }]
           relationships := s.relationships
           nextId := s.nextId + 2 })) := by
  refine ⟨?_, ?_, ?_⟩
  · -- a genuinely missing id makes the missing-id guard fire
    rintro ⟨id, hid, hnone⟩
    have hmem : id ∈ input.observation_ids.filter
        (fun id => !((getObservationsByIds s input.observation_ids).map
          (fun o => o.id)).contains id) := by
      rw [List.mem_filter]
      refine ⟨hid, ?_⟩
      simp only [contains_eq_decide_mem, Bool.not_eq_true', decide_eq_false_iff_not]
      intro hcon
      obtain ⟨o, ho, hoid⟩ := List.mem_map.mp hcon
      exact hnone o (fetched_mem _ _ o ho) hoid
    have hne : ¬(input.observation_ids.filter
        (fun id => !((getObservationsByIds s input.observation_ids).map
          (fun o => o.id)).contains id)).isEmpty = true := by
      rw [List.isEmpty_iff]
      intro hnil
      rw [hnil] at hmem
      exact List.not_mem_nil id hmem
    refine ⟨.notFound (input.observation_ids.filter
      (fun id => !((getObservationsByIds s input.observation_ids).map
        (fun o => o.id)).contains id)), ?_⟩
    unfold merge
    rw [if_pos (by simpa using hne)]
  · -- two entities among the fetched rows: one of the two guards fires
    rintro ⟨o1, ho1, o2, ho2, hne12⟩
    by_cases hmiss : (input.observation_ids.filter
        (fun id => !((getObservationsByIds s input.observation_ids).map
          (fun o => o.id)).contains id)).isEmpty = true
    · have hgt : 1 < ((getObservationsByIds s input.observation_ids).map
          (fun o => o.entity_id)).dedup.length := by
        by_contra hle
        push_neg at hle
        have h1 : o1.entity_id ∈ ((getObservationsByIds s input.observation_ids).map
            (fun o => o.entity_id)).dedup := by
          rw [List.mem_dedup]; exact List.mem_map_of_mem _ ho1
        have h2 : o2.entity_id ∈ ((getObservationsByIds s input.observation_ids).map
            (fun o => o.entity_id)).dedup := by
          rw [List.mem_dedup]; exact List.mem_map_of_mem _ ho2
        interval_cases hdl : ((getObservationsByIds s input.observation_ids).map
            (fun o => o.entity_id)).dedup.length
        · rw [List.length_eq_zero] at hdl
          rw [hdl] at h1
          exact List.not_mem_nil _ h1
        · rw [List.length_eq_one] at hdl
          obtain ⟨a, ha⟩ := hdl
          rw [ha] at h1 h2
          rw [List.mem_singleton] at h1 h2
          exact hne12 (h1.trans h2.symm)
      refine ⟨.multipleEntities, ?_⟩
      unfold merge
      rw [if_neg (by simpa using hmiss), if_pos hgt]
    · refine ⟨.notFound (input.observation_ids.filter
        (fun id => !((getObservationsByIds s input.observation_ids).map
          (fun o => o.id)).contains id)), ?_⟩
      unfold merge
      rw [if_pos (by simpa using hmiss)]
  · -- the success path
    intro o0 rest hcons hf hsingle hfresh entity hent
    have hids : (getObservationsByIds s input.observation_ids).map
        (fun o => o.id) = input.observation_ids :=
      fetchedIds_eq s.observations input.observation_ids hf
    have hmiss : (input.observation_ids.filter
        (fun id => !((getObservationsByIds s input.observation_ids).map
          (fun o => o.id)).contains id)) = [] := by
      rw [List.filter_eq_nil_iff]
      intro id hid
      simp only [contains_eq_decide_mem, Bool.not_eq_true', decide_eq_false_iff_not,
        not_not, hids]
      exact hid
    have hdedup : ((getObservationsByIds s input.observation_ids).map
        (fun o => o.entity_id)).dedup.length ≤ 1 := by
      apply dedup_length_le_one_of_all_eq
      intro x hx y hy
      obtain ⟨a, ha, hax⟩ := List.mem_map.mp hx
      obtain ⟨b, hb, hby⟩ := List.mem_map.mp hy
      rw [← hax, ← hby]
      exact hsingle a ha b hb
    have hlen : (getObservationsByIds s input.observation_ids).length
        = input.observation_ids.length := by
      have h := congrArg List.length hids
      simpa using h
    have hfreshFetched : ∀ id ∈ input.observation_ids, id < s.nextId := by
      intro id hid
      obtain ⟨o, ho, hoid⟩ := hf id hid
      exact hoid ▸ hfresh o ho
    unfold merge
    rw [if_neg (by rw [hmiss]; simp), if_neg (by omega), hcons]
    dsimp only
    rw [hent]
    dsimp only
    rw [hcons] at hids hlen
    simp only [createObservation, storeEmbedding, updateEntityTimestamp]
    rw [deleteFold_spec, hids, hlen]
    congr 1
    congr 1
    · -- observations table
      dsimp only
      rw [List.filter_append]
      congr 1
      simp only [List.filter_cons, List.filter_nil]
      rw [if_pos]
      simp only [contains_eq_decide_mem, Bool.not_eq_true', decide_eq_false_iff_not]
      intro hmemid
      exact Nat.lt_irrefl _ (hfreshFetched _ hmemid)
    · -- embeddings table
      dsimp only
      rw [List.filter_append]
      congr 1
      simp only [List.filter_cons, List.filter_nil]
      rw [if_pos]
      simp only [contains_eq_decide_mem, Bool.not_eq_true', decide_eq_false_iff_not]
      intro hmemid
      exact Nat.lt_irrefl _ (hfreshFetched _ hmemid)

/-- Witness for merge_validation_and_success: merging the single
observation of the concrete store creates the merged observation and
embedding under fresh ids, deletes the original ones, and touches the
entity. -/
theorem merge_validation_and_success_witness :
    merge (fun _ => [1, 0]) exStore 7 { observation_ids := [1], content := "merged" }
      = (Except.ok
          { success := true, new_observation_id := 3, merged_count := 1
            entity_name := "alpha"
            message := "Merged 1 observations into one for alpha." },
         { entities := [{ id := 0, name := "alpha", type := none
                          created_at := 0, updated_at := 7 }]
           observations := [{ id := 3, entity_id := 0, content := "merged"
                              source := none, created_at := 7 }]
           embeddings := [{ id := 4, entity_id := 0, observation_id := 3
                            vector := [1, 0], text_content := "merged"
                            created_at := 7 }]
           relationships := []
           nextId := 5 }) := by
  have h := (merge_validation_and_success (fun _ => [1, 0]) exStore 7
      { observation_ids := [1], content := "merged" }).2.2
    exObs [] rfl
    (by decide) (by decide) (by decide)
    exEntityA rfl
  rw [h]
  rfl

/-! ## Dedup scan lemmas -/

/-- Characterization of the dedup fold of remember.ts: a some-result is the
similarity and row of a stored vector at or above the threshold, no
qualifying row beats it, and every strictly earlier qualifying row is
strictly below it (the earliest maximum wins, ties broken by scan order);
a none-result means no row qualifies. -/
theorem bestFold_spec (v : Vec) :
    ∀ (l : List StoredVector) (acc : Option (ℚ × StoredVector)),
    (∀ b, acc = some b → DEDUP_THRESHOLD ≤ b.1) →
    ((l.foldl (bestStep v) acc = none →
        acc = none ∧ ∀ x ∈ l, cosineSimilarity v x.vector < DEDUP_THRESHOLD)
    ∧ (∀ q m, l.foldl (bestStep v) acc = some (q, m) →
        (∀ x ∈ l, DEDUP_THRESHOLD ≤ cosineSimilarity v x.vector →
          cosineSimilarity v x.vector ≤ q)
        ∧ (acc = some (q, m)
          ∨ (∃ i, l.get? i = some m ∧ q = cosineSimilarity v m.vector
              ∧ DEDUP_THRESHOLD ≤ q
              ∧ (∀ b, acc = some b → b.1 < q)
              ∧ (∀ j x, j < i → l.get? j = some x →
                  DEDUP_THRESHOLD ≤ cosineSimilarity v x.vector →
                  cosineSimilarity v x.vector < q))))) := by
  intro l
  induction l with
  | nil =>
    intro acc hacc
    constructor
    · intro h; exact ⟨h, by simp⟩
    · intro q m h
      exact ⟨by simp, Or.inl h⟩
  | cons a t ih =>
    intro acc hacc
    rw [List.foldl_cons]
    have hstepcase :
        (bestStep v acc a = some (cosineSimilarity v a.vector, a)
          ∧ DEDUP_THRESHOLD ≤ cosineSimilarity v a.vector
          ∧ (∀ b, acc = some b → b.1 < cosineSimilarity v a.vector))
        ∨ (bestStep v acc a = acc
          ∧ (cosineSimilarity v a.vector < DEDUP_THRESHOLD
            ∨ ∃ b, acc = some b ∧ cosineSimilarity v a.vector ≤ b.1)) := by
      unfold bestStep
      cases acc with
      | none =>
        by_cases hT : DEDUP_THRESHOLD ≤ cosineSimilarity v a.vector
        · refine Or.inl ⟨by simp [hT], hT, ?_⟩
          intro b hb; cases hb
        · exact Or.inr ⟨by simp [hT], Or.inl (not_le.mp hT)⟩
      | some b =>
        by_cases hT : DEDUP_THRESHOLD ≤ cosineSimilarity v a.vector
        · by_cases hlt : b.1 < cosineSimilarity v a.vector
          · refine Or.inl ⟨by simp [hT, hlt], hT, ?_⟩
            intro b2 hb2
            cases hb2
            exact hlt
          · exact Or.inr ⟨by simp [hT, hlt], Or.inr ⟨b, rfl, not_lt.mp hlt⟩⟩
        · exact Or.inr ⟨by simp [hT], Or.inl (not_le.mp hT)⟩
    rcases hstepcase with ⟨hpick, hT, hbeats⟩ | ⟨hkeep, hkept⟩
    · rw [hpick]
      have hacc2 : ∀ b, (some (cosineSimilarity v a.vector, a)
          : Option (ℚ × StoredVector)) = some b → DEDUP_THRESHOLD ≤ b.1 := by
        rintro b hb
        cases hb
        exact hT
      obtain ⟨ihn, ihs⟩ := ih (some (cosineSimilarity v a.vector, a)) hacc2
      constructor
      · intro hnone
        obtain ⟨habs, -⟩ := ihn hnone
        cases habs
      · intro q m hsome
        obtain ⟨hmax, hdisj⟩ := ihs q m hsome
        constructor
        · intro x hx hxT
          rcases List.mem_cons.mp hx with rfl | hx2
          · cases hdisj with
            | inl heq =>
              injection heq with heq2
              injection heq2 with hq hm
              exact le_of_eq hq
            | inr hex =>
              obtain ⟨i, -, -, -, hball, -⟩ := hex
              exact le_of_lt (hball _ rfl)
          · exact hmax x hx2 hxT
        · right
          cases hdisj with
          | inl heq =>
            injection heq with heq2
            injection heq2 with hq hm
            refine ⟨0, by simp [hm], by rw [← hq, ← hm], hq ▸ hT, ?_, ?_⟩
            · intro b hb
              exact hq ▸ hbeats b hb
            · intro j x hj _ _
              omega
          | inr hex =>
            obtain ⟨i, hgi, hqm, hTq, hb, hearlier⟩ := hex
            refine ⟨i + 1, by simpa using hgi, hqm, hTq, ?_, ?_⟩
            · intro b hb2
              exact lt_trans (hbeats b hb2) (hb _ rfl)
            · intro j x hj hgj hxT
              cases j with
              | zero =>
                have hxa : a = x := by simpa using hgj
                subst hxa
                exact hb _ rfl
              | succ j2 =>
                exact hearlier j2 x (by omega) (by simpa using hgj) hxT
    · rw [hkeep]
      obtain ⟨ihn, ihs⟩ := ih acc hacc
      constructor
      · intro hnone
        obtain ⟨ha, hall⟩ := ihn hnone
        refine ⟨ha, ?_⟩
        intro x hx
        rcases List.mem_cons.mp hx with rfl | hx2
        · rcases hkept with hlt | ⟨b, hab, -⟩
          · exact hlt
          · rw [ha] at hab
            cases hab
        · exact hall x hx2
      · intro q m hsome
        obtain ⟨hmax, hdisj⟩ := ihs q m hsome
        constructor
        · intro x hx hxT
          rcases List.mem_cons.mp hx with rfl | hx2
          · rcases hkept with hlt | ⟨b, hab, hle⟩
            · exact absurd hxT (not_le.mpr hlt)
            · cases hdisj with
              | inl heq =>
                rw [hab] at heq
                injection heq with heq2
                have : b.1 = q := by rw [heq2]
                exact this ▸ hle
              | inr hex =>
                obtain ⟨-, -, -, -, hb, -⟩ := hex
                exact le_trans hle (le_of_lt (hb b hab))
          · exact hmax x hx2 hxT
        · cases hdisj with
          | inl heq => exact Or.inl heq
          | inr hex =>
            obtain ⟨i, hgi, hqm, hTq, hb, hearlier⟩ := hex
            right
            refine ⟨i + 1, by simpa using hgi, hqm, hTq, hb, ?_⟩
            intro j x hj hgj hxT
            cases j with
            | zero =>
              have hxa : a = x := by simpa using hgj
              subst hxa
              rcases hkept with hlt | ⟨b, hab, hle⟩
              · exact absurd hxT (not_le.mpr hlt)
              · exact lt_of_le_of_lt hle (hb b hab)
            | succ j2 =>
              exact hearlier j2 x (by omega) (by simpa using hgj) hxT

/-- Claim C1: the dedup decision of remember is made against the best
match — a stored embedding of the entity with similarity at or above 0.85,
maximal among all such rows, the earliest in scan order among ties; when
the match content is at least as long as the new content, remember skips
(no new observation, deduplicated true, the match observation id); when it
is shorter, remember deletes the match embedding and observation, creates
the new observation and embedding, runs relationship auto-detection and
reports the replaced content. -/
theorem remember_dedup_decision (matchesRe : String → String → Bool)
    (embed : String → Vec) (s : Store) (now : Nat) (input : RememberInput)
    (entity : Entity) (s0 : Store)
    (hfoc : findOrCreateEntity s now
      (if providedStr input.entity then input.entity.getD "" else "general")
      input.type = (entity, s0)) :
    (∀ q m, findBestMatch (embed input.content)
        (getEmbeddingsByEntity s0 (some entity.id)) = some (q, m) →
      q = cosineSimilarity (embed input.content) m.vector
      ∧ DEDUP_THRESHOLD ≤ q
      ∧ (∀ x ∈ getEmbeddingsByEntity s0 (some entity.id),
          DEDUP_THRESHOLD ≤ cosineSimilarity (embed input.content) x.vector →
          cosineSimilarity (embed input.content) x.vector ≤ q)
      ∧ (∃ i, (getEmbeddingsByEntity s0 (some entity.id)).get? i = some m
          ∧ ∀ j x, j < i →
              (getEmbeddingsByEntity s0 (some entity.id)).get? j = some x →
              DEDUP_THRESHOLD ≤ cosineSimilarity (embed input.content) x.vector →
              cosineSimilarity (embed input.content) x.vector < q))
    ∧ (∀ q m, findBestMatch (embed input.content)
        (getEmbeddingsByEntity s0 (some entity.id)) = some (q, m) →
      input.content.length ≤ m.content.length →
      remember matchesRe embed s now input =
        ({ success := true, entityId := entity.id, entityName := entity.name
           observationId := m.observation_id, relationships_created := []
           message := "Deduplicated: similar observation already exists for "
             ++ entity.name
           deduplicated := true, replaced_observation := none }, s0))
    ∧ (∀ q m, findBestMatch (embed input.content)
        (getEmbeddingsByEntity s0 (some entity.id)) = some (q, m) →
      m.content.length < input.content.length →
      remember matchesRe embed s now input =
        (let s4 : Store :=
          { entities := s0.entities.map (fun e =>
              if e.id == entity.id then { e with updated_at := now } else e)
            observations := s0.observations.filter
                (fun o => o.id != m.observation_id)
              ++ [{ id := s0.nextId, entity_id := entity.id
                    content := input.content, source := input.source
                    created_at := now }]
            embeddings := s0.embeddings.filter
                (fun em => em.observation_id != m.observation_id)
              ++ [{ id := s0.nextId + 1, entity_id := entity.id
                    observation_id := s0.nextId, vector := embed input.content
                    text_content := input.content, created_at := now }]
            relationships := s0.relationships
            nextId := s0.nextId + 2 }
         let dr := detectAndCreateRelationships matchesRe s4 now entity input.content
         ({ success := true, entityId := entity.id, entityName := entity.name
            observationId := s0.nextId, relationships_created := dr.1
            message := "Replaced shorter duplicate for " ++ entity.name
            deduplicated := false, replaced_observation := some m.content },
          dr.2))) := by
  refine ⟨?_, ?_, ?_⟩
  · intro q m hbm
    have hspec := ((bestFold_spec (embed input.content)
      (getEmbeddingsByEntity s0 (some entity.id)) none (by intro b hb; cases hb)).2
      q m hbm)
    obtain ⟨hmax, hdisj⟩ := hspec
    rcases hdisj with habs | ⟨i, hgi, hqm, hTq, -, hearlier⟩
    · cases habs
    · exact ⟨hqm, hTq, hmax, ⟨i, hgi, fun j x hj hgj hxT => hearlier j x hj hgj hxT⟩⟩
  · intro q m hbm hlong
    unfold remember
    try dsimp only
    rw [hfoc]
    try dsimp only
    rw [hbm]
    try dsimp only
    rw [if_pos hlong]
  · intro q m hbm hshort
    unfold remember
    try dsimp only
    rw [hfoc]
    try dsimp only
    rw [hbm]
    try dsimp only
    rw [if_neg (not_le.mpr hshort)]
    simp only [deleteEmbedding, deleteObservation, createObservation,
      updateEntityTimestamp, storeEmbedding]
    try dsimp only
    have hemb : List.filter (fun a =>
          (a.observation_id != m.observation_id)
          && (a.observation_id != m.observation_id)) s0.embeddings
        = List.filter (fun em => em.observation_id != m.observation_id)
            s0.embeddings := by
      apply List.filter_congr
      intro em _
      exact Bool.and_self _
    simp only [List.filter_filter]
    rw [hemb]

/-- The stored vector row of the concrete store, as the dedup scan sees
it. -/
def exSV : StoredVector :=
  { observation_id := 1, entity_id := 0, entity_name := "alpha"
    entity_type := none, content := "hello", source := none
    created_at := 0, vector := [1, 0] }

/-- On the concrete store the dedup scan finds the stored row with
similarity 1. -/
theorem exStore_bestMatch :
    findBestMatch [1, 0] (getEmbeddingsByEntity exStore (some 0))
      = some (1, exSV) := by
  have hrows : getEmbeddingsByEntity exStore (some 0) = [exSV] := by rfl
  rw [hrows]
  have hcos : cosineSimilarity [1, 0] exSV.vector = 1 := by
    norm_num [cosineSimilarity, exSV]
  unfold findBestMatch
  rw [List.foldl_cons, List.foldl_nil]
  unfold bestStep
  rw [hcos]
  norm_num [DEDUP_THRESHOLD]

/-- Witness for remember_dedup_decision: on the concrete store, a longer
near-duplicate replaces the stored observation — the old row and embedding
go, the new ones arrive under fresh ids, and the old content is reported. -/
theorem remember_dedup_decision_witness :
    remember (fun _ _ => false) (fun _ => [1, 0]) exStore 9
      { content := "hello world", entity := some "alpha", type := none
        source := none }
      = ({ success := true, entityId := 0, entityName := "alpha"
           observationId := 3, relationships_created := []
           message := "Replaced shorter duplicate for alpha"
           deduplicated := false, replaced_observation := some "hello" },
         { entities := [{ id := 0, name := "alpha", type := none
                          created_at := 0, updated_at := 9 }]
           observations := [{ id := 3, entity_id := 0, content := "hello world"
                              source := none, created_at := 9 }]
           embeddings := [{ id := 4, entity_id := 0, observation_id := 3
                            vector := [1, 0], text_content := "hello world"
                            created_at := 9 }]
           relationships := [], nextId := 5 }) := by
  have h := (remember_dedup_decision (fun _ _ => false) (fun _ => [1, 0])
      exStore 9
      { content := "hello world", entity := some "alpha", type := none
        source := none }
      exEntityA exStore rfl).2.2
    1 exSV exStore_bestMatch (by decide)
  rw [h]
  simp [detectAndCreateRelationships, listEntities, sortByDescNat, exStore,
    exEntityA, exSV, exObs, exEmb]

/-- Claim C9: whenever remember takes the dedup skip path (deduplicated is
reported true), the store is returned completely unchanged — no
observation, embedding, relationship or entity row is touched, so the
owning entity keeps its updated_at — and relationship auto-detection never
ran (relationships_created is empty). -/
theorem remember_skip_unchanged (matchesRe : String → String → Bool)
    (embed : String → Vec) (s : Store) (now : Nat) (input : RememberInput)
    (hfresh : ∀ em ∈ s.embeddings, em.entity_id < s.nextId)
    (hdedup : (remember matchesRe embed s now input).1.deduplicated = true) :
    (remember matchesRe embed s now input).2 = s
    ∧ (remember matchesRe embed s now input).1.relationships_created = [] := by
  cases hfe : findEntityByName s
      (if providedStr input.entity then input.entity.getD "" else "general") with
  | some e =>
    have hfoc : findOrCreateEntity s now
        (if providedStr input.entity then input.entity.getD "" else "general")
        input.type = (e, s) := by
      unfold findOrCreateEntity
      rw [hfe]
    cases hbm : findBestMatch (embed input.content)
        (getEmbeddingsByEntity s (some e.id)) with
    | none =>
      exfalso
      unfold remember at hdedup
      dsimp only at hdedup
      rw [hfoc] at hdedup
      dsimp only at hdedup
      rw [hbm] at hdedup
      simp at hdedup
    | some p =>
      obtain ⟨q, m⟩ := p
      by_cases hlen : input.content.length ≤ m.content.length
      · have hrem : remember matchesRe embed s now input =
            ({ success := true, entityId := e.id, entityName := e.name
               observationId := m.observation_id, relationships_created := []
               message := "Deduplicated: similar observation already exists for "
                 ++ e.name
               deduplicated := true, replaced_observation := none }, s) := by
          unfold remember
          dsimp only
          rw [hfoc]
          dsimp only
          rw [hbm]
          dsimp only
          rw [if_pos hlen]
        rw [hrem]
        exact ⟨rfl, rfl⟩
      · exfalso
        unfold remember at hdedup
        dsimp only at hdedup
        rw [hfoc] at hdedup
        dsimp only at hdedup
        rw [hbm] at hdedup
        dsimp only at hdedup
        rw [if_neg hlen] at hdedup
        simp at hdedup
  | none =>
    exfalso
    have hfoc : findOrCreateEntity s now
        (if providedStr input.entity then input.entity.getD "" else "general")
        input.type =
      ({ id := s.nextId
         name := (if providedStr input.entity then input.entity.getD "" else "general")
         type := input.type, created_at := now, updated_at := now },
       { s with
         entities := s.entities ++
           [{ id := s.nextId
              name := (if providedStr input.entity then input.entity.getD ""
                else "general")
              type := input.type, created_at := now, updated_at := now }]
         nextId := s.nextId + 1 }) := by
      unfold findOrCreateEntity
      rw [hfe]
    have hnoemb : getEmbeddingsByEntity
        { s with
          entities := s.entities ++
            [{ id := s.nextId
               name := (if providedStr input.entity then input.entity.getD ""
                 else "general")
               type := input.type, created_at := now, updated_at := now }]
          nextId := s.nextId + 1 }
        (some s.nextId) = [] := by
      unfold getEmbeddingsByEntity
      dsimp only
      rw [show List.filter (fun em => em.entity_id == s.nextId) s.embeddings
          = [] from ?_]
      · rfl
      · rw [List.filter_eq_nil_iff]
        intro em hem
        have h2 := hfresh em hem
        intro hbad
        have h3 : em.entity_id = s.nextId := by simpa using hbad
        exact absurd h3 (Nat.ne_of_lt h2)
    unfold remember at hdedup
    dsimp only at hdedup
    rw [hfoc] at hdedup
    dsimp only at hdedup
    rw [hnoemb] at hdedup
    simp [findBestMatch] at hdedup

/-- Witness for remember_skip_unchanged: remembering a short near-duplicate
on the concrete store leaves it byte-for-byte identical. -/
theorem remember_skip_unchanged_witness :
    (remember (fun _ _ => false) (fun _ => [1, 0]) exStore 9
      { content := "hi", entity := some "alpha", type := none
        source := none }).2 = exStore
    ∧ (remember (fun _ _ => false) (fun _ => [1, 0]) exStore 9
      { content := "hi", entity := some "alpha", type := none
        source := none }).1.relationships_created = [] := by
  have hdedup : (remember (fun _ _ => false) (fun _ => [1, 0]) exStore 9
      { content := "hi", entity := some "alpha", type := none
        source := none }).1.deduplicated = true := by
    unfold remember
    dsimp only
    have hfoc : findOrCreateEntity exStore 9
        (if providedStr (some "alpha") then (some "alpha" : Option String).getD ""
          else "general") none
        = (exEntityA, exStore) := by rfl
    rw [hfoc]
    dsimp only
    have hbm2 : findBestMatch [1, 0]
        (getEmbeddingsByEntity exStore (some exEntityA.id)) = some (1, exSV) :=
      exStore_bestMatch
    rw [hbm2]
    dsimp only
    rw [if_pos (by decide : ("hi" : String).length ≤ exSV.content.length)]
  exact remember_skip_unchanged (fun _ _ => false) (fun _ => [1, 0]) exStore 9
    { content := "hi", entity := some "alpha", type := none, source := none }
    (by decide) hdedup

/-! ## Ordering and dedup lemmas for recall fusion -/

/-- dedupFirstBy returns a sublist: the survivors keep their relative
order. -/
theorem dedupFirstBy_sublist (key : α → Id) :
    ∀ (l : List α) (seen : List Id), List.Sublist (dedupFirstBy key l seen) l := by
  intro l
  induction l with
  | nil => intro seen; simp [dedupFirstBy]
  | cons x xs ih =>
    intro seen
    simp only [dedupFirstBy]
    by_cases h : seen.contains (key x) = true
    · rw [if_pos h]
      exact (ih seen).cons x
    · rw [if_neg h]
      exact (ih (seen ++ [key x])).cons₂ x

/-- Keys surviving dedupFirstBy avoid the seen set. -/
theorem dedupFirstBy_not_seen (key : α → Id) :
    ∀ (l : List α) (seen : List Id), ∀ x ∈ dedupFirstBy key l seen,
      ¬ seen.contains (key x) = true := by
  intro l
  induction l with
  | nil => intro seen x hx; cases hx
  | cons a xs ih =>
    intro seen x hx
    simp only [dedupFirstBy] at hx
    by_cases h : seen.contains (key a) = true
    · rw [if_pos h] at hx
      exact ih seen x hx
    · rw [if_neg h] at hx
      rcases List.mem_cons.mp hx with rfl | hx2
      · exact h
      · intro hc
        exact ih (seen ++ [key a]) x hx2 (by
          simp only [contains_eq_decide_mem] at hc ⊢
          simp only [decide_eq_true_eq] at hc ⊢
          exact List.mem_append_left _ hc)

/-- The surviving keys of dedupFirstBy are pairwise distinct. -/
theorem dedupFirstBy_keys_nodup (key : α → Id) :
    ∀ (l : List α) (seen : List Id),
      ((dedupFirstBy key l seen).map key).Nodup := by
  intro l
  induction l with
  | nil => intro seen; simp [dedupFirstBy]
  | cons a xs ih =>
    intro seen
    simp only [dedupFirstBy]
    by_cases h : seen.contains (key a) = true
    · rw [if_pos h]
      exact ih seen
    · rw [if_neg h]
      rw [List.map_cons, List.nodup_cons]
      refine ⟨?_, ih (seen ++ [key a])⟩
      intro hmem
      obtain ⟨x, hx, hkx⟩ := List.mem_map.mp hmem
      have := dedupFirstBy_not_seen key xs (seen ++ [key a]) x hx
      apply this
      simp only [contains_eq_decide_mem, decide_eq_true_eq]
      exact List.mem_append_right _ (by simp [hkx])

/-- Stable descending sorts really are descending (rational keys). -/
theorem sortByDescRat_pairwise (f : α → ℚ) (l : List α) :
    (sortByDescRat f l).Pairwise (fun a b => f b ≤ f a) := by
  have h := @List.sorted_mergeSort _ (fun a b : α => decide (f b ≤ f a))
    (fun a b c hab hbc => by
      simp only [decide_eq_true_eq] at hab hbc ⊢
      exact le_trans hbc hab)
    (fun a b => by
      simp only [Bool.or_eq_true, decide_eq_true_eq]
      exact Decidable.or_iff_not_imp_left.mpr (fun h => le_of_lt (not_le.mp h)))
    l
  exact h.imp (fun hab => of_decide_eq_true hab)

/-- Stable descending sorts really are descending (natural keys). -/
theorem sortByDescNat_pairwise (f : α → Nat) (l : List α) :
    (sortByDescNat f l).Pairwise (fun a b => f b ≤ f a) := by
  have h := @List.sorted_mergeSort _ (fun a b : α => decide (f b ≤ f a))
    (fun a b c hab hbc => by
      simp only [decide_eq_true_eq] at hab hbc ⊢
      omega)
    (fun a b => by
      simp only [Bool.or_eq_true, decide_eq_true_eq]
      omega)
    l
  exact h.imp (fun hab => of_decide_eq_true hab)

/-- Rounding to three decimals is monotone. -/
theorem round3_mono {a b : ℚ} (h : a ≤ b) : round3 a ≤ round3 b := by
  unfold round3
  have h1 : a * 1000 + 1 / 2 ≤ b * 1000 + 1 / 2 := by
    have := mul_le_mul_of_nonneg_right h (by norm_num : (0 : ℚ) ≤ 1000)
    linarith
  have h2 : (⌊a * 1000 + 1 / 2⌋ : ℤ) ≤ ⌊b * 1000 + 1 / 2⌋ := Int.floor_le_floor h1
  have h3 : ((⌊a * 1000 + 1 / 2⌋ : ℤ) : ℚ) ≤ ((⌊b * 1000 + 1 / 2⌋ : ℤ) : ℚ) := by
    exact_mod_cast h2
  exact (div_le_div_iff_of_pos_right (by norm_num : (0 : ℚ) < 1000)).mpr h3

/-- The semantic hits recall keeps: at or above the 0.15 floor. -/
def semKept (s : Store) (qv : Vec) (input : RecallInput) :
    List SemanticSearchResult :=
  (semanticSearchScored s qv input.limit input.type input.since).filter
    (fun r => decide (SIMILARITY_THRESHOLD ≤ r.similarity))

/-- The semantic block of the fused list. -/
def semPart (s : Store) (qv : Vec) (input : RecallInput) : List MemoryResult :=
  (dedupFirstBy (fun r => r.observation_id) (semKept s qv input) []).map semMemory

/-- The observation ids of the semantic block. -/
def semKeys (s : Store) (qv : Vec) (input : RecallInput) : List Id :=
  (dedupFirstBy (fun r => r.observation_id) (semKept s qv input) []).map
    (fun r => r.observation_id)

/-- The lexical block of the fused list: keyword hits whose id has not
already appeared. -/
def lexPart (s : Store) (qv : Vec) (input : RecallInput) : List MemoryResult :=
  (dedupFirstBy (fun o => o.id)
    (searchObservations s input.query input.limit input.type input.since)
    (semKeys s qv input)).map formatObservation

/-- Claim C4: recall returns the filtered semantic results first, in
descending-similarity order, then the lexical results whose observation id
has not already appeared, in repository (newest-first) order; duplicates by
observation id are removed with the first occurrence winning, the whole
list is truncated to the limit, and count is the truncated length. -/
theorem recall_fusion_order (s : Store) (qv : Vec) (input : RecallInput) :
    recallTool s (Except.ok qv) input =
      { success := true
        count := ((semPart s qv input ++ lexPart s qv input).take input.limit).length
        memories := (semPart s qv input ++ lexPart s qv input).take input.limit }
    ∧ (semPart s qv input).Pairwise (fun a b =>
        ∀ qa qb, a.similarity = some qa → b.similarity = some qb → qb ≤ qa)
    ∧ (∀ m ∈ semPart s qv input,
        ∃ q0, SIMILARITY_THRESHOLD ≤ q0 ∧ m.similarity = some (round3 q0))
    ∧ (lexPart s qv input).Pairwise (fun a b => b.remembered_at ≤ a.remembered_at)
    ∧ (∀ m ∈ lexPart s qv input, m.similarity = none
        ∧ ∀ m2 ∈ semPart s qv input, m.observation_id ≠ m2.observation_id)
    ∧ ((semPart s qv input ++ lexPart s qv input).map
        (fun m => m.observation_id)).Nodup := by
  have hsemsorted : (semanticSearchScored s qv input.limit input.type
      input.since).Pairwise (fun a b => b.similarity ≤ a.similarity) := by
    unfold semanticSearchScored
    dsimp only
    exact (sortByDescRat_pairwise _ _).sublist (List.take_sublist _ _)
  have hkeysorted : (searchObservations s input.query input.limit input.type
      input.since).Pairwise (fun a b => b.created_at ≤ a.created_at) := by
    unfold searchObservations
    dsimp only
    exact (sortByDescNat_pairwise _ _).sublist (List.take_sublist _ _)
  refine ⟨?_, ?_, ?_, ?_, ?_, ?_⟩
  · -- the fused output
    unfold recallTool
    dsimp only
    rw [show (match semanticSearch s (Except.ok qv) input.limit input.type
        input.since with
      | .error _ => ([] : List SemanticSearchResult)
      | .ok rs => rs)
      = semanticSearchScored s qv input.limit input.type input.since from rfl]
    rw [semFold_eq, keywordFold_eq]
    simp only [List.nil_append]
    rfl
  · -- semantic block descending
    unfold semPart
    rw [List.pairwise_map]
    have h2 : (semKept s qv input).Pairwise
        (fun a b => b.similarity ≤ a.similarity) := by
      unfold semKept
      exact hsemsorted.sublist (List.filter_sublist _)
    have h3 := h2.sublist (dedupFirstBy_sublist (fun r => r.observation_id) _ [])
    refine h3.imp ?_
    intro a b hab qa qb hqa hqb
    simp only [semMemory, Option.some.injEq] at hqa hqb
    rw [← hqa, ← hqb]
    exact round3_mono hab
  · -- semantic block at or above the floor
    intro m hm
    unfold semPart at hm
    obtain ⟨r, hr, hrm⟩ := List.mem_map.mp hm
    have hr2 : r ∈ semKept s qv input :=
      (dedupFirstBy_sublist (fun r => r.observation_id) _ []).subset hr
    unfold semKept at hr2
    have := (List.mem_filter.mp hr2).2
    refine ⟨r.similarity, by simpa using this, ?_⟩
    rw [← hrm]
    rfl
  · -- lexical block newest first
    unfold lexPart
    rw [List.pairwise_map]
    have h2 := hkeysorted.sublist
      (dedupFirstBy_sublist (fun o => o.id) _ (semKeys s qv input))
    exact h2.imp (fun hab => hab)
  · -- lexical entries carry no similarity and avoid semantic ids
    intro m hm
    unfold lexPart at hm
    obtain ⟨o, ho, hom⟩ := List.mem_map.mp hm
    constructor
    · rw [← hom]; rfl
    · intro m2 hm2 heq
      have hnot := dedupFirstBy_not_seen (fun o => o.id) _ (semKeys s qv input) o ho
      apply hnot
      simp only [contains_eq_decide_mem, decide_eq_true_eq]
      unfold semPart at hm2
      obtain ⟨r, hr, hrm2⟩ := List.mem_map.mp hm2
      unfold semKeys
      have : m2.observation_id = r.observation_id := by rw [← hrm2]; rfl
      rw [show o.id = m2.observation_id from by rw [← hom] at heq; exact heq, this]
      exact List.mem_map_of_mem _ hr
  · -- no duplicate observation ids overall
    rw [List.map_append]
    have hsem : (semPart s qv input).map (fun m => m.observation_id)
        = semKeys s qv input := by
      unfold semPart semKeys
      rw [List.map_map]
      rfl
    have hlex : (lexPart s qv input).map (fun m => m.observation_id)
        = (dedupFirstBy (fun o => o.id)
            (searchObservations s input.query input.limit input.type input.since)
            (semKeys s qv input)).map (fun o => o.id) := by
      unfold lexPart
      rw [List.map_map]
      rfl
    rw [hsem, hlex, List.nodup_append]
    refine ⟨?_, ?_, ?_⟩
    · unfold semKeys
      exact dedupFirstBy_keys_nodup _ _ _
    · exact dedupFirstBy_keys_nodup _ _ _
    · intro a ha hb
      obtain ⟨o, ho, hoa⟩ := List.mem_map.mp hb
      have hnot := dedupFirstBy_not_seen (fun o => o.id) _ (semKeys s qv input) o ho
      apply hnot
      simp only [contains_eq_decide_mem, decide_eq_true_eq]
      rw [hoa]
      exact ha

/-! ## Union-find correctness layer

The find of consolidate.ts chases parent pointers (with path compression);
the abstract root is the fixed point of the parent-step function, reached
within array-size steps whenever the parent chains are acyclic. -/

/-- One parent step. -/
def pstep (p : Array Nat) (x : Nat) : Nat := p.getD x x

/-- k parent steps. -/
def piter (p : Array Nat) : Nat → Nat → Nat
  | 0, x => x
  | k + 1, x => piter p k (pstep p x)

/-- Pure root chase with fuel (find without compression). -/
def rootOfAux (p : Array Nat) (x : Nat) : Nat → Nat
  | 0 => x
  | fuel + 1 =>
    let px := p.getD x x
    if px == x then x else rootOfAux p px fuel

/-- The root of x. -/
def rootOf (p : Array Nat) (x : Nat) : Nat := rootOfAux p x p.size

/-- The well-formedness the union discipline maintains: the parent array
has size n, parents stay below n, and every chain reaches a fixed point. -/
structure UFInv (p : Array Nat) (n : Nat) : Prop where
  psize : p.size = n
  plt : ∀ i, i < n → pstep p i < n
  reaches : ∀ i, i < n → ∃ k, pstep p (piter p k i) = piter p k i

theorem piter_add (p : Array Nat) (t : Nat) :
    ∀ (a : Nat) (x : Nat), piter p (t + a) x = piter p t (piter p a x) := by
  intro a
  induction a with
  | zero => intro x; rfl
  | succ a ih =>
    intro x
    rw [show t + (a + 1) = (t + a) + 1 from rfl]
    show piter p (t + a) (pstep p x) = piter p t (piter p (a + 1) x)
    rw [ih (pstep p x)]
    rfl

theorem piter_fix (p : Array Nat) {r : Nat} (hr : pstep p r = r) :
    ∀ k, piter p k r = r := by
  intro k
  induction k with
  | zero => rfl
  | succ k ih =>
    show piter p k (pstep p r) = r
    rw [hr]
    exact ih

/-- Once a chain hits its fixed point it stays there. -/
theorem piter_stable (p : Array Nat) {k : Nat} {x : Nat}
    (h : pstep p (piter p k x) = piter p k x) :
    ∀ m, k ≤ m → piter p m x = piter p k x := by
  intro m hkm
  obtain ⟨t, rfl⟩ := Nat.exists_eq_add_of_le hkm
  rw [Nat.add_comm k t, piter_add]
  exact piter_fix p h t

/-- The fueled chase computes the fuel-iterate as soon as a fixed point
appears within the fuel. -/
theorem rootOfAux_eq_piter (p : Array Nat) :
    ∀ (fuel : Nat) (x : Nat), (∃ k, k < fuel ∧ pstep p (piter p k x) = piter p k x) →
    rootOfAux p x fuel = piter p fuel x := by
  intro fuel
  induction fuel with
  | zero =>
    intro x h
    obtain ⟨k, hk, -⟩ := h
    omega
  | succ fuel ih =>
    intro x h
    obtain ⟨k, hk, hroot⟩ := h
    by_cases hx : pstep p x = x
    · have h1 : rootOfAux p x (fuel + 1) = x := by
        unfold rootOfAux
        simp [pstep] at hx
        simp [hx]
      rw [h1, piter_stable p (k := 0) (by simpa [piter] using hx) (fuel + 1) (by omega)]
      rfl
    · have hk0 : k ≠ 0 := by
        intro h0
        rw [h0] at hroot
        exact hx hroot
      obtain ⟨k2, rfl⟩ := Nat.exists_eq_succ_of_ne_zero hk0
      have h2 : rootOfAux p x (fuel + 1) = rootOfAux p (pstep p x) fuel := by
        show (if ((p.getD x x) == x) = true then x
          else rootOfAux p (p.getD x x) fuel) = rootOfAux p (pstep p x) fuel
        have hfalse : (p.getD x x == x) = false := by
          simp [pstep] at hx
          simp [hx]
        rw [hfalse]
        simp [pstep]
      rw [h2, ih (pstep p x) ⟨k2, by omega, hroot⟩]
      rfl

theorem piter_lt (p : Array Nat) {n : Nat} (hplt : ∀ i, i < n → pstep p i < n) :
    ∀ k x, x < n → piter p k x < n := by
  intro k
  induction k with
  | zero => intro x hx; exact hx
  | succ k ih =>
    intro x hx
    exact ih (pstep p x) (hplt x hx)

/-- By pigeonhole, a chain that reaches a fixed point reaches it within n
steps. -/
theorem reach_lt_size {p : Array Nat} {n : Nat} (_hn : 0 < n)
    (hplt : ∀ i, i < n → pstep p i < n) {x : Nat} (hx : x < n)
    (hreach : ∃ k, pstep p (piter p k x) = piter p k x) :
    ∃ k, k < n ∧ pstep p (piter p k x) = piter p k x := by
  classical
  have hdec : DecidablePred (fun k => pstep p (piter p k x) = piter p k x) :=
    fun k => inferInstance
  let k0 := Nat.find hreach
  have hk0 : pstep p (piter p k0 x) = piter p k0 x := Nat.find_spec hreach
  by_cases hlt : k0 < n
  · exact ⟨k0, hlt, hk0⟩
  · exfalso
    push_neg at hlt
    have hmap : ∀ i : Fin (n + 1), piter p i.1 x < n :=
      fun i => piter_lt p hplt i.1 x hx
    have hcard : Fintype.card (Fin n) < Fintype.card (Fin (n + 1)) := by simp
    obtain ⟨i, j, hij, heq⟩ := Fintype.exists_ne_map_eq_of_card_lt
      (fun i : Fin (n + 1) => (⟨piter p i.1 x, hmap i⟩ : Fin n)) hcard
    have heq2 : piter p i.1 x = piter p j.1 x := by
      simpa using congrArg Fin.val heq
    rcases Nat.lt_or_ge i.1 j.1 with hij2 | hij2
    · have hper : ∀ t, piter p (i.1 + t) x = piter p (j.1 + t) x := by
        intro t
        rw [Nat.add_comm i.1 t, Nat.add_comm j.1 t, piter_add, piter_add, heq2]
      have hjk : j.1 ≤ k0 := le_trans (Nat.lt_succ_iff.mp j.isLt) hlt
      obtain ⟨t, ht⟩ := Nat.exists_eq_add_of_le hjk
      have hroot2 : pstep p (piter p (i.1 + t) x) = piter p (i.1 + t) x := by
        rw [hper t, ← ht]
        exact hk0
      have : k0 ≤ i.1 + t := Nat.find_min' hreach hroot2
      omega
    · have hij3 : j.1 < i.1 := by
        rcases Nat.lt_or_ge j.1 i.1 with h | h
        · exact h
        · exact absurd (Fin.ext (by omega)) hij
      have hper : ∀ t, piter p (j.1 + t) x = piter p (i.1 + t) x := by
        intro t
        rw [Nat.add_comm j.1 t, Nat.add_comm i.1 t, piter_add, piter_add, heq2]
      have hik : i.1 ≤ k0 := le_trans (Nat.lt_succ_iff.mp i.isLt) hlt
      obtain ⟨t, ht⟩ := Nat.exists_eq_add_of_le hik
      have hroot2 : pstep p (piter p (j.1 + t) x) = piter p (j.1 + t) x := by
        rw [hper t, ← ht]
        exact hk0
      have : k0 ≤ j.1 + t := Nat.find_min' hreach hroot2
      omega

/-- Any fixed point reached along the chain of x is THE root of x. -/
theorem root_unique {p : Array Nat} {n : Nat} (hinv : UFInv p n) {x : Nat}
    (hx : x < n) {k : Nat}
    (hroot : pstep p (piter p k x) = piter p k x) :
    rootOf p x = piter p k x := by
  have hn : 0 < n := by omega
  have hps := hinv.psize
  obtain ⟨k2, hk2, hroot2⟩ := reach_lt_size hn hinv.plt hx ⟨k, hroot⟩
  have h1 : rootOf p x = piter p p.size x := by
    unfold rootOf
    exact rootOfAux_eq_piter p p.size x ⟨k2, by omega, hroot2⟩
  rcases Nat.le_total k k2 with hk | hk
  · have e1 := piter_stable p hroot k2 hk
    have e2 := piter_stable p hroot p.size (by omega)
    rw [h1, e2]
  · have e1 := piter_stable p hroot2 k hk
    have e2 := piter_stable p hroot2 p.size (by omega)
    rw [h1, e2, ← e1]

/-- The root is a fixed point below n. -/
theorem rootOf_isRoot {p : Array Nat} {n : Nat} (hinv : UFInv p n) {x : Nat}
    (hx : x < n) :
    pstep p (rootOf p x) = rootOf p x ∧ rootOf p x < n := by
  obtain ⟨k, hroot⟩ := hinv.reaches x hx
  have h1 := root_unique hinv hx hroot
  rw [h1]
  exact ⟨hroot, piter_lt p hinv.plt k x hx⟩

/-- Stepping before chasing lands at the same root. -/
theorem rootOf_step {p : Array Nat} {n : Nat} (hinv : UFInv p n) {x : Nat}
    (hx : x < n) :
    rootOf p x = rootOf p (pstep p x) := by
  obtain ⟨k, hroot⟩ := hinv.reaches (pstep p x) (hinv.plt x hx)
  have h2 : pstep p (piter p (k + 1) x) = piter p (k + 1) x := by
    show pstep p (piter p k (pstep p x)) = piter p k (pstep p x)
    exact hroot
  rw [root_unique hinv hx h2, root_unique hinv (hinv.plt x hx) hroot]
  rfl

theorem pstep_setD_ne (p : Array Nat) {v : Nat} (w : Nat) {x : Nat}
    (h : x ≠ v) : pstep (p.setD v w) x = pstep p x := by
  unfold pstep Array.setD
  split
  · rename_i hv
    rw [Array.getD_eq_get?, Array.getD_eq_get?,
      Array.getElem?_set_ne p ⟨v, hv⟩ w (Ne.symm h)]
  · rfl

theorem pstep_setD_eq (p : Array Nat) {v : Nat} (w : Nat) (hv : v < p.size) :
    pstep (p.setD v w) v = w := by
  unfold pstep
  rw [Array.getD_eq_get?, Array.getElem?_setD_eq p hv w]
  rfl

/-- Chains that avoid the updated slot are unchanged. -/
theorem chain_congr (p : Array Nat) (v w : Nat) :
    ∀ (k : Nat) (x : Nat), (∀ t, t < k → piter p t x ≠ v) →
    piter (p.setD v w) k x = piter p k x := by
  intro k
  induction k with
  | zero => intro x _; rfl
  | succ k ih =>
    intro x hav
    show piter (p.setD v w) k (pstep (p.setD v w) x) = piter p k (pstep p x)
    have h0 : x ≠ v := hav 0 (by omega)
    rw [pstep_setD_ne p w h0]
    exact ih (pstep p x) (fun t ht => hav (t + 1) (by omega))

/-- An iterate that hits a root pins the root value. -/
theorem iterate_ne_of_root_ne {p : Array Nat} {n : Nat} (hinv : UFInv p n)
    {x v : Nat} (hx : x < n) (hrootv : pstep p v = v)
    (hne : rootOf p x ≠ v) : ∀ t, piter p t x ≠ v := by
  intro t ht
  apply hne
  have hroot : pstep p (piter p t x) = piter p t x := by rw [ht]; exact hrootv
  rw [root_unique hinv hx hroot, ht]

/-- Linking one root under another: the well-formedness survives and every
root equal to the linked root moves to the new root. -/
theorem link_spec {p : Array Nat} {n : Nat} (hinv : UFInv p n)
    {rx ry : Nat} (hrx : rx < n) (hry : ry < n)
    (hrootx : pstep p rx = rx) (hrooty : pstep p ry = ry) (hne : rx ≠ ry) :
    UFInv (p.setD rx ry) n ∧
    (∀ x, x < n →
      rootOf (p.setD rx ry) x = if rootOf p x = rx then ry else rootOf p x) := by
  have hps := hinv.psize
  have hplt' : ∀ i, i < n → pstep (p.setD rx ry) i < n := by
    intro i hi
    by_cases hirx : i = rx
    · subst hirx
      rw [pstep_setD_eq p ry (by omega)]
      exact hry
    · rw [pstep_setD_ne p ry hirx]
      exact hinv.plt i hi
  -- for every x a p'-chain reaching a root, with the intended value
  have key : ∀ x, x < n → ∃ k,
      pstep (p.setD rx ry) (piter (p.setD rx ry) k x) = piter (p.setD rx ry) k x
      ∧ piter (p.setD rx ry) k x
        = (if rootOf p x = rx then ry else rootOf p x) := by
    intro x hx
    by_cases hroot : rootOf p x = rx
    · -- the chain reaches rx, then one more step lands on the root ry
      have hex : ∃ t, piter p t x = rx := by
        obtain ⟨k, hk⟩ := hinv.reaches x hx
        exact ⟨k, by rw [← root_unique hinv hx hk, hroot]⟩
      classical
      let k1 := Nat.find hex
      have hk1 : piter p k1 x = rx := Nat.find_spec hex
      have hbefore : ∀ t, t < k1 → piter p t x ≠ rx :=
        fun t ht => Nat.find_min hex ht
      have hcc : piter (p.setD rx ry) k1 x = piter p k1 x :=
        chain_congr p rx ry k1 x hbefore
      refine ⟨1 + k1, ?_, ?_⟩
      · rw [piter_add, hcc, hk1]
        show pstep (p.setD rx ry) (piter (p.setD rx ry) 1 rx)
          = piter (p.setD rx ry) 1 rx
        have h1 : piter (p.setD rx ry) 1 rx = ry := by
          show piter (p.setD rx ry) 0 (pstep (p.setD rx ry) rx) = ry
          rw [pstep_setD_eq p ry (by omega)]
          rfl
        rw [h1, pstep_setD_ne p ry (Ne.symm hne), hrooty]
      · rw [piter_add, hcc, hk1, if_pos hroot]
        show piter (p.setD rx ry) 0 (pstep (p.setD rx ry) rx) = ry
        rw [pstep_setD_eq p ry (by omega)]
        rfl
    · -- the chain never meets rx and is untouched
      obtain ⟨k, hk⟩ := hinv.reaches x hx
      have havoid : ∀ t, piter p t x ≠ rx :=
        iterate_ne_of_root_ne hinv hx hrootx hroot
      have hcc : piter (p.setD rx ry) k x = piter p k x :=
        chain_congr p rx ry k x (fun t _ => havoid t)
      refine ⟨k, ?_, ?_⟩
      · rw [hcc, pstep_setD_ne p ry (havoid k)]
        exact hk
      · rw [hcc, if_neg hroot, root_unique hinv hx hk]
  have hinv2 : UFInv (p.setD rx ry) n :=
    { psize := by rw [Array.size_setD]; exact hps
      plt := hplt'
      reaches := fun x hx => (key x hx).imp (fun k hk => hk.1) }
  refine ⟨hinv2, ?_⟩
  intro x hx
  obtain ⟨k, hk1, hk2⟩ := key x hx
  rw [root_unique hinv2 hx hk1, hk2]

/-- The root distance of the parent is one less. -/
theorem find_shift {p : Array Nat} {n : Nat} (hinv : UFInv p n) {y : Nat}
    (hy : y < n) (hnr : pstep p y ≠ y) :
    Nat.find (hinv.reaches (pstep p y) (hinv.plt y hy)) + 1
      = Nat.find (hinv.reaches y hy) := by
  classical
  have hz := hinv.reaches (pstep p y) (hinv.plt y hy)
  have hyy := hinv.reaches y hy
  have h1 : ∀ t, (pstep p (piter p t (pstep p y)) = piter p t (pstep p y))
      ↔ (pstep p (piter p (t + 1) y) = piter p (t + 1) y) := by
    intro t
    have : piter p (t + 1) y = piter p t (pstep p y) := rfl
    rw [this]
  apply le_antisymm
  · -- find y ≤ find z + 1 is the other direction; here find z + 1 ≤ find y
    have hfy := Nat.find_spec hyy
    have hfy0 : Nat.find hyy ≠ 0 := by
      intro h0
      rw [h0] at hfy
      exact hnr hfy
    obtain ⟨d, hd⟩ := Nat.exists_eq_succ_of_ne_zero hfy0
    have : pstep p (piter p (d + 1) y) = piter p (d + 1) y := by
      have hd2 : d + 1 = Nat.find hyy := by omega
      rw [hd2]
      exact hfy
    have hzd : pstep p (piter p d (pstep p y)) = piter p d (pstep p y) :=
      (h1 d).mpr this
    have := Nat.find_min' hz hzd
    omega
  · have hfz := Nat.find_spec hz
    have : pstep p (piter p (Nat.find hz + 1) y) = piter p (Nat.find hz + 1) y :=
      (h1 (Nat.find hz)).mp hfz
    exact Nat.find_min' hyy this

/-- Path compression: pointing a non-root node straight at its root keeps
the well-formedness and every root value. -/
theorem compress_spec {p : Array Nat} {n : Nat} (hinv : UFInv p n) {x : Nat}
    (hx : x < n) (hnr : pstep p x ≠ x) :
    UFInv (p.setD x (rootOf p x)) n ∧
    (∀ y, y < n → rootOf (p.setD x (rootOf p x)) y = rootOf p y) := by
  classical
  have hps := hinv.psize
  obtain ⟨hrroot, hrlt⟩ := rootOf_isRoot hinv hx
  have hrx : rootOf p x ≠ x := by
    intro h
    rw [h] at hrroot
    exact hnr hrroot
  have hplt' : ∀ i, i < n → pstep (p.setD x (rootOf p x)) i < n := by
    intro i hi
    by_cases hix : i = x
    · subst hix
      rw [pstep_setD_eq p _ (by omega)]
      exact hrlt
    · rw [pstep_setD_ne p _ hix]
      exact hinv.plt i hi
  have key : ∀ d y (hy : y < n), Nat.find (hinv.reaches y hy) = d → ∃ k,
      pstep (p.setD x (rootOf p x)) (piter (p.setD x (rootOf p x)) k y)
        = piter (p.setD x (rootOf p x)) k y
      ∧ piter (p.setD x (rootOf p x)) k y = rootOf p y := by
    intro d
    induction d using Nat.strong_induction_on with
    | _ d ih =>
      intro y hy hfind
      by_cases hyroot : pstep p y = y
      · have hyx : y ≠ x := by
          intro h
          rw [h] at hyroot
          exact hnr hyroot
        refine ⟨0, ?_, ?_⟩
        · show pstep (p.setD x (rootOf p x)) y = y
          rw [pstep_setD_ne p _ hyx]
          exact hyroot
        · show y = rootOf p y
          rw [root_unique hinv hy (k := 0) (by simpa [piter] using hyroot)]
          rfl
      · by_cases hyx : y = x
        · subst hyx
          refine ⟨1, ?_, ?_⟩
          · have h1 : piter (p.setD y (rootOf p y)) 1 y = rootOf p y := by
              show piter (p.setD y (rootOf p y)) 0
                (pstep (p.setD y (rootOf p y)) y) = rootOf p y
              rw [pstep_setD_eq p (rootOf p y) (show y < p.size by omega)]
              rfl
            rw [h1, pstep_setD_ne p (rootOf p y) hrx]
            exact hrroot
          · show piter (p.setD y (rootOf p y)) 0
              (pstep (p.setD y (rootOf p y)) y) = rootOf p y
            rw [pstep_setD_eq p (rootOf p y) (show y < p.size by omega)]
            rfl
        · have hz : pstep p y < n := hinv.plt y hy
          have hshift := find_shift hinv hy hyroot
          rw [hfind] at hshift
          have hd0 : d ≠ 0 := by omega
          obtain ⟨k, hk1, hk2⟩ := ih (d - 1) (by omega) (pstep p y) hz (by omega)
          refine ⟨k + 1, ?_, ?_⟩
          · show pstep (p.setD x (rootOf p x))
              (piter (p.setD x (rootOf p x)) k
                (pstep (p.setD x (rootOf p x)) y))
              = piter (p.setD x (rootOf p x)) k
                (pstep (p.setD x (rootOf p x)) y)
            rw [pstep_setD_ne p _ hyx]
            exact hk1
          · show piter (p.setD x (rootOf p x)) k
              (pstep (p.setD x (rootOf p x)) y) = rootOf p y
            rw [pstep_setD_ne p _ hyx, hk2]
            exact (rootOf_step hinv hy).symm
  have hinv2 : UFInv (p.setD x (rootOf p x)) n :=
    { psize := by rw [Array.size_setD]; exact hps
      plt := hplt'
      reaches := fun y hy => (key _ y hy rfl).imp (fun k hk => hk.1) }
  refine ⟨hinv2, ?_⟩
  intro y hy
  obtain ⟨k, hk1, hk2⟩ := key _ y hy rfl
  rw [root_unique hinv2 hy hk1, hk2]

/-- compress also preserves which nodes are roots. -/
theorem compress_fix_iff {p : Array Nat} {n : Nat} (hinv : UFInv p n) {x : Nat}
    (hx : x < n) (hnr : pstep p x ≠ x) :
    ∀ y, y < n → (pstep (p.setD x (rootOf p x)) y = y ↔ pstep p y = y) := by
  intro y hy
  by_cases hyx : y = x
  · subst hyx
    obtain ⟨hrroot, -⟩ := rootOf_isRoot hinv hx
    have hrx : rootOf p y ≠ y := by
      intro h
      rw [h] at hrroot
      exact hnr hrroot
    rw [pstep_setD_eq p (rootOf p y) (show y < p.size by
      have := hinv.psize; omega)]
    constructor
    · intro h; exact absurd h hrx
    · intro h; exact absurd h hnr
  · rw [pstep_setD_ne p (rootOf p x) hyx]

/-- The compressing find returns the abstract root and preserves the
well-formedness, the rank array, every root value, and rootness. -/
theorem findAux_spec {uf : UnionFind} {n : Nat} (hinv : UFInv uf.parent n) :
    ∀ (fuel : Nat) (x : Nat) (hx : x < n),
    Nat.find (hinv.reaches x hx) < fuel →
    ∃ uf2, uf.findAux x fuel = (rootOf uf.parent x, uf2)
      ∧ uf2.rank = uf.rank
      ∧ UFInv uf2.parent n
      ∧ (∀ y, y < n → rootOf uf2.parent y = rootOf uf.parent y)
      ∧ (∀ y, y < n → (pstep uf2.parent y = y ↔ pstep uf.parent y = y)) := by
  intro fuel
  induction fuel with
  | zero =>
    intro x hx hf
    omega
  | succ fuel ih =>
    intro x hx hf
    by_cases hroot : pstep uf.parent x = x
    · have h1 : uf.findAux x (fuel + 1) = (x, uf) := by
        show (let p := uf.parent.getD x x
          if p == x then (x, uf)
          else
            let r := uf.findAux p fuel
            (r.1, { r.2 with parent := r.2.parent.setD x r.1 })) = (x, uf)
        have : (uf.parent.getD x x == x) = true := by
          simpa [pstep] using hroot
        simp only [this]
        rfl
      rw [h1]
      have hx0 : rootOf uf.parent x = x :=
        (root_unique hinv hx (k := 0) (by simpa [piter] using hroot)).trans rfl
      exact ⟨uf, by rw [hx0], rfl, hinv,
        fun y _ => rfl, fun y _ => Iff.rfl⟩
    · have hdist := find_shift hinv hx hroot
      have hlt : Nat.find (hinv.reaches (pstep uf.parent x) (hinv.plt x hx)) < fuel := by
        omega
      obtain ⟨uf1, hEq, hrank, hinv1, hroots1, hfix1⟩ :=
        ih (pstep uf.parent x) (hinv.plt x hx) hlt
      have h1 : uf.findAux x (fuel + 1) =
          ((uf.findAux (pstep uf.parent x) fuel).1,
            { (uf.findAux (pstep uf.parent x) fuel).2 with
              parent := (uf.findAux (pstep uf.parent x) fuel).2.parent.setD x
                (uf.findAux (pstep uf.parent x) fuel).1 }) := by
        show (let p := uf.parent.getD x x
          if p == x then (x, uf)
          else
            let r := uf.findAux p fuel
            (r.1, { r.2 with parent := r.2.parent.setD x r.1 })) = _
        have : (uf.parent.getD x x == x) = false := by
          simp [pstep] at hroot
          simp [hroot]
        simp only [this]
        rfl
      rw [h1, hEq]
      dsimp only
      have hrx : rootOf uf.parent (pstep uf.parent x) = rootOf uf.parent x :=
        (rootOf_step hinv hx).symm
      have hxnr1 : pstep uf1.parent x ≠ x := by
        intro h
        exact hroot ((hfix1 x hx).mp h)
      have hval : rootOf uf.parent (pstep uf.parent x) = rootOf uf1.parent x := by
        rw [hrx, ← hroots1 x hx]
      have hcomp := compress_spec hinv1 hx hxnr1
      rw [← hval] at hcomp
      obtain ⟨hinv2, hroots2⟩ := hcomp
      have hfix2 := compress_fix_iff hinv1 hx hxnr1
      rw [← hval] at hfix2
      refine ⟨{ parent := uf1.parent.setD x (rootOf uf.parent (pstep uf.parent x)), rank := uf1.rank }, ?_, hrank, hinv2, ?_, ?_⟩
      · rw [hrx]
      · intro y hy
        dsimp only
        rw [hroots2 y hy, hroots1 y hy]
      · intro y hy
        dsimp only
        rw [hfix2 y hy, hfix1 y hy]

/-- find = findAux with array-size fuel. -/
theorem find_spec {uf : UnionFind} {n : Nat} (hinv : UFInv uf.parent n)
    (x : Nat) (hx : x < n) :
    ∃ uf2, uf.find x = (rootOf uf.parent x, uf2)
      ∧ uf2.rank = uf.rank
      ∧ UFInv uf2.parent n
      ∧ (∀ y, y < n → rootOf uf2.parent y = rootOf uf.parent y)
      ∧ (∀ y, y < n → (pstep uf2.parent y = y ↔ pstep uf.parent y = y)) := by
  have hps := hinv.psize
  have hn : 0 < n := by omega
  obtain ⟨k, hk, hkroot⟩ := reach_lt_size hn hinv.plt hx (hinv.reaches x hx)
  have hfind : Nat.find (hinv.reaches x hx) < uf.parent.size := by
    have := Nat.find_min' (hinv.reaches x hx) hkroot
    omega
  exact findAux_spec hinv uf.parent.size x hx hfind

/-- The observable effect of union on roots: the two classes merge and
nothing else moves. -/
theorem union_spec {uf : UnionFind} {n : Nat} (hinv : UFInv uf.parent n)
    (x y : Nat) (hx : x < n) (hy : y < n) :
    UFInv (uf.union x y).parent n
    ∧ (∀ z w, z < n → w < n →
        (rootOf (uf.union x y).parent z = rootOf (uf.union x y).parent w ↔
          (rootOf uf.parent z = rootOf uf.parent w ∨
            ((rootOf uf.parent z = rootOf uf.parent x
              ∨ rootOf uf.parent z = rootOf uf.parent y)
            ∧ (rootOf uf.parent w = rootOf uf.parent x
              ∨ rootOf uf.parent w = rootOf uf.parent y))))) := by
  obtain ⟨uf1, hEq1, hrank1, hinv1, hroots1, hfix1⟩ := find_spec hinv x hx
  have hy1 : rootOf uf1.parent y = rootOf uf.parent y := hroots1 y hy
  obtain ⟨uf2, hEq2, hrank2, hinv2, hroots2, hfix2⟩ := find_spec hinv1 y hy
  have hunfold : uf.union x y =
      (if rootOf uf.parent x == rootOf uf1.parent y then uf2
       else
        let rkx := uf2.rank.getD (rootOf uf.parent x) 0
        let rky := uf2.rank.getD (rootOf uf1.parent y) 0
        if rkx < rky then
          { uf2 with parent := (uf2.parent.setD (rootOf uf.parent x)
              (rootOf uf1.parent y)) }
        else if rky < rkx then
          { uf2 with parent := (uf2.parent.setD (rootOf uf1.parent y)
              (rootOf uf.parent x)) }
        else
          { parent := uf2.parent.setD (rootOf uf1.parent y) (rootOf uf.parent x)
            rank := uf2.rank.setD (rootOf uf.parent x) (rkx + 1) }) := by
    unfold UnionFind.union
    rw [hEq1]
    dsimp only
    rw [hEq2]
  have hrz : ∀ z, z < n → rootOf uf2.parent z = rootOf uf.parent z := by
    intro z hz
    rw [hroots2 z hz, hroots1 z hz]
  have hrootx2 : rootOf uf2.parent x = rootOf uf.parent x := hrz x hx
  have hrooty2 : rootOf uf2.parent y = rootOf uf.parent y := hrz y hy
  by_cases heq : rootOf uf.parent x = rootOf uf.parent y
  · have hcond : (rootOf uf.parent x == rootOf uf1.parent y) = true := by
      rw [hy1]
      simpa using heq
    rw [hunfold, if_pos hcond]
    refine ⟨hinv2, ?_⟩
    intro z w hz hw
    rw [hrz z hz, hrz w hw]
    constructor
    · exact Or.inl
    · rintro (h | ⟨hz2, hw2⟩)
      · exact h
      · have hz3 : rootOf uf.parent z = rootOf uf.parent x := by
          rcases hz2 with h | h
          · exact h
          · rw [h, heq]
        have hw3 : rootOf uf.parent w = rootOf uf.parent x := by
          rcases hw2 with h | h
          · exact h
          · rw [h, heq]
        rw [hz3, hw3]
  · have hcond : (rootOf uf.parent x == rootOf uf1.parent y) = false := by
      rw [hy1]
      simpa using heq
    have hroot2x : pstep uf2.parent (rootOf uf.parent x) = rootOf uf.parent x
        ∧ rootOf uf.parent x < n := by
      have h := rootOf_isRoot hinv2 hx
      rw [hrootx2] at h
      exact h
    have hroot2y : pstep uf2.parent (rootOf uf.parent y) = rootOf uf.parent y
        ∧ rootOf uf.parent y < n := by
      have h := rootOf_isRoot hinv2 hy
      rw [hrooty2] at h
      exact h
    have hlinkxy := link_spec hinv2 hroot2x.2 hroot2y.2 hroot2x.1 hroot2y.1 heq
    have hlinkyx := link_spec hinv2 hroot2y.2 hroot2x.2 hroot2y.1 hroot2x.1
      (Ne.symm heq)
    rw [hunfold, if_neg (by simp [hcond]), hy1]
    dsimp only
    by_cases hr1 : uf2.rank.getD (rootOf uf.parent x) 0
        < uf2.rank.getD (rootOf uf.parent y) 0
    · rw [if_pos hr1]
      dsimp only
      refine ⟨hlinkxy.1, ?_⟩
      intro z w hz hw
      rw [hlinkxy.2 z hz, hlinkxy.2 w hw, hrz z hz, hrz w hw]
      split <;> split <;> omega
    · rw [if_neg hr1]
      by_cases hr2 : uf2.rank.getD (rootOf uf.parent y) 0
          < uf2.rank.getD (rootOf uf.parent x) 0
      · rw [if_pos hr2]
        dsimp only
        refine ⟨hlinkyx.1, ?_⟩
        intro z w hz hw
        rw [hlinkyx.2 z hz, hlinkyx.2 w hw, hrz z hz, hrz w hw]
        split <;> split <;> omega
      · rw [if_neg hr2]
        dsimp only
        refine ⟨hlinkyx.1, ?_⟩
        intro z w hz hw
        rw [hlinkyx.2 z hz, hlinkyx.2 w hw, hrz z hz, hrz w hw]
        split <;> split <;> omega

/-! ### Consolidate: connected components of the threshold graph -/

/-- The spec-side adjacency: two distinct in-range indices whose vectors
meet the similarity threshold. -/
def thresholdAdj (vectors : List StoredVector) (threshold : ℚ) (i j : Nat) : Prop :=
  i < vectors.length ∧ j < vectors.length ∧ i ≠ j ∧ threshold ≤ simAt vectors i j

/-- The pure grouping of the root-grouping pass: key order is first
occurrence, members keep list order. -/
def groupBy (f : Nat → Nat) (l : List Nat) : List (Nat × List Nat) :=
  l.foldl (fun acc i =>
    if acc.any (fun g => g.1 == f i) then
      acc.map (fun g => if g.1 == f i then (g.1, g.2 ++ [i]) else g)
    else acc ++ [(f i, [i])]) []

theorem cosine_foldl_comm : ∀ (a b : Vec) (acc : ℚ),
    (a.zip b).foldl (fun acc p => acc + p.1 * p.2) acc
      = (b.zip a).foldl (fun acc p => acc + p.1 * p.2) acc := by
  intro a
  induction a with
  | nil => intro b acc; cases b <;> rfl
  | cons x xs ih =>
    intro b acc
    cases b with
    | nil => rfl
    | cons y ys =>
      show (xs.zip ys).foldl _ (acc + x * y) = (ys.zip xs).foldl _ (acc + y * x)
      rw [mul_comm x y]
      exact ih ys (acc + y * x)

theorem cosineSimilarity_comm (a b : Vec) :
    cosineSimilarity a b = cosineSimilarity b a := by
  unfold cosineSimilarity
  exact cosine_foldl_comm a b 0

theorem simAt_comm (vectors : List StoredVector) (i j : Nat) :
    simAt vectors i j = simAt vectors j i := by
  unfold simAt
  exact cosineSimilarity_comm _ _

theorem foldl_add_map {α : Type} (F : α → ℚ) :
    ∀ (l : List α) (acc : ℚ),
    l.foldl (fun a p => a + F p) acc = acc + (l.map F).sum := by
  intro l
  induction l with
  | nil => intro acc; simp
  | cons x xs ih =>
    intro acc
    show xs.foldl _ (acc + F x) = acc + (F x + (xs.map F).sum)
    rw [ih (acc + F x), add_assoc]

theorem foldl_add_congr {α : Type} {F G : α → ℚ} :
    ∀ {l : List α}, (∀ p ∈ l, F p = G p) → ∀ (acc : ℚ),
    l.foldl (fun a p => a + F p) acc = l.foldl (fun a p => a + G p) acc := by
  intro l
  induction l with
  | nil => intro _ acc; rfl
  | cons x xs ih =>
    intro h acc
    show xs.foldl _ (acc + F x) = xs.foldl _ (acc + G x)
    rw [h x (List.mem_cons_self x xs), ih (fun p hp => h p (List.mem_cons_of_mem x hp))]

theorem two_le_length_of_two_mem {α : Type} {l : List α} {a b : α}
    (ha : a ∈ l) (hb : b ∈ l) (hab : a ≠ b) : 2 ≤ l.length := by
  match l with
  | [] => cases ha
  | [x] =>
    simp only [List.mem_singleton] at ha hb
    exact absurd (ha.trans hb.symm) hab
  | x :: y :: t =>
    simp only [List.length_cons]
    omega

/-- The equivalence closure of the empty relation is equality. -/
theorem eqvGen_false {α : Type} {a b : α}
    (h : Relation.EqvGen (fun _ _ => False) a b) : a = b := by
  induction h with
  | rel a b h => cases h
  | refl => rfl
  | symm a b _ ih => exact ih.symm
  | trans a b c _ _ ih1 ih2 => exact ih1.trans ih2

/-- Equivalence closures of pointwise-equivalent relations agree. -/
theorem eqvGen_congr {α : Type} {r p : α → α → Prop}
    (h : ∀ a b, r a b ↔ p a b) {a b : α} :
    Relation.EqvGen r a b ↔ Relation.EqvGen p a b :=
  ⟨Relation.EqvGen.mono (fun a b => (h a b).mp),
   Relation.EqvGen.mono (fun a b => (h a b).mpr)⟩

/-- Adding a single edge (i, j) to a relation merges exactly the classes
of i and j in the equivalence closure. -/
theorem eqvGen_union_pair {α : Type} (r : α → α → Prop) (i j : α) (a b : α) :
    Relation.EqvGen (fun u v => r u v ∨ (u = i ∧ v = j)) a b ↔
      (Relation.EqvGen r a b ∨
        ((Relation.EqvGen r a i ∨ Relation.EqvGen r a j)
          ∧ (Relation.EqvGen r b i ∨ Relation.EqvGen r b j))) := by
  have he := Relation.EqvGen.is_equivalence r
  constructor
  · intro h
    induction h with
    | rel u v h =>
      rcases h with h | ⟨hu, hv⟩
      · exact Or.inl (Relation.EqvGen.rel u v h)
      · subst hu; subst hv
        exact Or.inr ⟨Or.inl (he.refl _), Or.inr (he.refl _)⟩
    | refl u => exact Or.inl (he.refl u)
    | symm u v _ ih =>
      rcases ih with h | ⟨h1, h2⟩
      · exact Or.inl (he.symm h)
      · exact Or.inr ⟨h2, h1⟩
    | trans u v w _ _ ih1 ih2 =>
      rcases ih1 with h1 | ⟨h1a, h1b⟩
      · rcases ih2 with h2 | ⟨h2a, h2b⟩
        · exact Or.inl (he.trans h1 h2)
        · refine Or.inr ⟨?_, h2b⟩
          rcases h2a with h | h
          · exact Or.inl (he.trans h1 h)
          · exact Or.inr (he.trans h1 h)
      · rcases ih2 with h2 | ⟨h2a, h2b⟩
        · refine Or.inr ⟨h1a, ?_⟩
          rcases h1b with h | h
          · exact Or.inl (he.trans (he.symm h2) h)
          · exact Or.inr (he.trans (he.symm h2) h)
        · exact Or.inr ⟨h1a, h2b⟩
  · have hmono : ∀ u v, Relation.EqvGen r u v →
        Relation.EqvGen (fun u v => r u v ∨ (u = i ∧ v = j)) u v :=
      fun u v => Relation.EqvGen.mono (fun a b h => Or.inl h)
    have hij : Relation.EqvGen (fun u v => r u v ∨ (u = i ∧ v = j)) i j :=
      Relation.EqvGen.rel i j (Or.inr ⟨rfl, rfl⟩)
    have he2 := Relation.EqvGen.is_equivalence
      (fun u v : α => r u v ∨ (u = i ∧ v = j))
    rintro (h | ⟨ha, hb⟩)
    · exact hmono a b h
    · have hai : Relation.EqvGen (fun u v => r u v ∨ (u = i ∧ v = j)) a i := by
        rcases ha with h | h
        · exact hmono a i h
        · exact he2.trans (hmono a j h) (he2.symm hij)
      have hbi : Relation.EqvGen (fun u v => r u v ∨ (u = i ∧ v = j)) b i := by
        rcases hb with h | h
        · exact hmono b i h
        · exact he2.trans (hmono b j h) (he2.symm hij)
      exact he2.trans hai (he2.symm hbi)

theorem pstep_range (n x : Nat) : pstep (Array.range n) x = x := by
  unfold pstep Array.getD
  split
  · exact Array.getElem_range _
  · rfl

theorem UFInv_init (n : Nat) : UFInv (UnionFind.init n).parent n :=
  { psize := Array.size_range
    plt := fun i hi => by
      show pstep (Array.range n) i < n
      rw [pstep_range n i]
      exact hi
    reaches := fun x _ => ⟨0, pstep_range n x⟩ }

theorem rootOf_init (n x : Nat) (hx : x < n) :
    rootOf (UnionFind.init n).parent x = x :=
  root_unique (UFInv_init n) hx (k := 0) (pstep_range n x)

theorem allPairs_mem (n : Nat) (p : Nat × Nat) :
    p ∈ allPairs n ↔ (p.1 < p.2 ∧ p.2 < n) := by
  unfold allPairs
  simp only [List.mem_flatMap, List.mem_map, List.mem_filter, List.mem_range,
    decide_eq_true_eq]
  constructor
  · rintro ⟨i, hi, j, ⟨hj, hij⟩, rfl⟩
    exact ⟨hij, hj⟩
  · rintro ⟨h1, h2⟩
    exact ⟨p.1, by omega, p.2, ⟨h2, h1⟩, rfl⟩

/-- The invariant of the pair loop: the union-find stays well formed, its
root partition is the equivalence closure of the processed threshold
edges, and every memoized value is the similarity of its key. -/
theorem buildUF_fold_inv (vectors : List StoredVector) (threshold : ℚ) :
    ∀ (l : List (Nat × Nat)) (R : Nat → Nat → Prop)
      (acc : UnionFind × List ((Nat × Nat) × ℚ)),
    (∀ p ∈ l, p.1 < vectors.length ∧ p.2 < vectors.length) →
    UFInv acc.1.parent vectors.length →
    (∀ z w, z < vectors.length → w < vectors.length →
      (rootOf acc.1.parent z = rootOf acc.1.parent w ↔ Relation.EqvGen R z w)) →
    (∀ e ∈ acc.2, e.2 = simAt vectors e.1.1 e.1.2) →
    UFInv (l.foldl (fun acc p =>
        let sim := simAt vectors p.1 p.2
        if threshold ≤ sim then (acc.1.union p.1 p.2, acc.2 ++ [(p, sim)])
        else acc) acc).1.parent vectors.length ∧
    (∀ z w, z < vectors.length → w < vectors.length →
      (rootOf (l.foldl (fun acc p =>
          let sim := simAt vectors p.1 p.2
          if threshold ≤ sim then (acc.1.union p.1 p.2, acc.2 ++ [(p, sim)])
          else acc) acc).1.parent z
        = rootOf (l.foldl (fun acc p =>
          let sim := simAt vectors p.1 p.2
          if threshold ≤ sim then (acc.1.union p.1 p.2, acc.2 ++ [(p, sim)])
          else acc) acc).1.parent w ↔
        Relation.EqvGen (fun a b => R a b ∨
          ((a, b) ∈ l ∧ threshold ≤ simAt vectors a b)) z w)) ∧
    (∀ e ∈ (l.foldl (fun acc p =>
        let sim := simAt vectors p.1 p.2
        if threshold ≤ sim then (acc.1.union p.1 p.2, acc.2 ++ [(p, sim)])
        else acc) acc).2, e.2 = simAt vectors e.1.1 e.1.2) := by
  intro l
  induction l with
  | nil =>
    intro R acc _ hinv hiff hmemo
    simp only [List.foldl_nil]
    refine ⟨hinv, ?_, hmemo⟩
    intro z w hz hw
    rw [hiff z w hz hw]
    exact eqvGen_congr (fun a b => by simp)
  | cons p l' ih =>
    intro R acc hbound hinv hiff hmemo
    have hp := hbound p (List.mem_cons_self p l')
    by_cases hth : threshold ≤ simAt vectors p.1 p.2
    · rw [List.foldl_cons]
      dsimp only
      rw [if_pos hth]
      obtain ⟨hinvU, hiffU⟩ := union_spec hinv p.1 p.2 hp.1 hp.2
      have hiff2 : ∀ z w, z < vectors.length → w < vectors.length →
          (rootOf (acc.1.union p.1 p.2).parent z
            = rootOf (acc.1.union p.1 p.2).parent w ↔
            Relation.EqvGen (fun a b => R a b ∨ (a = p.1 ∧ b = p.2)) z w) := by
        intro z w hz hw
        rw [hiffU z w hz hw, eqvGen_union_pair R p.1 p.2 z w,
          ← hiff z w hz hw, ← hiff z p.1 hz hp.1, ← hiff z p.2 hz hp.2,
          ← hiff w p.1 hw hp.1, ← hiff w p.2 hw hp.2]
      have hmemo2 : ∀ e ∈ acc.2 ++ [(p, simAt vectors p.1 p.2)],
          e.2 = simAt vectors e.1.1 e.1.2 := by
        intro e he
        rcases List.mem_append.mp he with h | h
        · exact hmemo e h
        · simp only [List.mem_singleton] at h
          subst h
          rfl
      obtain ⟨h1, h2, h3⟩ := ih (fun a b => R a b ∨ (a = p.1 ∧ b = p.2))
        (acc.1.union p.1 p.2, acc.2 ++ [(p, simAt vectors p.1 p.2)])
        (fun q hq => hbound q (List.mem_cons_of_mem p hq)) hinvU hiff2 hmemo2
      refine ⟨h1, ?_, h3⟩
      intro z w hz hw
      rw [h2 z w hz hw]
      apply eqvGen_congr
      intro a b
      constructor
      · rintro ((h | ⟨ha, hb⟩) | ⟨hmem, hok⟩)
        · exact Or.inl h
        · subst ha; subst hb
          exact Or.inr ⟨List.mem_cons_self _ _, hth⟩
        · exact Or.inr ⟨List.mem_cons_of_mem p hmem, hok⟩
      · rintro (h | ⟨hmem, hok⟩)
        · exact Or.inl (Or.inl h)
        · rcases List.mem_cons.mp hmem with h | h
          · refine Or.inl (Or.inr ?_)
            rw [Prod.ext_iff] at h
            exact h
          · exact Or.inr ⟨h, hok⟩
    · rw [List.foldl_cons]
      dsimp only
      rw [if_neg hth]
      obtain ⟨h1, h2, h3⟩ := ih R acc
        (fun q hq => hbound q (List.mem_cons_of_mem p hq)) hinv hiff hmemo
      refine ⟨h1, ?_, h3⟩
      intro z w hz hw
      rw [h2 z w hz hw]
      apply eqvGen_congr
      intro a b
      constructor
      · rintro (h | ⟨hmem, hok⟩)
        · exact Or.inl h
        · exact Or.inr ⟨List.mem_cons_of_mem p hmem, hok⟩
      · rintro (h | ⟨hmem, hok⟩)
        · exact Or.inl h
        · rcases List.mem_cons.mp hmem with h | h
          · exfalso
            subst h
            exact hth hok
          · exact Or.inr ⟨h, hok⟩

/-- After the pair loop, the root partition of the union-find is exactly
the equivalence closure of the threshold adjacency, and the memo stores
true similarities. -/
theorem buildUF_spec (vectors : List StoredVector) (threshold : ℚ) :
    UFInv (buildUF vectors threshold).1.parent vectors.length
    ∧ (∀ z w, z < vectors.length → w < vectors.length →
        (rootOf (buildUF vectors threshold).1.parent z
          = rootOf (buildUF vectors threshold).1.parent w ↔
          Relation.EqvGen (thresholdAdj vectors threshold) z w))
    ∧ (∀ e ∈ (buildUF vectors threshold).2, e.2 = simAt vectors e.1.1 e.1.2) := by
  have hbound : ∀ p ∈ allPairs vectors.length,
      p.1 < vectors.length ∧ p.2 < vectors.length := by
    intro p hp
    have h := (allPairs_mem _ p).mp hp
    omega
  have hbase : ∀ z w, z < vectors.length → w < vectors.length →
      (rootOf (UnionFind.init vectors.length).parent z
        = rootOf (UnionFind.init vectors.length).parent w ↔
        Relation.EqvGen (fun _ _ : Nat => False) z w) := by
    intro z w hz hw
    rw [rootOf_init _ z hz, rootOf_init _ w hw]
    constructor
    · intro h
      subst h
      exact Relation.EqvGen.refl z
    · exact eqvGen_false
  obtain ⟨h1, h2, h3⟩ := buildUF_fold_inv vectors threshold
    (allPairs vectors.length) (fun _ _ => False)
    (UnionFind.init vectors.length, []) hbound (UFInv_init _) hbase
    (by intro e he; cases he)
  refine ⟨h1, ?_, h3⟩
  unfold buildUF
  intro z w hz hw
  rw [h2 z w hz hw]
  constructor
  · apply Relation.EqvGen.mono
    rintro a b (h | ⟨hmem, hok⟩)
    · cases h
    · have hab := (allPairs_mem _ _).mp hmem
      exact ⟨lt_trans hab.1 hab.2, hab.2, Nat.ne_of_lt hab.1, hok⟩
  · intro h
    have hstep : ∀ a b, thresholdAdj vectors threshold a b →
        Relation.EqvGen (fun a b => False ∨
          ((a, b) ∈ allPairs vectors.length
            ∧ threshold ≤ simAt vectors a b)) a b := by
      rintro a b ⟨ha, hb, hne, hok⟩
      rcases Nat.lt_or_ge a b with hlt | hge
      · exact Relation.EqvGen.rel a b
          (Or.inr ⟨(allPairs_mem _ (a, b)).mpr ⟨hlt, hb⟩, hok⟩)
      · have hlt : b < a := by omega
        refine Relation.EqvGen.symm _ _ (Relation.EqvGen.rel b a
          (Or.inr ⟨(allPairs_mem _ (b, a)).mpr ⟨hlt, ha⟩, ?_⟩))
        rw [simAt_comm]
        exact hok
    exact ((Relation.EqvGen.is_equivalence _).eqvGen_iff).mp
      (Relation.EqvGen.mono hstep h)

/-- The threading of the compressed union-find through the grouping pass
does not change the grouping: it equals the pure grouping by root. -/
theorem groupRoots_fold (uf : UnionFind) {n : Nat} :
    ∀ (l : List Nat), (∀ i ∈ l, i < n) →
    ∀ (uf0 : UnionFind) (acc2 : List (Nat × List Nat)),
    UFInv uf0.parent n →
    (∀ i, i < n → rootOf uf0.parent i = rootOf uf.parent i) →
    (l.foldl (fun (acc : UnionFind × List (Nat × List Nat)) i =>
        let (r, uf1) := acc.1.find i
        if acc.2.any (fun g => g.1 == r) then
          (uf1, acc.2.map (fun g => if g.1 == r then (g.1, g.2 ++ [i]) else g))
        else (uf1, acc.2 ++ [(r, [i])])) (uf0, acc2)).2
      = l.foldl (fun acc i =>
          if acc.any (fun g => g.1 == rootOf uf.parent i) then
            acc.map (fun g =>
              if g.1 == rootOf uf.parent i then (g.1, g.2 ++ [i]) else g)
          else acc ++ [(rootOf uf.parent i, [i])]) acc2 := by
  intro l
  induction l with
  | nil =>
    intro _ uf0 acc2 _ _
    rfl
  | cons i l' ih =>
    intro hb uf0 acc2 hinv0 hpres
    have hi : i < n := hb i (List.mem_cons_self i l')
    obtain ⟨uf1, hEq, _, hinv1, hroots1, _⟩ := find_spec hinv0 i hi
    rw [List.foldl_cons, List.foldl_cons]
    have hri : rootOf uf0.parent i = rootOf uf.parent i := hpres i hi
    dsimp only
    rw [hEq]
    dsimp only
    rw [hri]
    have hpres1 : ∀ j, j < n → rootOf uf1.parent j = rootOf uf.parent j := by
      intro j hj
      rw [hroots1 j hj, hpres j hj]
    by_cases hc : acc2.any (fun g => g.1 == rootOf uf.parent i)
    · rw [if_pos hc, if_pos hc]
      exact ih (fun j hj => hb j (List.mem_cons_of_mem i hj)) uf1 _ hinv1 hpres1
    · rw [if_neg hc, if_neg hc]
      exact ih (fun j hj => hb j (List.mem_cons_of_mem i hj)) uf1 _ hinv1 hpres1

theorem groupRoots_eq_groupBy {uf : UnionFind} {n : Nat}
    (hinv : UFInv uf.parent n) :
    groupRoots uf n = groupBy (fun i => rootOf uf.parent i) (List.range n) := by
  unfold groupRoots groupBy
  exact groupRoots_fold uf (List.range n)
    (fun i hi => List.mem_range.mp hi) uf [] hinv (fun _ _ => rfl)

/-- The pure grouping pass: members are exactly the elements with the
group key, in order; keys are distinct and realized. -/
theorem groupBy_inv (f : Nat → Nat) :
    ∀ (l : List Nat) (processed : List Nat) (acc : List (Nat × List Nat)),
    (∀ g ∈ acc, g.2 = processed.filter (fun i => f i == g.1)) →
    (acc.map Prod.fst).Nodup →
    (∀ i ∈ processed, ∃ g ∈ acc, g.1 = f i) →
    (∀ g ∈ acc, ∃ i ∈ processed, g.1 = f i) →
    (∀ g ∈ (l.foldl (fun acc i =>
        if acc.any (fun g => g.1 == f i) then
          acc.map (fun g => if g.1 == f i then (g.1, g.2 ++ [i]) else g)
        else acc ++ [(f i, [i])]) acc),
      g.2 = (processed ++ l).filter (fun i => f i == g.1)) ∧
    ((l.foldl (fun acc i =>
        if acc.any (fun g => g.1 == f i) then
          acc.map (fun g => if g.1 == f i then (g.1, g.2 ++ [i]) else g)
        else acc ++ [(f i, [i])]) acc).map Prod.fst).Nodup ∧
    (∀ i ∈ processed ++ l, ∃ g ∈ (l.foldl (fun acc i =>
        if acc.any (fun g => g.1 == f i) then
          acc.map (fun g => if g.1 == f i then (g.1, g.2 ++ [i]) else g)
        else acc ++ [(f i, [i])]) acc), g.1 = f i) ∧
    (∀ g ∈ (l.foldl (fun acc i =>
        if acc.any (fun g => g.1 == f i) then
          acc.map (fun g => if g.1 == f i then (g.1, g.2 ++ [i]) else g)
        else acc ++ [(f i, [i])]) acc), ∃ i ∈ processed ++ l, g.1 = f i) := by
  intro l
  induction l with
  | nil =>
    intro processed acc h1 h2 h3 h4
    simp only [List.foldl_nil, List.append_nil]
    exact ⟨h1, h2, h3, h4⟩
  | cons i l' ih =>
    intro processed acc h1 h2 h3 h4
    rw [List.foldl_cons]
    have hassoc : processed ++ i :: l' = (processed ++ [i]) ++ l' := by simp
    rw [hassoc]
    by_cases hc : acc.any (fun g => g.1 == f i)
    · rw [if_pos hc]
      have hkeys : (acc.map (fun g =>
          if g.1 == f i then (g.1, g.2 ++ [i]) else g)).map Prod.fst
          = acc.map Prod.fst := by
        rw [List.map_map]
        apply List.map_congr_left
        intro g _
        by_cases hg : (g.1 == f i) = true <;> simp [Function.comp, hg]
      apply ih (processed ++ [i])
      · intro g hg
        rcases List.mem_map.mp hg with ⟨g0, hg0, him⟩
        by_cases hk : g0.1 = f i
        · have him2 : g = (g0.1, g0.2 ++ [i]) := by
            rw [← him, if_pos (by simpa using hk)]
          rw [him2, List.filter_append, ← h1 g0 hg0]
          simp [hk]
        · have him2 : g = g0 := by
            rw [← him, if_neg (by simpa using hk)]
          rw [him2, List.filter_append, ← h1 g0 hg0]
          have : (f i == g0.1) = false := by
            simp only [beq_eq_false_iff_ne, ne_eq]
            intro hcontra
            exact hk hcontra.symm
          simp [this]
      · rw [hkeys]
        exact h2
      · intro j hj
        rcases List.mem_append.mp hj with hj | hj
        · rcases h3 j hj with ⟨g, hg, hgk⟩
          by_cases hk : g.1 = f i
          · exact ⟨(g.1, g.2 ++ [i]), List.mem_map.mpr
              ⟨g, hg, by rw [if_pos (by simpa using hk)]⟩, hgk⟩
          · exact ⟨g, List.mem_map.mpr
              ⟨g, hg, by rw [if_neg (by simpa using hk)]⟩, hgk⟩
        · simp only [List.mem_singleton] at hj
          subst hj
          rcases List.any_eq_true.mp hc with ⟨g, hg, hgk⟩
          have hgk2 : g.1 = f j := by simpa using hgk
          exact ⟨(g.1, g.2 ++ [j]), List.mem_map.mpr
            ⟨g, hg, by rw [if_pos hgk]⟩, hgk2⟩
      · intro g hg
        rcases List.mem_map.mp hg with ⟨g0, hg0, him⟩
        rcases h4 g0 hg0 with ⟨j, hj, hjk⟩
        refine ⟨j, List.mem_append_left _ hj, ?_⟩
        rw [← him]
        by_cases hk : g0.1 = f i
        · rw [if_pos (by simpa using hk)]
          exact hjk
        · rw [if_neg (by simpa using hk)]
          exact hjk
    · rw [if_neg hc]
      have hnotin : ∀ g ∈ acc, ¬(g.1 = f i) := by
        intro g hg hk
        exact hc (List.any_eq_true.mpr ⟨g, hg, by simpa using hk⟩)
      apply ih (processed ++ [i])
      · intro g hg
        rcases List.mem_append.mp hg with hg | hg
        · rw [List.filter_append, ← h1 g hg]
          have : (f i == g.1) = false := by
            simp only [beq_eq_false_iff_ne, ne_eq]
            intro hcontra
            exact hnotin g hg hcontra.symm
          simp [this]
        · simp only [List.mem_singleton] at hg
          subst hg
          rw [List.filter_append]
          have hfilnil : processed.filter (fun j => f j == f i) = [] := by
            rw [List.filter_eq_nil_iff]
            intro j hj hjk
            rcases h3 j hj with ⟨g, hg, hgk⟩
            apply hnotin g hg
            rw [hgk]
            exact (by simpa using hjk : f j = f i)
          dsimp only
          rw [hfilnil]
          simp
      · rw [List.map_append]
        simp only [List.map_cons, List.map_nil]
        apply List.Nodup.append h2 (List.nodup_singleton _)
        intro k hk1 hk2
        simp only [List.mem_singleton] at hk2
        subst hk2
        rcases List.mem_map.mp hk1 with ⟨g, hg, hgk⟩
        exact hnotin g hg hgk
      · intro j hj
        rcases List.mem_append.mp hj with hj | hj
        · rcases h3 j hj with ⟨g, hg, hgk⟩
          exact ⟨g, List.mem_append_left _ hg, hgk⟩
        · simp only [List.mem_singleton] at hj
          subst hj
          exact ⟨(f j, [j]), List.mem_append_right _ (List.mem_singleton_self _), rfl⟩
      · intro g hg
        rcases List.mem_append.mp hg with hg | hg
        · rcases h4 g hg with ⟨j, hj, hjk⟩
          exact ⟨j, List.mem_append_left _ hj, hjk⟩
        · simp only [List.mem_singleton] at hg
          subst hg
          exact ⟨i, List.mem_append_right _ (List.mem_singleton_self _), rfl⟩

theorem groupBy_spec (f : Nat → Nat) (l : List Nat) :
    (∀ g ∈ groupBy f l, g.2 = l.filter (fun i => f i == g.1)) ∧
    ((groupBy f l).map Prod.fst).Nodup ∧
    (∀ i ∈ l, ∃ g ∈ groupBy f l, g.1 = f i) ∧
    (∀ g ∈ groupBy f l, ∃ i ∈ l, g.1 = f i) := by
  have h := groupBy_inv f l [] [] (by intro g hg; cases hg) List.nodup_nil
    (by intro i hi; cases hi) (by intro g hg; cases hg)
  simpa only [List.nil_append] using h

/-- A memo hit returns the similarity of the queried pair (either
orientation of the ordered key). -/
theorem lookupSim_eq {vectors : List StoredVector}
    {memo : List ((Nat × Nat) × ℚ)}
    (hmemo : ∀ e ∈ memo, e.2 = simAt vectors e.1.1 e.1.2) (a b : Nat)
    {v : ℚ} (h : lookupSim memo a b = some v) : v = simAt vectors a b := by
  unfold lookupSim at h
  rcases Option.map_eq_some'.mp h with ⟨e, hfind, hv⟩
  have hmem := List.mem_of_find?_eq_some hfind
  have hpred := List.find?_some hfind
  have hkey : e.1 = (if a < b then (a, b) else (b, a)) := by simpa using hpred
  have hval := hmemo e hmem
  by_cases hab : a < b
  · rw [if_pos hab] at hkey
    rw [← hv, hval, hkey]
  · rw [if_neg hab] at hkey
    rw [← hv, hval, hkey]
    exact simAt_comm vectors b a

theorem memberPairs_pos {m : List Nat} (h : 2 ≤ m.length) :
    0 < (memberPairs m).length := by
  unfold memberPairs
  rw [List.length_map]
  have hmem : ((0 : Nat), (1 : Nat)) ∈ allPairs m.length :=
    (allPairs_mem _ ((0 : Nat), (1 : Nat))).mpr (by constructor <;> omega)
  exact List.length_pos.mpr (List.ne_nil_of_mem hmem)

/-- The average similarity over a cluster equals the recomputed mean of
the member-pair similarities, rounded to three decimals. -/
theorem clusterAvg_eq {vectors : List StoredVector}
    {memo : List ((Nat × Nat) × ℚ)}
    (hmemo : ∀ e ∈ memo, e.2 = simAt vectors e.1.1 e.1.2)
    (members : List Nat) (hne : 0 < (memberPairs members).length) :
    clusterAvg vectors memo members
      = round3 ((((memberPairs members).map
          (fun p => simAt vectors p.1 p.2)).sum)
        / ((memberPairs members).length : ℚ)) := by
  unfold clusterAvg
  dsimp only
  rw [if_pos hne]
  have hcongr : (memberPairs members).foldl (fun acc p =>
      acc + (match lookupSim memo p.1 p.2 with
        | some v => v
        | none => simAt vectors p.1 p.2)) 0
      = (memberPairs members).foldl
          (fun acc p => acc + simAt vectors p.1 p.2) 0 := by
    apply foldl_add_congr
    intro p _
    match hl : lookupSim memo p.1 p.2 with
    | some v => exact lookupSim_eq hmemo p.1 p.2 hl
    | none => rfl
  rw [hcongr, foldl_add_map, zero_add]

/-- The cluster-building loop appends one cluster per group of two or
more members, in group order. -/
theorem consolidateFold_eq (vectors : List StoredVector)
    (memo : List ((Nat × Nat) × ℚ)) :
    ∀ (groups : List (Nat × List Nat)) (acc : List Cluster),
    groups.foldl (fun acc g =>
      if g.2.length < 2 then acc
      else
        let cObs := g.2.map (fun idx =>
          toClusterObservation (vectors.getD idx svDefault))
        acc ++ [{ observations := cObs
                  avg_similarity := clusterAvg vectors memo g.2 }]) acc
    = acc ++ (groups.filter (fun g => decide (¬ g.2.length < 2))).map (fun g =>
        { observations := g.2.map (fun idx =>
            toClusterObservation (vectors.getD idx svDefault))
          avg_similarity := clusterAvg vectors memo g.2 }) := by
  intro groups
  induction groups with
  | nil =>
    intro acc
    simp
  | cons g gs ih =>
    intro acc
    rw [List.foldl_cons, List.filter_cons]
    by_cases hg : g.2.length < 2
    · rw [if_pos hg]
      have hd : decide (¬ g.2.length < 2) = false := by simp [hg]
      rw [hd]
      simp only [Bool.false_eq_true, if_false]
      exact ih acc
    · rw [if_neg hg]
      dsimp only
      have hd : decide (¬ g.2.length < 2) = true := by simp [hg]
      rw [hd]
      simp only [if_true]
      rw [ih]
      simp

/-- The clusters field of consolidate: empty below two vectors, the
clustering pipeline otherwise. -/
theorem consolidate_clusters_eq (s : Store) (input : ConsolidateInput)
    (scope : Option Id)
    (hscope : (if providedStr input.entity then
        match findEntityByName s (input.entity.getD "") with
        | none => none
        | some e => some (some e.id)
      else some none) = some scope) :
    (consolidate s input).clusters
      = (if (getEmbeddingsByEntity s scope).length < 2 then []
         else consolidateCore (getEmbeddingsByEntity s scope)
           (input.threshold.getD (8 / 10))) := by
  unfold consolidate
  dsimp only
  rw [hscope]
  dsimp only
  by_cases hlen : (getEmbeddingsByEntity s scope).length < 2
  · rw [if_pos hlen, if_pos hlen]
  · rw [if_neg hlen, if_neg hlen]

/-- C7: with at least two in-scope vectors, the clusters of consolidate
are exactly the connected components (with two or more members) of the
graph joining index pairs whose cosine similarity meets the threshold;
each cluster averages the recomputed similarity over all its member
pairs, rounded to three decimals; clusters are sorted by member count
descending; with fewer than two vectors there are no clusters. -/
theorem consolidate_components (s : Store) (input : ConsolidateInput)
    (scope : Option Id) (vectors : List StoredVector) (threshold : ℚ)
    (hscope : (if providedStr input.entity then
        match findEntityByName s (input.entity.getD "") with
        | none => none
        | some e => some (some e.id)
      else some none) = some scope)
    (hvec : getEmbeddingsByEntity s scope = vectors)
    (hth : input.threshold.getD (8 / 10) = threshold) :
    (vectors.length < 2 → (consolidate s input).clusters = []) ∧
    (2 ≤ vectors.length → ∃ memberss : List (List Nat),
      (consolidate s input).clusters
        = sortByDescNat (fun c => c.observations.length)
            (memberss.map (fun m =>
              { observations := m.map (fun idx =>
                  toClusterObservation (vectors.getD idx svDefault))
                avg_similarity := round3 ((((memberPairs m).map (fun p =>
                  simAt vectors p.1 p.2)).sum)
                  / ((memberPairs m).length : ℚ)) }))
      ∧ (∀ m ∈ memberss, 2 ≤ m.length ∧ m.Nodup ∧ ∃ i0, i0 ∈ m ∧
          ∀ j, (j ∈ m ↔ (j < vectors.length ∧
            Relation.EqvGen (thresholdAdj vectors threshold) i0 j)))
      ∧ (∀ i, i < vectors.length →
          (∃ j, j < vectors.length ∧ i ≠ j ∧
            Relation.EqvGen (thresholdAdj vectors threshold) i j) →
          ∃ m, m ∈ memberss ∧ i ∈ m)
      ∧ memberss.Pairwise (fun m1 m2 => ∀ x, x ∈ m1 → x ∉ m2)
      ∧ (consolidate s input).clusters.Pairwise
          (fun a b => b.observations.length ≤ a.observations.length)) := by
  have hclusters := consolidate_clusters_eq s input scope hscope
  rw [hvec, hth] at hclusters
  constructor
  · intro hlen
    rw [hclusters, if_pos hlen]
  · intro hlen
    rw [hclusters, if_neg (by omega)]
    -- open the pipeline
    rcases hB : buildUF vectors threshold with ⟨uf, memo⟩
    obtain ⟨hinvU, hiffU, hmemoU⟩ := buildUF_spec vectors threshold
    simp only [hB] at hinvU hiffU hmemoU
    have hcore : consolidateCore vectors threshold
        = sortByDescNat (fun c => c.observations.length)
            (((groupBy (fun i => rootOf uf.parent i)
                (List.range vectors.length)).filter
              (fun g => decide (¬ g.2.length < 2))).map (fun g =>
              { observations := g.2.map (fun idx =>
                  toClusterObservation (vectors.getD idx svDefault))
                avg_similarity := clusterAvg vectors memo g.2 })) := by
      unfold consolidateCore
      rw [hB]
      dsimp only
      rw [groupRoots_eq_groupBy hinvU, consolidateFold_eq vectors memo _ []]
      rw [List.nil_append]
    obtain ⟨hg1, hg2, hg3, hg4⟩ := groupBy_spec
      (fun i => rootOf uf.parent i) (List.range vectors.length)
    refine ⟨((groupBy (fun i => rootOf uf.parent i)
        (List.range vectors.length)).filter
      (fun g => decide (¬ g.2.length < 2))).map Prod.snd, ?_, ?_, ?_, ?_, ?_⟩
    · -- the clusters equation with the spec-side average
      rw [hcore, List.map_map]
      congr 1
      apply List.map_congr_left
      intro g hgmem
      have hglen : 2 ≤ g.2.length := by
        have h := (List.mem_filter.mp hgmem).2
        simp only [decide_eq_true_eq] at h
        omega
      have hpos := memberPairs_pos hglen
      dsimp only [Function.comp]
      rw [clusterAvg_eq hmemoU g.2 hpos]
    · -- each cluster member list is a full component of size at least two
      intro m hm
      rcases List.mem_map.mp hm with ⟨g, hgmem, hsnd⟩
      have hgG := List.mem_of_mem_filter hgmem
      have hglen : 2 ≤ m.length := by
        have h := (List.mem_filter.mp hgmem).2
        simp only [decide_eq_true_eq] at h
        rw [← hsnd]
        omega
      have hchar := hg1 g hgG
      refine ⟨hglen, ?_, ?_⟩
      · rw [← hsnd, hchar]
        exact (List.nodup_range _).filter _
      · rcases hg4 g hgG with ⟨i0, hi0range, hi0key⟩
        have hi0n : i0 < vectors.length := List.mem_range.mp hi0range
        refine ⟨i0, ?_, ?_⟩
        · rw [← hsnd, hchar]
          refine List.mem_filter.mpr ⟨hi0range, ?_⟩
          simp [hi0key]
        · intro j
          rw [← hsnd, hchar]
          constructor
          · intro hj
            have hj2 := List.mem_filter.mp hj
            have hjn : j < vectors.length := List.mem_range.mp hj2.1
            have hkey : rootOf uf.parent j = g.1 := by simpa using hj2.2
            refine ⟨hjn, ?_⟩
            rw [← hiffU i0 j hi0n hjn, ← hi0key, hkey]
          · rintro ⟨hjn, hreach⟩
            refine List.mem_filter.mpr ⟨List.mem_range.mpr hjn, ?_⟩
            have hkey : rootOf uf.parent i0 = rootOf uf.parent j :=
              (hiffU i0 j hi0n hjn).mpr hreach
            simp [← hkey, hi0key]
    · -- every vertex of a nontrivial component lands in a cluster
      rintro i hin ⟨j, hjn, hne, hreach⟩
      rcases hg3 i (List.mem_range.mpr hin) with ⟨g, hgG, hgkey⟩
      have hchar := hg1 g hgG
      have hiM : i ∈ g.2 := by
        rw [hchar]
        refine List.mem_filter.mpr ⟨List.mem_range.mpr hin, ?_⟩
        simp [hgkey]
      have hjM : j ∈ g.2 := by
        rw [hchar]
        refine List.mem_filter.mpr ⟨List.mem_range.mpr hjn, ?_⟩
        have hkey : rootOf uf.parent i = rootOf uf.parent j :=
          (hiffU i j hin hjn).mpr hreach
        simp [← hkey, hgkey]
      have hglen : 2 ≤ g.2.length := two_le_length_of_two_mem hiM hjM hne
      refine ⟨g.2, List.mem_map.mpr ⟨g, List.mem_filter.mpr ⟨hgG, ?_⟩, rfl⟩, hiM⟩
      simp only [decide_eq_true_eq]
      omega
    · -- distinct clusters are disjoint
      apply List.pairwise_map.mpr
      have hkeysne : (groupBy (fun i => rootOf uf.parent i)
          (List.range vectors.length)).Pairwise (fun g1 g2 => g1.1 ≠ g2.1) :=
        List.pairwise_map.mp hg2
      have hfil : ((groupBy (fun i => rootOf uf.parent i)
          (List.range vectors.length)).filter
            (fun g => decide (¬ g.2.length < 2))).Pairwise
          (fun g1 g2 => g1.1 ≠ g2.1) :=
        hkeysne.sublist (List.filter_sublist _)
      refine hfil.imp_of_mem ?_
      intro g1 g2 hm1 hm2 hne12 x hx1 hx2
      have hgG1 := List.mem_of_mem_filter hm1
      have hgG2 := List.mem_of_mem_filter hm2
      rw [hg1 g1 hgG1] at hx1
      rw [hg1 g2 hgG2] at hx2
      have hk1 : rootOf uf.parent x = g1.1 := by
        simpa using (List.mem_filter.mp hx1).2
      have hk2 : rootOf uf.parent x = g2.1 := by
        simpa using (List.mem_filter.mp hx2).2
      exact hne12 (hk1 ▸ hk2 ▸ rfl)
    · -- sorted by member count descending
      rw [hcore]
      exact sortByDescNat_pairwise _ _

def exObs2 : Observation :=
  { id := 3, entity_id := 0, content := "world", source := none, created_at := 1 }

def exEmb2 : Embedding :=
  { id := 4, entity_id := 0, observation_id := 3, vector := [0, 1]
    text_content := "world", created_at := 1 }

def exStore2 : Store :=
  { entities := [exEntityA], observations := [exObs, exObs2]
    embeddings := [exEmb, exEmb2], relationships := [], nextId := 5 }

theorem consolidate_components_witness :
    (consolidate exStore { entity := none, threshold := none }).clusters = []
    ∧ (consolidate exStore2 { entity := none, threshold := none }).clusters.Pairwise
        (fun a b => b.observations.length ≤ a.observations.length) := by
  constructor
  · exact (consolidate_components exStore { entity := none, threshold := none }
      none (getEmbeddingsByEntity exStore none) ((8 : ℚ) / 10)
      rfl rfl rfl).1 (by decide)
  · obtain ⟨ms, h1, h2, h3, h4, h5⟩ :=
      (consolidate_components exStore2 { entity := none, threshold := none }
        none (getEmbeddingsByEntity exStore2 none) ((8 : ℚ) / 10)
        rfl rfl rfl).2 (by decide)
    exact h5

/-! ### BFS: undirected reachability and shortest hop distance -/

/-- Undirected adjacency through the relationships table. -/
def relAdj (s : Store) (a b : Id) : Prop :=
  ∃ r ∈ s.relationships,
    (r.from_entity = a ∧ r.to_entity = b) ∨ (r.from_entity = b ∧ r.to_entity = a)

/-- A walk of exactly d undirected hops from the seed ends at c. -/
def ReachIn (s : Store) (seed : Id) : Nat → Id → Prop
  | 0, c => c = seed
  | d + 1, c => ∃ b, ReachIn s seed d b ∧ relAdj s b c

/-- d is the shortest hop distance from the seed to c. -/
def isShortest (s : Store) (seed : Id) (c : Id) (d : Nat) : Prop :=
  ReachIn s seed d c ∧ ∀ d2, ReachIn s seed d2 c → d ≤ d2

theorem relAdj_symm {s : Store} {a b : Id} (h : relAdj s a b) : relAdj s b a := by
  rcases h with ⟨r, hr, h | h⟩
  · exact ⟨r, hr, Or.inr h⟩
  · exact ⟨r, hr, Or.inl h⟩

theorem reachIn_zero {s : Store} {seed c : Id} :
    ReachIn s seed 0 c ↔ c = seed := Iff.rfl

theorem isShortest_seed (s : Store) (seed : Id) : isShortest s seed seed 0 :=
  ⟨rfl, fun _ _ => Nat.zero_le _⟩

theorem isShortest_unique {s : Store} {seed c : Id} {d1 d2 : Nat}
    (h1 : isShortest s seed c d1) (h2 : isShortest s seed c d2) : d1 = d2 :=
  Nat.le_antisymm (h1.2 d2 h2.1) (h2.2 d1 h1.1)

theorem exists_isShortest {s : Store} {seed c : Id} {d : Nat}
    (h : ReachIn s seed d c) : ∃ d0, isShortest s seed c d0 := by
  classical
  have hex : ∃ d0, ReachIn s seed d0 c := ⟨d, h⟩
  exact ⟨Nat.find hex, Nat.find_spec hex, fun d2 h2 => Nat.find_min' hex h2⟩

theorem shortest_of_zero {s : Store} {seed c : Id} {d : Nat}
    (h : isShortest s seed c d) (hd : d = 0) : c = seed := by
  subst hd
  exact h.1

/-- A node at shortest distance d + 1 has a neighbor at shortest
distance d. -/
theorem shortest_pred {s : Store} {seed u : Id} {d : Nat}
    (h : isShortest s seed u (d + 1)) :
    ∃ p, relAdj s p u ∧ isShortest s seed p d := by
  rcases h.1 with ⟨b, hb, hadj⟩
  rcases exists_isShortest hb with ⟨db, hdb⟩
  have hdbd : db ≤ d := hdb.2 d hb
  have hlow : d + 1 ≤ db + 1 :=
    h.2 (db + 1) ⟨b, hdb.1, hadj⟩
  have : db = d := by omega
  subst this
  exact ⟨b, hadj, hdb⟩

/-- Any endpoint of any relationship has an entity row, given the foreign
key integrity of the schema. -/
theorem relAdj_entity {s : Store}
    (hFK : ∀ r ∈ s.relationships, (findEntityById s r.from_entity).isSome
      ∧ (findEntityById s r.to_entity).isSome)
    {a u : Id} (h : relAdj s a u) : (findEntityById s u).isSome := by
  rcases h with ⟨r, hr, ⟨_, ht⟩ | ⟨hf, _⟩⟩
  · rw [← ht]
    exact (hFK r hr).2
  · rw [← hf]
    exact (hFK r hr).1

theorem reachIn_entity {s : Store}
    (hFK : ∀ r ∈ s.relationships, (findEntityById s r.from_entity).isSome
      ∧ (findEntityById s r.to_entity).isSome)
    {seed c : Id} {d : Nat} (h : ReachIn s seed (d + 1) c) :
    (findEntityById s c).isSome := by
  rcases h with ⟨b, _, hadj⟩
  exact relAdj_entity hFK hadj

/-- The neighbor query returns exactly the adjacent ids that have an
entity row. -/
theorem neighborsRow_iff (s : Store) (c x : Id) :
    x ∈ neighborsRow s c ↔ (relAdj s c x ∧ (findEntityById s x).isSome) := by
  unfold neighborsRow
  rw [List.mem_filterMap]
  constructor
  · rintro ⟨r, hr, hx⟩
    by_cases h1 : (r.from_entity == c) = true
    · rw [if_pos h1] at hx
      have h1e : r.from_entity = c := by simpa using h1
      by_cases h2 : (findEntityById s r.to_entity).isSome = true
      · rw [if_pos h2] at hx
        have hxe : r.to_entity = x := by simpa using hx
        subst hxe
        exact ⟨⟨r, hr, Or.inl ⟨h1e, rfl⟩⟩, h2⟩
      · rw [if_neg h2] at hx
        cases hx
    · rw [if_neg h1] at hx
      by_cases h2 : (r.to_entity == c) = true
      · rw [if_pos h2] at hx
        have h2e : r.to_entity = c := by simpa using h2
        by_cases h3 : (findEntityById s r.from_entity).isSome = true
        · rw [if_pos h3] at hx
          have hxe : r.from_entity = x := by simpa using hx
          subst hxe
          exact ⟨⟨r, hr, Or.inr ⟨rfl, h2e⟩⟩, h3⟩
        · rw [if_neg h3] at hx
          cases hx
      · rw [if_neg h2] at hx
        cases hx
  · rintro ⟨⟨r, hr, hcase⟩, hsome⟩
    refine ⟨r, hr, ?_⟩
    rcases hcase with ⟨hf, ht⟩ | ⟨hf, ht⟩
    · rw [if_pos (by simpa using hf), ht, if_pos hsome]
    · by_cases h1 : (r.from_entity == c) = true
      · have h1e : r.from_entity = c := by simpa using h1
        have hxc : x = c := by rw [← hf, h1e]
        rw [if_pos h1, ht, hxc, if_pos (by rw [← hxc]; exact hsome)]
      · rw [if_neg h1, if_pos (by simpa using ht), hf, if_pos hsome]

theorem visitedHas_iff (V : List (Id × RelatedInfo)) (c : Id) :
    visitedHas V c = true ↔ c ∈ V.map Prod.fst := by
  unfold visitedHas
  rw [List.any_eq_true]
  constructor
  · rintro ⟨kv, hkv, hbeq⟩
    exact List.mem_map.mpr ⟨kv, hkv, (by simpa using hbeq : kv.1 = c)⟩
  · intro h
    rcases List.mem_map.mp h with ⟨kv, hkv, hk⟩
    exact ⟨kv, hkv, by simpa using hk⟩

theorem filter_length_le {α : Type} {p q : α → Bool} :
    ∀ {L : List α}, (∀ a ∈ L, p a = true → q a = true) →
    (L.filter p).length ≤ (L.filter q).length := by
  intro L
  induction L with
  | nil => intro _; exact Nat.le_refl _
  | cons a L ih =>
    intro hmono
    rw [List.filter_cons, List.filter_cons]
    have ihL := ih (fun x hx => hmono x (List.mem_cons_of_mem a hx))
    by_cases hpa : p a = true
    · rw [hpa, hmono a (List.mem_cons_self a L) hpa]
      simpa using ihL
    · rw [Bool.eq_false_iff.mpr hpa]
      by_cases hqa : q a = true
      · rw [hqa]
        simp only [if_true, Bool.false_eq_true, if_false, List.length_cons]
        omega
      · rw [Bool.eq_false_iff.mpr hqa]
        simpa using ihL

theorem filter_length_lt {α : Type} {p q : α → Bool} {c : α} :
    ∀ {L : List α}, (∀ a ∈ L, p a = true → q a = true) → c ∈ L →
    q c = true → p c = false →
    (L.filter p).length < (L.filter q).length := by
  intro L
  induction L with
  | nil => intro _ hc; cases hc
  | cons a L ih =>
    intro hmono hc hqc hpc
    rw [List.filter_cons, List.filter_cons]
    have hmonoL := fun x hx => hmono x (List.mem_cons_of_mem a hx)
    rcases List.mem_cons.mp hc with rfl | hcL
    · rw [hpc, hqc]
      simp only [Bool.false_eq_true, if_false, if_true, List.length_cons]
      have := filter_length_le hmonoL
      omega
    · by_cases hpa : p a = true
      · rw [hpa, hmono a (List.mem_cons_self a L) hpa]
        simp only [if_true, List.length_cons]
        have := ih hmonoL hcL hqc hpc
        omega
      · rw [Bool.eq_false_iff.mpr hpa]
        by_cases hqa : q a = true
        · rw [hqa]
          simp only [Bool.false_eq_true, if_false, if_true, List.length_cons]
          have := ih hmonoL hcL hqc hpc
          omega
        · rw [Bool.eq_false_iff.mpr hqa]
          simp only [Bool.false_eq_true, if_false]
          exact ih hmonoL hcL hqc hpc

/-- Count of ids (the seed and the entity ids) not yet visited: the
decreasing part of the loop measure. -/
def uCount (s : Store) (seed : Id) (V : List (Id × RelatedInfo)) : Nat :=
  (((seed :: s.entities.map (fun e => e.id)).dedup).filter
    (fun x => !((V.map Prod.fst).contains x))).length

theorem uCount_append_lt {s : Store} {seed : Id} {V : List (Id × RelatedInfo)}
    {c : Id} (info : RelatedInfo)
    (hc : c = seed ∨ ∃ e ∈ s.entities, e.id = c)
    (hnotin : c ∉ V.map Prod.fst) :
    uCount s seed (V ++ [(c, info)]) < uCount s seed V := by
  unfold uCount
  have hmem : c ∈ (seed :: s.entities.map (fun e => e.id)).dedup := by
    rw [List.mem_dedup]
    rcases hc with rfl | ⟨e, he, hid⟩
    · exact List.mem_cons_self _ _
    · exact List.mem_cons_of_mem _ (List.mem_map.mpr ⟨e, he, hid⟩)
  apply filter_length_lt ?_ hmem ?_ ?_
  · intro x _ hx
    rw [List.map_append, List.map_cons, List.map_nil] at hx
    simp only [Bool.not_eq_true'] at hx ⊢
    rw [contains_eq_decide_mem] at hx ⊢
    simp only [decide_eq_false_iff_not] at hx ⊢
    intro hmem2
    exact hx (List.mem_append_left _ hmem2)
  · simp only [Bool.not_eq_true']
    rw [contains_eq_decide_mem]
    simp only [decide_eq_false_iff_not]
    exact hnotin
  · rw [List.map_append, List.map_cons, List.map_nil]
    simp only [Bool.not_eq_false']
    rw [contains_eq_decide_mem]
    simp only [decide_eq_true_eq]
    exact List.mem_append_right _ (List.mem_singleton_self _)

theorem uCount_le (s : Store) (seed : Id) (V : List (Id × RelatedInfo)) :
    uCount s seed V ≤ s.entities.length + 1 := by
  unfold uCount
  calc (((seed :: s.entities.map (fun e => e.id)).dedup).filter _).length
      ≤ ((seed :: s.entities.map (fun e => e.id)).dedup).length :=
        List.length_filter_le _ _
    _ ≤ (seed :: s.entities.map (fun e => e.id)).length :=
        (List.dedup_sublist _).length_le
    _ = s.entities.length + 1 := by simp

theorem pushes_mem (s : Store) (c : Id) (d : Nat)
    (vis : List (Id × RelatedInfo)) (x : Id × Nat) :
    x ∈ (neighborsRow s c).filterMap (fun r =>
        if visitedHas vis r then none else some (r, d + 1)) ↔
      (x.1 ∈ neighborsRow s c ∧ x.2 = d + 1 ∧ visitedHas vis x.1 = false) := by
  rw [List.mem_filterMap]
  constructor
  · rintro ⟨a, ha, hx⟩
    by_cases hv : visitedHas vis a = true
    · rw [if_pos hv] at hx
      cases hx
    · rw [if_neg hv] at hx
      cases hx
      exact ⟨ha, rfl, Bool.eq_false_iff.mpr hv⟩
  · rintro ⟨h1, h2, h3⟩
    refine ⟨x.1, h1, ?_⟩
    rw [h3]
    simp only [Bool.false_eq_true, if_false]
    rw [← h2]

/-- The loop invariant of the BFS of getRelatedEntities. -/
structure BfsInv (s : Store) (seed : Id) (maxDepth : Nat)
    (Q : List (Id × Nat)) (V : List (Id × RelatedInfo)) : Prop where
  vsound : ∀ kv ∈ V, (kv.1 = seed ∧ kv.2 = ⟨0, "", none⟩)
    ∨ (kv.1 ≠ seed ∧ ∃ e, findEntityById s kv.1 = some e
        ∧ isShortest s seed kv.1 kv.2.depth ∧ kv.2.depth ≤ maxDepth
        ∧ kv.2.name = e.name ∧ kv.2.type = e.type)
  vnodup : (V.map Prod.fst).Nodup
  qsound : ∀ x ∈ Q, ReachIn s seed x.2 x.1 ∧ x.2 ≤ maxDepth
    ∧ (x.1 = seed → x.2 = 0)
  qshape : ∃ dc A B, Q = A ++ B ∧ (∀ x ∈ A, x.2 = dc)
    ∧ (∀ x ∈ B, x.2 = dc + 1)
    ∧ (∀ u su, isShortest s seed u su → su ≤ maxDepth → su ≤ dc + 1 →
        (u ∈ V.map Prod.fst ∨ (u, su) ∈ Q
          ∨ (su = dc + 1 ∧ ∃ p, relAdj s p u ∧ isShortest s seed p dc
              ∧ (p, dc) ∈ Q ∧ p ∉ V.map Prod.fst)))
  expanded : ∀ kv ∈ V, kv.2.depth < maxDepth → ∀ u, relAdj s kv.1 u →
    (findEntityById s u).isSome →
    (u ∈ V.map Prod.fst ∨ ∃ du, (u, du) ∈ Q)

/-- Once the queue is empty, every node within maxDepth is visited. -/
theorem terminal_complete {s : Store} {seed : Id} {maxDepth : Nat}
    (hFK : ∀ r ∈ s.relationships, (findEntityById s r.from_entity).isSome
      ∧ (findEntityById s r.to_entity).isSome)
    {V : List (Id × RelatedInfo)} (hinv : BfsInv s seed maxDepth [] V) :
    ∀ su u, isShortest s seed u su → su ≤ maxDepth → u ∈ V.map Prod.fst := by
  intro su
  induction su with
  | zero =>
    intro u hsh _
    have hu : u = seed := shortest_of_zero hsh rfl
    subst hu
    obtain ⟨dc, A, B, hQ, hA, hB, hcompl⟩ := hinv.qshape
    rcases hcompl u 0 hsh (by omega) (by omega) with h | h | ⟨h0, _⟩
    · exact h
    · cases h
    · omega
  | succ d ih =>
    intro u hsh hle
    obtain ⟨p, hadj, hp⟩ := shortest_pred hsh
    have hpV : p ∈ V.map Prod.fst := ih p hp (by omega)
    rcases List.mem_map.mp hpV with ⟨kv, hkv, hk1⟩
    have husome : (findEntityById s u).isSome := relAdj_entity hFK hadj
    have hdepth : kv.2.depth = d := by
      rcases hinv.vsound kv hkv with ⟨hks, hinfo⟩ | ⟨_, e, _, hshort, _, _, _⟩
      · have hps : p = seed := by rw [← hk1, hks]
        rw [hps] at hp
        have hd0 : d = 0 := isShortest_unique hp (isShortest_seed s seed)
        rw [hinfo, hd0]
      · rw [hk1] at hshort
        exact isShortest_unique hshort hp
    have hlt : kv.2.depth < maxDepth := by omega
    have hexp := hinv.expanded kv hkv hlt u (by rw [hk1]; exact hadj) husome
    rcases hexp with h | ⟨du, hdu⟩
    · exact h
    · cases hdu

/-- Normalized view of a nonempty queue: the split can always be taken at
the depth of the head, and the frontier-completeness can be re-indexed to
that depth. -/
theorem shape_norm {s : Store} {seed : Id} {maxDepth : Nat}
    (hFK : ∀ r ∈ s.relationships, (findEntityById s r.from_entity).isSome
      ∧ (findEntityById s r.to_entity).isSome)
    {c : Id} {d : Nat} {rest : List (Id × Nat)} {V : List (Id × RelatedInfo)}
    (hinv : BfsInv s seed maxDepth ((c, d) :: rest) V) :
    ∃ A B, rest = A ++ B ∧ (∀ x ∈ A, x.2 = d) ∧ (∀ x ∈ B, x.2 = d + 1)
      ∧ (∀ u su, isShortest s seed u su → su ≤ maxDepth → su ≤ d + 1 →
          (u ∈ V.map Prod.fst ∨ (u, su) ∈ (c, d) :: rest
            ∨ (su = d + 1 ∧ ∃ p, relAdj s p u ∧ isShortest s seed p d
                ∧ (p, d) ∈ (c, d) :: rest ∧ p ∉ V.map Prod.fst))) := by
  obtain ⟨dc, A, B, hQ, hA, hB, hcompl⟩ := hinv.qshape
  rcases A with _ | ⟨a, A2⟩
  · rw [List.nil_append] at hQ
    have hd : d = dc + 1 := by
      have := hB (c, d) (by rw [← hQ]; exact List.mem_cons_self _ _)
      simpa using this
    have hrest : ∀ x ∈ rest, x.2 = d := by
      intro x hx
      rw [hd]
      exact hB x (by rw [← hQ]; exact List.mem_cons_of_mem _ hx)
    refine ⟨rest, [], by simp, hrest, by simp, ?_⟩
    intro u su hsh hsmax hsd1
    by_cases hle : su ≤ dc + 1
    · rcases hcompl u su hsh hsmax hle with h | h | ⟨hsu, p, _, _, hpQ, _⟩
      · exact Or.inl h
      · exact Or.inr (Or.inl h)
      · exfalso
        rcases List.mem_cons.mp hpQ with hph | hpr
        · have : dc = d := congrArg Prod.snd hph
          omega
        · have := hrest (p, dc) hpr
          simp only at this
          omega
    · have hsu : su = d + 1 := by omega
      have hsh2 : isShortest s seed u (d + 1) := hsu ▸ hsh
      obtain ⟨p, hadj, hpd⟩ := shortest_pred hsh2
      by_cases hpv : p ∈ V.map Prod.fst
      · -- p already visited and expanded: u is visited too
        rcases List.mem_map.mp hpv with ⟨kv, hkv, hk1⟩
        rcases hinv.vsound kv hkv with ⟨hks, _⟩ | ⟨_, e, _, hshort, _, _, _⟩
        · exfalso
          have hps : p = seed := by rw [← hk1, hks]
          rw [hps] at hpd
          have := isShortest_unique hpd (isShortest_seed s seed)
          omega
        · have hdep : kv.2.depth = d := by
            rw [hk1] at hshort
            exact isShortest_unique hshort hpd
          have husome : (findEntityById s u).isSome := relAdj_entity hFK hadj
          have hexp := hinv.expanded kv hkv (by omega) u
            (by rw [hk1]; exact hadj) husome
          rcases hexp with h | ⟨du, hdu⟩
          · exact Or.inl h
          · exfalso
            have hdqs := hinv.qsound (u, du) hdu
            have hdud : du = d := by
              rcases List.mem_cons.mp hdu with h | h
              · have := congrArg Prod.snd h
                simpa using this
              · exact hrest (u, du) h
            have hult := hsh.2 du hdqs.1
            omega
      · rcases hcompl p d hpd (by omega) (by omega) with hp | hp | ⟨_, q, _, _, hqQ, _⟩
        · exact absurd hp hpv
        · exact Or.inr (Or.inr ⟨hsu, p, hadj, hpd, hp, hpv⟩)
        · exfalso
          rcases List.mem_cons.mp hqQ with hqh | hqr
          · have : dc = d := congrArg Prod.snd hqh
            omega
          · have := hrest (q, dc) hqr
            simp only at this
            omega
  · rw [List.cons_append] at hQ
    have hac : a = (c, d) ∧ rest = A2 ++ B := by
      have h1 := (List.cons.injEq _ _ _ _).mp hQ
      exact ⟨h1.1.symm, h1.2⟩
    have hd : d = dc := by
      have := hA a (List.mem_cons_self _ _)
      rw [hac.1] at this
      simpa using this
    subst hd
    refine ⟨A2, B, hac.2, ?_, ?_, ?_⟩
    · intro x hx
      exact hA x (List.mem_cons_of_mem _ hx)
    · exact hB
    · exact hcompl

/-- An unvisited node is popped exactly at its shortest distance. -/
theorem pop_shortest {s : Store} {seed : Id} {maxDepth : Nat}
    (hFK : ∀ r ∈ s.relationships, (findEntityById s r.from_entity).isSome
      ∧ (findEntityById s r.to_entity).isSome)
    {c : Id} {d : Nat} {rest : List (Id × Nat)} {V : List (Id × RelatedInfo)}
    (hinv : BfsInv s seed maxDepth ((c, d) :: rest) V)
    (hcV : c ∉ V.map Prod.fst) : isShortest s seed c d := by
  obtain ⟨A, B, hrestAB, hA, hB, ncompl⟩ := shape_norm hFK hinv
  obtain ⟨hreach, hdmax, _⟩ := hinv.qsound (c, d) (List.mem_cons_self _ _)
  obtain ⟨d0, hd0⟩ := exists_isShortest hreach
  have hle : d0 ≤ d := hd0.2 d hreach
  by_cases heq : d0 = d
  · exact heq ▸ hd0
  · exfalso
    rcases ncompl c d0 hd0 (by omega) (by omega) with h | h | ⟨hsu, _⟩
    · exact hcV h
    · rcases List.mem_cons.mp h with hh | hr
      · have := congrArg Prod.snd hh
        simp only at this
        omega
      · rcases List.mem_append.mp (hrestAB ▸ hr) with h2 | h2
        · have := hA (c, d0) h2
          simp only at this
          omega
        · have := hB (c, d0) h2
          simp only at this
          omega
    · omega

/-- One expansion step preserves the loop invariant: the popped node is
recorded and, strictly below maxDepth, its unvisited neighbors are
appended at depth + 1. -/
theorem step_expand {s : Store} {seed : Id} {maxDepth : Nat}
    (hFK : ∀ r ∈ s.relationships, (findEntityById s r.from_entity).isSome
      ∧ (findEntityById s r.to_entity).isSome)
    {c : Id} {d : Nat} {rest : List (Id × Nat)} {V : List (Id × RelatedInfo)}
    {infoC : RelatedInfo}
    (hinv : BfsInv s seed maxDepth ((c, d) :: rest) V)
    (hcV : c ∉ V.map Prod.fst)
    (hdepthC : infoC.depth = d)
    (hcase : (c = seed ∧ infoC = ⟨0, "", none⟩)
      ∨ (c ≠ seed ∧ ∃ e, findEntityById s c = some e
          ∧ infoC = ⟨d, e.name, e.type⟩)) :
    BfsInv s seed maxDepth
      (if d < maxDepth then
        rest ++ ((neighborsRow s c).filterMap (fun r =>
          if visitedHas (V ++ [(c, infoC)]) r then none
          else some (r, d + 1)))
      else rest)
      (V ++ [(c, infoC)]) := by
  have hkeys : (V ++ [(c, infoC)]).map Prod.fst = V.map Prod.fst ++ [c] := by
    simp
  have hsd : isShortest s seed c d := pop_shortest hFK hinv hcV
  obtain ⟨A, B, hrestAB, hA, hB, ncompl⟩ := shape_norm hFK hinv
  obtain ⟨hreach, hdmax, hseed0⟩ := hinv.qsound (c, d) (List.mem_cons_self _ _)
  have hrestdep : ∀ x ∈ rest, x.2 = d ∨ x.2 = d + 1 := by
    intro x hx
    rcases List.mem_append.mp (hrestAB ▸ hx) with h | h
    · exact Or.inl (hA x h)
    · exact Or.inr (hB x h)
  have hseedin : visitedHas (V ++ [(c, infoC)]) seed = false → False := by
    intro hf
    have hnk : seed ∉ (V ++ [(c, infoC)]).map Prod.fst := by
      intro hmem
      have := (visitedHas_iff _ _).mpr hmem
      rw [hf] at this
      cases this
    rw [hkeys] at hnk
    have hnseed : seed ∉ V.map Prod.fst ∧ seed ≠ c := by
      constructor
      · intro h
        exact hnk (List.mem_append_left _ h)
      · intro h
        exact hnk (List.mem_append_right _ (by rw [h]; exact List.mem_singleton_self _))
    rcases ncompl seed 0 (isShortest_seed s seed) (Nat.zero_le _)
        (Nat.zero_le _) with h | h | ⟨h0, _⟩
    · exact hnseed.1 h
    · rcases List.mem_cons.mp h with hh | hr
      · exact hnseed.2 (congrArg Prod.fst hh)
      · have hd0 : d = 0 := by
          rcases hrestdep (seed, 0) hr with h2 | h2 <;> simp only at h2 <;> omega
        rw [hd0] at hreach
        exact hnseed.2 hreach.symm
    · omega
  have hvsound2 : ∀ kv ∈ V ++ [(c, infoC)],
      (kv.1 = seed ∧ kv.2 = ⟨0, "", none⟩)
      ∨ (kv.1 ≠ seed ∧ ∃ e, findEntityById s kv.1 = some e
          ∧ isShortest s seed kv.1 kv.2.depth ∧ kv.2.depth ≤ maxDepth
          ∧ kv.2.name = e.name ∧ kv.2.type = e.type) := by
    intro kv hkv
    rcases List.mem_append.mp hkv with h | h
    · exact hinv.vsound kv h
    · simp only [List.mem_singleton] at h
      subst h
      rcases hcase with ⟨hcs, hinfo⟩ | ⟨hcs, e, he, hinfo⟩
      · exact Or.inl ⟨hcs, hinfo⟩
      · refine Or.inr ⟨hcs, e, he, ?_, ?_, ?_, ?_⟩
        · show isShortest s seed c infoC.depth
          rw [hdepthC]
          exact hsd
        · show infoC.depth ≤ maxDepth
          rw [hdepthC]
          exact hdmax
        · rw [hinfo]
        · rw [hinfo]
  have hvnodup2 : ((V ++ [(c, infoC)]).map Prod.fst).Nodup := by
    rw [hkeys]
    apply List.Nodup.append hinv.vnodup (List.nodup_singleton c)
    intro x hx1 hx2
    simp only [List.mem_singleton] at hx2
    subst hx2
    exact hcV hx1
  by_cases hdm : d < maxDepth
  · rw [if_pos hdm]
    refine ⟨hvsound2, hvnodup2, ?_, ?_, ?_⟩
    · intro x hx
      rcases List.mem_append.mp hx with h | h
      · exact hinv.qsound x (List.mem_cons_of_mem _ h)
      · rw [pushes_mem] at h
        obtain ⟨hnb, hx2, hvx⟩ := h
        have hadj := ((neighborsRow_iff s c x.1).mp hnb).1
        refine ⟨?_, by omega, ?_⟩
        · rw [hx2]
          exact ⟨c, hreach, hadj⟩
        · intro hxs
          rw [hxs] at hvx
          exact (hseedin hvx).elim
    · refine ⟨d, A, B ++ (neighborsRow s c).filterMap (fun r =>
        if visitedHas (V ++ [(c, infoC)]) r then none
        else some (r, d + 1)), ?_, hA, ?_, ?_⟩
      · rw [hrestAB, List.append_assoc]
      · intro x hx
        rcases List.mem_append.mp hx with h | h
        · exact hB x h
        · exact ((pushes_mem s c d _ x).mp h).2.1
      · intro u su hsh hsmax hsd1
        rcases ncompl u su hsh hsmax hsd1 with h | h | ⟨hsu, p, hadj, hpd, hpQ, hpnk⟩
        · exact Or.inl (by rw [hkeys]; exact List.mem_append_left _ h)
        · rcases List.mem_cons.mp h with hh | hr
          · refine Or.inl ?_
            have hu : u = c := congrArg Prod.fst hh
            rw [hkeys, hu]
            exact List.mem_append_right _ (List.mem_singleton_self _)
          · exact Or.inr (Or.inl (List.mem_append_left _ hr))
        · by_cases hpc : p = c
          · subst hpc
            have husome : (findEntityById s u).isSome := relAdj_entity hFK hadj
            have hnb : u ∈ neighborsRow s p :=
              (neighborsRow_iff s p u).mpr ⟨hadj, husome⟩
            by_cases hvu : visitedHas (V ++ [(p, infoC)]) u = true
            · exact Or.inl ((visitedHas_iff _ _).mp hvu)
            · refine Or.inr (Or.inl (List.mem_append_right _ ?_))
              refine (pushes_mem s p d _ (u, su)).mpr ⟨hnb, by omega, ?_⟩
              exact Bool.eq_false_iff.mpr hvu
          · refine Or.inr (Or.inr ⟨hsu, p, hadj, hpd, ?_, ?_⟩)
            · rcases List.mem_cons.mp hpQ with hh | hr
              · exact absurd (congrArg Prod.fst hh) hpc
              · exact List.mem_append_left _ hr
            · rw [hkeys]
              intro hmem
              rcases List.mem_append.mp hmem with h2 | h2
              · exact hpnk h2
              · simp only [List.mem_singleton] at h2
                exact hpc h2
    · intro kv hkv hdep u hadj husome
      rcases List.mem_append.mp hkv with h | h
      · rcases hinv.expanded kv h hdep u hadj husome with h2 | ⟨du, hdu⟩
        · exact Or.inl (by rw [hkeys]; exact List.mem_append_left _ h2)
        · rcases List.mem_cons.mp hdu with hh | hr
          · refine Or.inl ?_
            have hu : u = c := congrArg Prod.fst hh
            rw [hkeys, hu]
            exact List.mem_append_right _ (List.mem_singleton_self _)
          · exact Or.inr ⟨du, List.mem_append_left _ hr⟩
      · simp only [List.mem_singleton] at h
        subst h
        have hnb : u ∈ neighborsRow s c :=
          (neighborsRow_iff s c u).mpr ⟨hadj, husome⟩
        by_cases hvu : visitedHas (V ++ [(c, infoC)]) u = true
        · exact Or.inl ((visitedHas_iff _ _).mp hvu)
        · refine Or.inr ⟨d + 1, List.mem_append_right _ ?_⟩
          refine (pushes_mem s c d _ (u, d + 1)).mpr ⟨hnb, rfl, ?_⟩
          exact Bool.eq_false_iff.mpr hvu
  · rw [if_neg hdm]
    refine ⟨hvsound2, hvnodup2, ?_, ?_, ?_⟩
    · intro x hx
      exact hinv.qsound x (List.mem_cons_of_mem _ hx)
    · refine ⟨d, A, B, hrestAB, hA, hB, ?_⟩
      intro u su hsh hsmax hsd1
      rcases ncompl u su hsh hsmax hsd1 with h | h | ⟨hsu, _⟩
      · exact Or.inl (by rw [hkeys]; exact List.mem_append_left _ h)
      · rcases List.mem_cons.mp h with hh | hr
        · refine Or.inl ?_
          have hu : u = c := congrArg Prod.fst hh
          rw [hkeys, hu]
          exact List.mem_append_right _ (List.mem_singleton_self _)
        · exact Or.inr (Or.inl hr)
      · omega
    · intro kv hkv hdep u hadj husome
      rcases List.mem_append.mp hkv with h | h
      · rcases hinv.expanded kv h hdep u hadj husome with h2 | ⟨du, hdu⟩
        · exact Or.inl (by rw [hkeys]; exact List.mem_append_left _ h2)
        · rcases List.mem_cons.mp hdu with hh | hr
          · refine Or.inl ?_
            have hu : u = c := congrArg Prod.fst hh
            rw [hkeys, hu]
            exact List.mem_append_right _ (List.mem_singleton_self _)
          · exact Or.inr ⟨du, hr⟩
      · simp only [List.mem_singleton] at h
        subst h
        exfalso
        have hdep2 : infoC.depth < maxDepth := hdep
        rw [hdepthC] at hdep2
        omega

/-- The BFS loop, run with enough fuel from any state satisfying the
invariant, drains the queue and ends in an invariant state. -/
theorem bfsAux_spec {s : Store} {seed : Id} {maxDepth : Nat}
    (hFK : ∀ r ∈ s.relationships, (findEntityById s r.from_entity).isSome
      ∧ (findEntityById s r.to_entity).isSome) :
    ∀ (fuel : Nat) (Q : List (Id × Nat)) (V : List (Id × RelatedInfo)),
    BfsInv s seed maxDepth Q V →
    Q.length + uCount s seed V * (s.relationships.length + 1) < fuel →
    BfsInv s seed maxDepth [] (bfsAux s seed maxDepth fuel Q V) := by
  intro fuel
  induction fuel with
  | zero =>
    intro Q V _ hsize
    omega
  | succ fuel ih =>
    intro Q V hinv hsize
    rcases Q with _ | ⟨⟨c, d⟩, rest⟩
    · exact hinv
    · obtain ⟨hreach, hdmax, hseed0⟩ := hinv.qsound (c, d) (List.mem_cons_self _ _)
      simp only [List.length_cons] at hsize
      have hbody : bfsAux s seed maxDepth (fuel + 1) ((c, d) :: rest) V
          = (if (visitedHas V c || decide (maxDepth < d)) = true then
              bfsAux s seed maxDepth fuel rest V
            else
              bfsAux s seed maxDepth fuel
                (if d < maxDepth then
                  rest ++ ((neighborsRow s c).filterMap (fun r =>
                    if visitedHas (if c == seed then
                        V ++ [(c, { depth := 0, name := "", type := none })]
                      else match findEntityById s c with
                        | some e => V ++ [(c, { depth := d, name := e.name, type := e.type })]
                        | none => V) r then none
                    else some (r, d + 1)))
                else rest)
                (if c == seed then
                    V ++ [(c, { depth := 0, name := "", type := none })]
                  else match findEntityById s c with
                    | some e => V ++ [(c, { depth := d, name := e.name, type := e.type })]
                    | none => V)) := rfl
      rw [hbody]
      by_cases hv : visitedHas V c = true
      · have hcond : (visitedHas V c || decide (maxDepth < d)) = true := by
          rw [hv]
          rfl
        rw [if_pos hcond]
        have hcKeys : c ∈ V.map Prod.fst := (visitedHas_iff V c).mp hv
        obtain ⟨A, B, hrestAB, hA, hB, ncompl⟩ := shape_norm hFK hinv
        refine ih rest V ⟨hinv.vsound, hinv.vnodup, ?_, ?_, ?_⟩ (by omega)
        · intro x hx
          exact hinv.qsound x (List.mem_cons_of_mem _ hx)
        · refine ⟨d, A, B, hrestAB, hA, hB, ?_⟩
          intro u su hsh hsmax hsd1
          rcases ncompl u su hsh hsmax hsd1 with h | h | ⟨hsu, p, hadj, hpd, hpQ, hpnk⟩
          · exact Or.inl h
          · rcases List.mem_cons.mp h with hh | hr
            · have hu : u = c := congrArg Prod.fst hh
              exact Or.inl (hu ▸ hcKeys)
            · exact Or.inr (Or.inl hr)
          · rcases List.mem_cons.mp hpQ with hh | hr
            · have hp : p = c := congrArg Prod.fst hh
              exact absurd (hp ▸ hcKeys) hpnk
            · exact Or.inr (Or.inr ⟨hsu, p, hadj, hpd, hr, hpnk⟩)
        · intro kv hkv hdep u hadj husome
          rcases hinv.expanded kv hkv hdep u hadj husome with h | ⟨du, hdu⟩
          · exact Or.inl h
          · rcases List.mem_cons.mp hdu with hh | hr
            · have hu : u = c := congrArg Prod.fst hh
              exact Or.inl (hu ▸ hcKeys)
            · exact Or.inr ⟨du, hr⟩
      · have hvfalse : visitedHas V c = false := Bool.eq_false_iff.mpr hv
        have hnd : decide (maxDepth < d) = false := by
          simp only [decide_eq_false_iff_not]
          omega
        rw [if_neg (by rw [hvfalse, hnd]; simp)]
        have hcV : c ∉ V.map Prod.fst := fun h => hv ((visitedHas_iff V c).mpr h)
        have hmulkey : ∀ (info : RelatedInfo),
            uCount s seed (V ++ [(c, info)]) < uCount s seed V →
            uCount s seed (V ++ [(c, info)]) * (s.relationships.length + 1)
              + (s.relationships.length + 1)
              ≤ uCount s seed V * (s.relationships.length + 1) := by
          intro info hUlt
          have h1 : uCount s seed (V ++ [(c, info)]) + 1 ≤ uCount s seed V := hUlt
          calc uCount s seed (V ++ [(c, info)]) * (s.relationships.length + 1)
              + (s.relationships.length + 1)
              = (uCount s seed (V ++ [(c, info)]) + 1)
                * (s.relationships.length + 1) := by ring
            _ ≤ uCount s seed V * (s.relationships.length + 1) :=
              Nat.mul_le_mul_right _ h1
        have hqlen : ∀ (vis : List (Id × RelatedInfo)),
            (if d < maxDepth then
              rest ++ ((neighborsRow s c).filterMap (fun r =>
                if visitedHas vis r then none else some (r, d + 1)))
            else rest).length ≤ rest.length + s.relationships.length := by
          intro vis
          by_cases hdm : d < maxDepth
          · rw [if_pos hdm, List.length_append]
            have h1 : ((neighborsRow s c).filterMap (fun r =>
                if visitedHas vis r then none
                else some (r, d + 1))).length ≤ (neighborsRow s c).length :=
              List.length_filterMap_le _ _
            have h2 : (neighborsRow s c).length ≤ s.relationships.length := by
              unfold neighborsRow
              exact List.length_filterMap_le _ _
            omega
          · rw [if_neg hdm]
            omega
        by_cases hcs : c = seed
        · have hVis : (if c == seed then
                V ++ [(c, ({ depth := 0, name := "", type := none } : RelatedInfo))]
              else match findEntityById s c with
                | some e => V ++ [(c, { depth := d, name := e.name, type := e.type })]
                | none => V)
              = V ++ [(c, ({ depth := 0, name := "", type := none } : RelatedInfo))] := by
            rw [if_pos (by simpa using hcs)]
          rw [hVis]
          have hd0 : d = 0 := hseed0 hcs
          have hinv2 := step_expand hFK hinv hcV
            (show ({ depth := 0, name := "", type := none } : RelatedInfo).depth = d by
              rw [hd0])
            (Or.inl ⟨hcs, rfl⟩)
          refine ih _ _ hinv2 ?_
          have hUlt : uCount s seed
              (V ++ [(c, ({ depth := 0, name := "", type := none } : RelatedInfo))])
              < uCount s seed V :=
            uCount_append_lt _ (Or.inl hcs) hcV
          have hm := hmulkey _ hUlt
          have hq := hqlen
            (V ++ [(c, ({ depth := 0, name := "", type := none } : RelatedInfo))])
          omega
        · have husome : (findEntityById s c).isSome := by
            rcases Nat.eq_zero_or_pos d with hd0 | hdpos
            · rw [hd0] at hreach
              exact absurd hreach hcs
            · obtain ⟨d2, hd2⟩ := Nat.exists_eq_succ_of_ne_zero (by omega : d ≠ 0)
              rw [hd2] at hreach
              exact reachIn_entity hFK hreach
          obtain ⟨e, he⟩ := Option.isSome_iff_exists.mp husome
          have hVis : (if c == seed then
                V ++ [(c, ({ depth := 0, name := "", type := none } : RelatedInfo))]
              else match findEntityById s c with
                | some e => V ++ [(c, { depth := d, name := e.name, type := e.type })]
                | none => V)
              = V ++ [(c, ({ depth := d, name := e.name, type := e.type } : RelatedInfo))] := by
            rw [if_neg (by simpa using hcs), he]
          rw [hVis]
          have hinv2 := step_expand hFK hinv hcV rfl (Or.inr ⟨hcs, e, he, rfl⟩)
          refine ih _ _ hinv2 ?_
          have hee : e ∈ s.entities ∧ e.id = c := by
            unfold findEntityById at he
            exact ⟨List.mem_of_find?_eq_some he, by simpa using List.find?_some he⟩
          have hUlt : uCount s seed
              (V ++ [(c, ({ depth := d, name := e.name, type := e.type } : RelatedInfo))])
              < uCount s seed V :=
            uCount_append_lt _ (Or.inr ⟨e, hee.1, hee.2⟩) hcV
          have hm := hmulkey _ hUlt
          have hq := hqlen
            (V ++ [(c, ({ depth := d, name := e.name, type := e.type } : RelatedInfo))])
          omega

/-- C5: getRelatedEntities runs an undirected BFS over the relationships:
the result never lists the seed, lists each entity at most once, contains
exactly the entities whose undirected shortest hop distance from the seed
is at most maxDepth (other than the seed itself), labels each with that
distance and its entity row's name and type, and is empty when
maxDepth = 0. -/
theorem getRelatedEntities_bfs (s : Store) (seed : Id) (maxDepth : Nat)
    (hFK : ∀ r ∈ s.relationships, (findEntityById s r.from_entity).isSome
      ∧ (findEntityById s r.to_entity).isSome) :
    ((getRelatedEntities s seed maxDepth).map Prod.fst).Nodup
    ∧ (∀ kv ∈ getRelatedEntities s seed maxDepth, kv.1 ≠ seed)
    ∧ (∀ c info, (c, info) ∈ getRelatedEntities s seed maxDepth ↔
        (c ≠ seed ∧ ∃ e d, findEntityById s c = some e
          ∧ isShortest s seed c d ∧ d ≤ maxDepth
          ∧ info = { depth := d, name := e.name, type := e.type }))
    ∧ (maxDepth = 0 → getRelatedEntities s seed maxDepth = []) := by
  have hinv0 : BfsInv s seed maxDepth [(seed, 0)] [] := by
    refine ⟨?_, ?_, ?_, ?_, ?_⟩
    · intro kv hkv
      cases hkv
    · simp
    · intro x hx
      simp only [List.mem_singleton] at hx
      subst hx
      exact ⟨rfl, Nat.zero_le _, fun _ => rfl⟩
    · refine ⟨0, [(seed, 0)], [], rfl, ?_, ?_, ?_⟩
      · intro x hx
        simp only [List.mem_singleton] at hx
        subst hx
        rfl
      · intro x hx
        cases hx
      · intro u su hsh hsmax hsd1
        by_cases hsu0 : su = 0
        · have hu : u = seed := shortest_of_zero hsh hsu0
          subst hu
          rw [hsu0]
          exact Or.inr (Or.inl (List.mem_singleton_self _))
        · have hsu1 : su = 1 := by omega
          have hsh2 : isShortest s seed u (0 + 1) := by
            rw [Nat.zero_add]
            exact hsu1 ▸ hsh
          obtain ⟨p, hadj, hpd⟩ := shortest_pred hsh2
          have hps : p = seed := shortest_of_zero hpd rfl
          subst hps
          refine Or.inr (Or.inr ⟨by omega, p, hadj, hpd, ?_, ?_⟩)
          · exact List.mem_singleton_self _
          · simp
    · intro kv hkv
      cases hkv
  have hU := uCount_le s seed []
  have hmul : uCount s seed [] * (s.relationships.length + 1)
      ≤ (s.entities.length + 1) * (s.relationships.length + 1) :=
    Nat.mul_le_mul_right _ hU
  have hexpand : (s.entities.length + 2) * (s.relationships.length + 1)
      = (s.entities.length + 1) * (s.relationships.length + 1)
        + (s.relationships.length + 1) := by ring
  have hfuel : [(seed, 0)].length
      + uCount s seed [] * (s.relationships.length + 1) < bfsFuel s := by
    unfold bfsFuel
    simp only [List.length_singleton]
    omega
  have hfin := bfsAux_spec hFK (bfsFuel s) [(seed, 0)] [] hinv0 hfuel
  have hres : getRelatedEntities s seed maxDepth
      = (bfsAux s seed maxDepth (bfsFuel s) [(seed, 0)] []).filter
          (fun kv => kv.1 != seed) := rfl
  have hiff : ∀ c info, (c, info) ∈ getRelatedEntities s seed maxDepth ↔
      (c ≠ seed ∧ ∃ e d, findEntityById s c = some e
        ∧ isShortest s seed c d ∧ d ≤ maxDepth
        ∧ info = { depth := d, name := e.name, type := e.type }) := by
    intro c info
    rw [hres, List.mem_filter]
    constructor
    · rintro ⟨hW, hne⟩
      have hne2 : c ≠ seed := by simpa using hne
      rcases hfin.vsound (c, info) hW with ⟨hcs, _⟩ | ⟨_, e, he, hshort, hle, hname, htype⟩
      · exact absurd hcs hne2
      · refine ⟨hne2, e, info.depth, he, hshort, hle, ?_⟩
        obtain ⟨dep, nm, ty⟩ := info
        simp only at hname htype ⊢
        rw [hname, htype]
    · rintro ⟨hne, e, d, he, hshort, hle, hinfoeq⟩
      have hcW : c ∈ (bfsAux s seed maxDepth (bfsFuel s) [(seed, 0)] []).map
          Prod.fst := terminal_complete hFK hfin d c hshort hle
      rcases List.mem_map.mp hcW with ⟨⟨c1, info1⟩, hkvW, hk1⟩
      have hc1 : c1 = c := hk1
      subst hc1
      rcases hfin.vsound (c1, info1) hkvW with ⟨hcs, _⟩ | ⟨_, e2, he2, hshort2, _, hname2, htype2⟩
      · exact absurd hcs hne
      · have he3 : e2 = e := by
          rw [he] at he2
          exact (Option.some.inj he2).symm
        have hd3 : info1.depth = d := isShortest_unique hshort2 hshort
        have hinfo3 : info1 = info := by
          rw [hinfoeq]
          obtain ⟨dep, nm, ty⟩ := info1
          simp only at hname2 htype2 hd3
          rw [← he3, ← hname2, ← htype2, hd3]
        rw [← hinfo3]
        exact ⟨hkvW, by simpa using hne⟩
  refine ⟨?_, ?_, hiff, ?_⟩
  · rw [hres]
    exact hfin.vnodup.sublist ((List.filter_sublist _).map Prod.fst)
  · intro kv hkv
    rw [hres, List.mem_filter] at hkv
    simpa using hkv.2
  · intro h0
    rw [List.eq_nil_iff_forall_not_mem]
    rintro ⟨c, info⟩ hmem
    rcases (hiff c info).mp hmem with ⟨hne, e, d, _, hshort, hle, _⟩
    have hd0 : d = 0 := by omega
    exact hne (shortest_of_zero hshort hd0)

def exEntityB : Entity :=
  { id := 1, name := "beta", type := none, created_at := 0, updated_at := 0 }

def exRel : Relationship :=
  { id := 2, from_entity := 0, to_entity := 1, relation_type := "related_to"
    created_at := 0 }

def exStore3 : Store :=
  { entities := [exEntityA, exEntityB], observations := [], embeddings := []
    relationships := [exRel], nextId := 3 }

theorem getRelatedEntities_bfs_witness :
    (∀ kv ∈ getRelatedEntities exStore3 0 2, kv.1 ≠ 0)
    ∧ getRelatedEntities exStore3 0 0 = [] :=
  ⟨(getRelatedEntities_bfs exStore3 0 2 (by decide)).2.1,
   (getRelatedEntities_bfs exStore3 0 0 (by decide)).2.2.2 rfl⟩

end Hippocampus
